import Mathlib

/-!
Verification development for a static call-graph analyzer.

The analyzer walks a tree of Python-like source files, builds a directed
graph of `dir` / `file` / `class` / `function` nodes connected by
`imports` / `calls` / `has` / `is` edges, and serializes the result to the
DOT graph-description format.

Strings from the original program are modelled as `List Char` (named `Str`
below), which keeps concatenation and prefix tests transparent to proofs.
Machine file paths, parsing and I/O are external: the parser is modelled by
supplying each source file together with an optional syntax tree (`none`
models a `SyntaxError`), and `write_dot` is modelled as the pure function
producing the text that would be written.
-/

/-- Program strings, modelled as lists of characters. -/
abbrev Str := List Char

namespace CallGraph

/-- A node in the call graph (class `Node` of the analyzer).
`kind` is one of `dir | file | class | function`; `party` is `"1st"` for
entities of the analyzed tree and `"3rd"` for external references; `loc`
is the source-line extent. -/
structure Node where
  id : Str
  kind : String
  label : Str
  party : String
  loc : Nat
deriving DecidableEq

/-- A directed edge (class `Edge`): `kind` is one of
`imports | calls | has | is`. -/
structure Edge where
  src : Str
  dst : Str
  kind : String
deriving DecidableEq

/-- The graph store (class `Graph`): nodes are kept in insertion order with
unique ids (a Python `dict` keyed by id), edges are an append-only list. -/
structure Graph where
  nodes : List Node
  edges : List Edge
deriving DecidableEq

/-- The empty store (`Graph.__init__`). -/
def Graph.empty : Graph := ⟨[], []⟩

/-- Lookup of a node by id: first (and only) node in insertion order whose
id matches (dictionary access `self.nodes[id]` / `id in self.nodes`). -/
def Graph.getNode (g : Graph) (id : Str) : Option Node :=
  g.nodes.find? (fun n => n.id == id)

/-- `Graph.add_node`: insert a node only when the id is absent. -/
def Graph.add_node (g : Graph) (id : Str) (kind : String) (label : Str)
    (party : String) (loc : Nat) : Graph :=
  if (g.getNode id).isSome then g
  else { g with nodes := g.nodes ++ [⟨id, kind, label, party, loc⟩] }

/-- `Graph.add_edge`: append an edge (duplicates permitted). -/
def Graph.add_edge (g : Graph) (src dst : Str) (kind : String) : Graph :=
  { g with edges := g.edges ++ [⟨src, dst, kind⟩] }

/-!
## The abstract syntax tree

A closed variant type covering the syntax constructs the walker dispatches
on.  `Other` stands for any further statement or expression shape
(assignments, `if` blocks, subscripts, literals, ...) whose children are
walked generically; `ast.iter_child_nodes` is modelled by `Ast.children`.
-/

inductive Ast where
  | Module (body : List Ast)
  | Import (names : List Str)
  | ImportFrom (module : Option Str)
  | ClassDef (name : Str) (bases : List Ast) (body : List Ast)
      (lineno : Nat) (end_lineno : Option Nat)
  | FunctionDef (name : Str) (body : List Ast)
      (lineno : Nat) (end_lineno : Option Nat)
  | AsyncFunctionDef (name : Str) (body : List Ast)
      (lineno : Nat) (end_lineno : Option Nat)
  | Name (id : Str)
  | Attribute (value : Ast) (attr : Str)
  | Call (func : Ast) (args : List Ast)
  | Other (children : List Ast)

/-- Is this node a function or class definition (the shapes at which the
call scan stops)? -/
def Ast.isDef : Ast → Bool
  | .FunctionDef .. => true
  | .AsyncFunctionDef .. => true
  | .ClassDef .. => true
  | _ => false

/-- Is this node a call expression? -/
def Ast.isCall : Ast → Bool
  | .Call .. => true
  | _ => false

/-- `ast.iter_child_nodes`, restricted to the fields the model carries. -/
def Ast.children : Ast → List Ast
  | .Module body => body
  | .Import _ => []
  | .ImportFrom _ => []
  | .ClassDef _ bases body _ _ => bases ++ body
  | .FunctionDef _ body _ _ => body
  | .AsyncFunctionDef _ body _ _ => body
  | .Name _ => []
  | .Attribute value _ => [value]
  | .Call func args => func :: args
  | .Other children => children

/-- `_resolve_name`: extract a dotted name from an expression.  A `Name`
yields its identifier; an `Attribute` yields `<sub>.<attr>` when the
sub-expression resolves to a non-empty string and bare `attr` otherwise
(Python's truthiness test `if val:` treats both `None` and `""` as
failure); every other shape yields `none`. -/
def resolve_name : Ast → Option Str
  | .Name id => some id
  | .Attribute value attr =>
    (match resolve_name value with
     | some val => if val ≠ [] then some (val ++ '.' :: attr) else some attr
     | none => some attr)
  | _ => none

/-- The last dotted segment: `name.rsplit(".", 1)[-1] if "." in name else
name`. -/
def shortName (name : Str) : Str :=
  if '.' ∈ name then (name.splitOn '.').getLastD [] else name

/-- `n.kind in ("function", "class")`. -/
def fnOrClass (n : Node) : Bool := n.kind == "function" || n.kind == "class"

/-- `CallGraphVisitor._resolve_target`: best-effort resolution of a called
name to a node id over the store in insertion order, synthesizing an
external placeholder when nothing matches.  `fid` is the current file's
node id (`self.file_id`). -/
def resolve_target (fid : Str) (g : Graph) (name : Str) : Graph × Str :=
  let short_name := shortName name
  match g.nodes.find? (fun n => n.label == name && fnOrClass n) with
  | some n => (g, n.id)
  | none =>
    let same_file := g.nodes.filter
      (fun n => n.label == short_name && fnOrClass n && fid.isPrefixOf n.id)
    let other := g.nodes.filter
      (fun n => n.label == short_name && fnOrClass n && !(fid.isPrefixOf n.id))
    match same_file.head? with
    | some n => (g, n.id)
    | none =>
      match other.head? with
      | some n => (g, n.id)
      | none =>
        let placeholder_id := ("function:".toList) ++ name
        (g.add_node placeholder_id "function" short_name "3rd" 0, placeholder_id)

/-- `_current_scope_id`: top of the scope stack, or the enclosing file id
when the stack is empty. -/
def curScope (fid : Str) (stk : List Str) : Str := stk.headD fid

/-- `_make_id`: `f"{parent}::{kind}:{name}"` with the current scope as
parent. -/
def makeId (fid : Str) (stk : List Str) (kind : String) (name : Str) : Str :=
  curScope fid stk ++ "::".toList ++ kind.toList ++ ":".toList ++ name

/-- `_handle_call`: extract a dotted name from the callee; when resolvable,
resolve it to a target node (possibly creating a placeholder) and append a
`calls` edge from the current scope (`scope`). -/
def handle_call (fid scope : Str) (g : Graph) (c : Ast) : Graph :=
  match c with
  | .Call func _ =>
    (match resolve_name func with
     | none => g
     | some called =>
       let gt := resolve_target fid g called
       gt.1.add_edge scope gt.2 "calls")
  | _ => g

mutual

/-- One iteration of the loop in `_walk_body_for_calls`: a nested
function/class definition is skipped entirely; a call expression is handled
and then, like every other non-definition child, recursively walked (so the
arguments of a call are scanned for further calls). -/
def walkChild (fid scope : Str) (g : Graph) (c : Ast) : Graph :=
  if c.isDef then g
  else
    let g1 := if c.isCall then handle_call fid scope g c else g
    walkBody fid scope g1 c
termination_by 2 * sizeOf c + 1

/-- `_walk_body_for_calls`: iterate over a node's children
(`ast.iter_child_nodes`), dispatching each through the loop body above. -/
def walkBody (fid scope : Str) (g : Graph) : Ast → Graph
  | .Module body => walkKids fid scope g body
  | .Import _ => g
  | .ImportFrom _ => g
  | .ClassDef _ bases body _ _ =>
    walkKids fid scope (walkKids fid scope g bases) body
  | .FunctionDef _ body _ _ => walkKids fid scope g body
  | .AsyncFunctionDef _ body _ _ => walkKids fid scope g body
  | .Name _ => g
  | .Attribute value _ => walkChild fid scope g value
  | .Call func args => walkKids fid scope (walkChild fid scope g func) args
  | .Other children => walkKids fid scope g children
termination_by a => 2 * sizeOf a

/-- The `for child in ast.iter_child_nodes(node)` loop of
`_walk_body_for_calls`. -/
def walkKids (fid scope : Str) (g : Graph) : List Ast → Graph
  | [] => g
  | c :: cs => walkKids fid scope (walkChild fid scope g c) cs
termination_by cs => 2 * sizeOf cs

end

mutual

/-- The call expressions `_walk_body_for_calls` hands to `_handle_call`
when started at child `c`, in handling order. -/
def collectChild (c : Ast) : List Ast :=
  if c.isDef then []
  else (if c.isCall then [c] else []) ++ collectBody c
termination_by 2 * sizeOf c + 1

/-- The call expressions `_walk_body_for_calls` hands to `_handle_call`
when started at node `a` (the node's own call shape excluded), in order. -/
def collectBody : Ast → List Ast
  | .Module body => collectKids body
  | .Import _ => []
  | .ImportFrom _ => []
  | .ClassDef _ bases body _ _ => collectKids bases ++ collectKids body
  | .FunctionDef _ body _ _ => collectKids body
  | .AsyncFunctionDef _ body _ _ => collectKids body
  | .Name _ => []
  | .Attribute value _ => collectChild value
  | .Call func args => collectChild func ++ collectKids args
  | .Other children => collectKids children
termination_by a => 2 * sizeOf a

/-- `collectChild` over a list of children. -/
def collectKids : List Ast → List Ast
  | [] => []
  | c :: cs => collectChild c ++ collectKids cs
termination_by cs => 2 * sizeOf cs

end

mutual

/-- `ast.NodeVisitor.visit` dispatch: `Import`, `ImportFrom`, `ClassDef`,
`FunctionDef` and `AsyncFunctionDef` have dedicated handlers; every other
node falls through to `generic_visit`, which visits the children in order.
The scope stack `stk` (top = head) is threaded functionally: a push is a
cons in the recursive call and the pop is implicit on return. -/
def visit (fid : Str) (stk : List Str) (g : Graph) : Ast → Graph
  | .Module body => visitList fid stk g body
  | .Import names =>
    names.foldl (fun g nm =>
      let mod_id := "file:".toList ++ nm
      (g.add_node mod_id "file" nm "3rd" 0).add_edge
        (curScope fid stk) mod_id "imports") g
  | .ImportFrom module =>
    (match module with
     | none => g
     | some m =>
       let mod_id := "file:".toList ++ m
       (g.add_node mod_id "file" m "3rd" 0).add_edge
         (curScope fid stk) mod_id "imports")
  | .ClassDef name bases body lineno end_lineno =>
    let cls_id := makeId fid stk "class" name
    let loc := (end_lineno.getD lineno) - lineno + 1
    let g1 := (g.add_node cls_id "class" name "1st" loc).add_edge
      (curScope fid stk) cls_id "has"
    let g2 := bases.foldl (fun g b =>
      match resolve_name b with
      | some base_name =>
        if base_name ≠ [] then
          let base_id := "class:".toList ++ base_name
          (g.add_node base_id "class" base_name "3rd" 0).add_edge
            cls_id base_id "is"
        else g
      | none => g) g1
    -- generic_visit: the children of a ClassDef are its bases followed by
    -- its body, visited in order under the pushed class scope
    visitList fid (cls_id :: stk) (visitList fid (cls_id :: stk) g2 bases) body
  | .FunctionDef name body lineno end_lineno =>
    visitFunction fid stk g name body lineno end_lineno
  | .AsyncFunctionDef name body lineno end_lineno =>
    visitFunction fid stk g name body lineno end_lineno
  | .Name _ => g
  | .Attribute value _ => visit fid stk g value
  | .Call func args => visitList fid stk (visit fid stk g func) args
  | .Other children => visitList fid stk g children
termination_by a => 2 * sizeOf a

/-- `_visit_function` (shared by the ordinary and async variants): create
the function node, emit the containment edge, scan the immediate body for
calls under the pushed function scope, then recurse generically into the
body for nested definitions. -/
def visitFunction (fid : Str) (stk : List Str) (g : Graph) (name : Str)
    (body : List Ast) (lineno : Nat) (end_lineno : Option Nat) : Graph :=
  let func_id := makeId fid stk "function" name
  let loc := (end_lineno.getD lineno) - lineno + 1
  let g1 := (g.add_node func_id "function" name "1st" loc).add_edge
    (curScope fid stk) func_id "has"
  -- _walk_body_for_calls(node); an AsyncFunctionDef node has the same
  -- children, so walkBody gives the same result for both variants
  let g2 := walkBody fid func_id g1 (.FunctionDef name body lineno end_lineno)
  visitList fid (func_id :: stk) g2 body
termination_by 2 * sizeOf body + 1

/-- `generic_visit`'s loop over a list of child nodes. -/
def visitList (fid : Str) (stk : List Str) (g : Graph) : List Ast → Graph
  | [] => g
  | a :: as => visitList fid stk (visit fid stk g a) as
termination_by as => 2 * sizeOf as

end

/-!
## Basic store lemmas
-/

theorem getNode_add_edge (g : Graph) (s d : Str) (k : String) (i : Str) :
    (g.add_edge s d k).getNode i = g.getNode i := rfl

theorem edges_add_node (g : Graph) (id : Str) (k : String) (l : Str)
    (p : String) (s : Nat) : (g.add_node id k l p s).edges = g.edges := by
  unfold Graph.add_node
  split <;> rfl

/-- The store only ever grows: `g'` extends `g` when the node and edge
lists of `g` are prefixes of those of `g'`. -/
def Extends (g g' : Graph) : Prop :=
  (∃ ns, g'.nodes = g.nodes ++ ns) ∧ (∃ es, g'.edges = g.edges ++ es)

theorem Extends.refl (g : Graph) : Extends g g :=
  ⟨⟨[], by simp⟩, ⟨[], by simp⟩⟩

theorem Extends.trans {g₁ g₂ g₃ : Graph} (h₁ : Extends g₁ g₂)
    (h₂ : Extends g₂ g₃) : Extends g₁ g₃ := by
  obtain ⟨⟨ns₁, hn₁⟩, ⟨es₁, he₁⟩⟩ := h₁
  obtain ⟨⟨ns₂, hn₂⟩, ⟨es₂, he₂⟩⟩ := h₂
  exact ⟨⟨ns₁ ++ ns₂, by simp [hn₂, hn₁]⟩, ⟨es₁ ++ es₂, by simp [he₂, he₁]⟩⟩

theorem extends_add_node (g : Graph) (id : Str) (k : String) (l : Str)
    (p : String) (s : Nat) : Extends g (g.add_node id k l p s) := by
  unfold Graph.add_node
  split
  · exact Extends.refl g
  · exact ⟨⟨[⟨id, k, l, p, s⟩], rfl⟩, ⟨[], by simp⟩⟩

theorem extends_add_edge (g : Graph) (s d : Str) (k : String) :
    Extends g (g.add_edge s d k) :=
  ⟨⟨[], by simp [Graph.add_edge]⟩, ⟨[⟨s, d, k⟩], rfl⟩⟩

/-- A node found by id keeps being found (with the same fields) in any
extension of the store. -/
theorem getNode_mono {g g' : Graph} (h : Extends g g') {i : Str} {n : Node}
    (hfind : g.getNode i = some n) : g'.getNode i = some n := by
  obtain ⟨⟨ns, hn⟩, -⟩ := h
  unfold Graph.getNode at *
  rw [hn, List.find?_append, hfind]
  rfl

theorem mem_nodes_mono {g g' : Graph} (h : Extends g g') {n : Node}
    (hn : n ∈ g.nodes) : n ∈ g'.nodes := by
  obtain ⟨⟨ns, hns⟩, -⟩ := h
  rw [hns]
  exact List.mem_append_left _ hn

theorem mem_edges_mono {g g' : Graph} (h : Extends g g') {e : Edge}
    (he : e ∈ g.edges) : e ∈ g'.edges := by
  obtain ⟨-, ⟨es, hes⟩⟩ := h
  rw [hes]
  exact List.mem_append_left _ he

theorem extends_resolve_target (fid : Str) (g : Graph) (name : Str) :
    Extends g (resolve_target fid g name).1 := by
  simp only [resolve_target]
  repeat' split
  all_goals first
    | exact Extends.refl g
    | exact extends_add_node ..

theorem extends_handle_call (fid scope : Str) (g : Graph) (c : Ast) :
    Extends g (handle_call fid scope g c) := by
  simp only [handle_call]
  repeat' split
  all_goals first
    | exact Extends.refl g
    | exact Extends.trans (extends_resolve_target fid g _) (extends_add_edge ..)

mutual

theorem walkChild_extends (fid scope : Str) (g : Graph) (c : Ast) :
    Extends g (walkChild fid scope g c) := by
  rw [walkChild]
  split
  · exact Extends.refl g
  · refine Extends.trans ?_ (walkBody_extends fid scope _ c)
    split
    · exact extends_handle_call ..
    · exact Extends.refl g
termination_by 2 * sizeOf c + 1

theorem walkBody_extends (fid scope : Str) (g : Graph) (a : Ast) :
    Extends g (walkBody fid scope g a) := by
  cases a with
  | Module body => rw [walkBody]; exact walkKids_extends fid scope g body
  | Import names => rw [walkBody]; exact Extends.refl g
  | ImportFrom m => rw [walkBody]; exact Extends.refl g
  | ClassDef name bases body lineno end_lineno =>
    rw [walkBody]
    exact Extends.trans (walkKids_extends fid scope g bases)
      (walkKids_extends fid scope _ body)
  | FunctionDef name body lineno end_lineno =>
    rw [walkBody]; exact walkKids_extends fid scope g body
  | AsyncFunctionDef name body lineno end_lineno =>
    rw [walkBody]; exact walkKids_extends fid scope g body
  | Name id => rw [walkBody]; exact Extends.refl g
  | Attribute value attr => rw [walkBody]; exact walkChild_extends fid scope g value
  | Call func args =>
    rw [walkBody]
    exact Extends.trans (walkChild_extends fid scope g func)
      (walkKids_extends fid scope _ args)
  | Other children => rw [walkBody]; exact walkKids_extends fid scope g children
termination_by 2 * sizeOf a

theorem walkKids_extends (fid scope : Str) (g : Graph) (cs : List Ast) :
    Extends g (walkKids fid scope g cs) := by
  cases cs with
  | nil => rw [walkKids]; exact Extends.refl g
  | cons c rest =>
    rw [walkKids]
    exact Extends.trans (walkChild_extends fid scope g c)
      (walkKids_extends fid scope _ rest)
termination_by 2 * sizeOf cs

end

/-- The per-alias loop of `visit_Import` only grows the store. -/
theorem extends_import_fold (scopeId : Str) (names : List Str) (g : Graph) :
    Extends g (names.foldl (fun g nm =>
      let mod_id := "file:".toList ++ nm
      (g.add_node mod_id "file" nm "3rd" 0).add_edge scopeId mod_id "imports")
      g) := by
  induction names generalizing g with
  | nil => exact Extends.refl g
  | cons nm rest ih =>
    rw [List.foldl_cons]
    exact Extends.trans
      (Extends.trans (extends_add_node ..) (extends_add_edge ..)) (ih _)

/-- The base-class loop of `visit_ClassDef` only grows the store. -/
theorem extends_bases_fold (cls_id : Str) (bases : List Ast) (g1 : Graph) :
    Extends g1 (bases.foldl (fun g b =>
      match resolve_name b with
      | some base_name =>
        if base_name ≠ [] then
          let base_id := "class:".toList ++ base_name
          (g.add_node base_id "class" base_name "3rd" 0).add_edge
            cls_id base_id "is"
        else g
      | none => g) g1) := by
  induction bases generalizing g1 with
  | nil => exact Extends.refl g1
  | cons b rest ih =>
    rw [List.foldl_cons]
    refine Extends.trans ?_ (ih _)
    cases hb : resolve_name b with
    | none => exact Extends.refl g1
    | some bn =>
      dsimp only
      split
      · exact Extends.trans (extends_add_node ..) (extends_add_edge ..)
      · exact Extends.refl g1

mutual

theorem visit_extends (fid : Str) (stk : List Str) (g : Graph) (a : Ast) :
    Extends g (visit fid stk g a) := by
  cases a with
  | Module body => rw [visit]; exact visitList_extends fid stk g body
  | Import names =>
    rw [visit]; exact extends_import_fold (curScope fid stk) names g
  | ImportFrom m =>
    cases m with
    | none => rw [visit]; exact Extends.refl g
    | some m =>
      rw [visit]
      exact Extends.trans (extends_add_node ..) (extends_add_edge ..)
  | ClassDef name bases body lineno end_lineno =>
    rw [visit]
    refine Extends.trans ?_ (visitList_extends fid _ _ body)
    refine Extends.trans ?_ (visitList_extends fid _ _ bases)
    exact Extends.trans
      (Extends.trans (extends_add_node ..) (extends_add_edge ..))
      (extends_bases_fold (makeId fid stk "class" name) bases _)
  | FunctionDef name body lineno end_lineno =>
    rw [visit]; exact visitFunction_extends fid stk g name body lineno end_lineno
  | AsyncFunctionDef name body lineno end_lineno =>
    rw [visit]; exact visitFunction_extends fid stk g name body lineno end_lineno
  | Name id => rw [visit]; exact Extends.refl g
  | Attribute value attr => rw [visit]; exact visit_extends fid stk g value
  | Call func args =>
    rw [visit]
    exact Extends.trans (visit_extends fid stk g func)
      (visitList_extends fid stk _ args)
  | Other children => rw [visit]; exact visitList_extends fid stk g children
termination_by 2 * sizeOf a

theorem visitFunction_extends (fid : Str) (stk : List Str) (g : Graph)
    (name : Str) (body : List Ast) (lineno : Nat) (end_lineno : Option Nat) :
    Extends g (visitFunction fid stk g name body lineno end_lineno) := by
  rw [visitFunction]
  refine Extends.trans ?_ (visitList_extends fid _ _ body)
  exact Extends.trans
    (Extends.trans (extends_add_node ..) (extends_add_edge ..))
    (walkBody_extends ..)
termination_by 2 * sizeOf body + 1

theorem visitList_extends (fid : Str) (stk : List Str) (g : Graph)
    (as : List Ast) : Extends g (visitList fid stk g as) := by
  cases as with
  | nil => rw [visitList]; exact Extends.refl g
  | cons a rest =>
    rw [visitList]
    exact Extends.trans (visit_extends fid stk g a)
      (visitList_extends fid stk _ rest)
termination_by 2 * sizeOf as

end

/-!
## C2: first writer wins in the node store
-/

theorem add_node_noop (g : Graph) (id : Str) (k : String) (l : Str)
    (p : String) (s : Nat) (h : (g.getNode id).isSome = true) :
    g.add_node id k l p s = g := by
  unfold Graph.add_node
  rw [if_pos h]

theorem getNode_add_node_fresh (g : Graph) (id : Str) (k : String) (l : Str)
    (p : String) (s : Nat) (h : g.getNode id = none) :
    (g.add_node id k l p s).getNode id = some ⟨id, k, l, p, s⟩ := by
  unfold Graph.add_node
  rw [h]
  simp only [Option.isSome_none, Bool.false_eq_true, if_false]
  unfold Graph.getNode at h ⊢
  simp [List.find?_append, h]

/-- **C2.** `add_node` inserts a node only when the id is absent from the
store; re-adding an existing id is a no-op, so the kind, label, origin and
size recorded for an id are those of the first insertion and are never
overwritten by any later `add_node` call with the same id. -/
theorem c2_add_node_first_writer_wins (g : Graph) (id : Str)
    (k k' : String) (l l' : Str) (p p' : String) (s s' : Nat) :
    ((g.getNode id).isSome = true → g.add_node id k l p s = g) ∧
    (g.getNode id = none →
      (g.add_node id k l p s).getNode id = some ⟨id, k, l, p, s⟩) ∧
    (g.add_node id k l p s).add_node id k' l' p' s' = g.add_node id k l p s := by
  refine ⟨fun h => add_node_noop g id k l p s h,
    fun h => getNode_add_node_fresh g id k l p s h, ?_⟩
  cases hg : g.getNode id with
  | some n =>
    have h1 : g.add_node id k l p s = g :=
      add_node_noop g id k l p s (by rw [hg]; rfl)
    rw [h1]
    exact add_node_noop g id k' l' p' s' (by rw [hg]; rfl)
  | none =>
    have h1 : (g.add_node id k l p s).getNode id = some ⟨id, k, l, p, s⟩ :=
      getNode_add_node_fresh g id k l p s hg
    exact add_node_noop _ id k' l' p' s' (by rw [h1]; rfl)

/-- Witness for C2 at a concrete store: the second insertion with the same
id changes nothing, and the recorded node is the first one. -/
theorem c2_witness :
    ((Graph.empty.add_node "x".toList "function" "f".toList "1st" 3).add_node
        "x".toList "class" "g".toList "3rd" 7
      = Graph.empty.add_node "x".toList "function" "f".toList "1st" 3) ∧
    ((Graph.empty.add_node "x".toList "function" "f".toList "1st" 3).getNode
        "x".toList
      = some ⟨"x".toList, "function", "f".toList, "1st", 3⟩) :=
  ⟨(c2_add_node_first_writer_wins Graph.empty "x".toList "function" "class"
      "f".toList "g".toList "1st" "3rd" 3 7).2.2,
   (c2_add_node_first_writer_wins Graph.empty "x".toList "function" "class"
      "f".toList "g".toList "1st" "3rd" 3 7).2.1 (by decide)⟩

/-!
## C1: resolver precedence
-/

theorem head?_filter_eq_find? (p : Node → Bool) (l : List Node) :
    (l.filter p).head? = l.find? p := by
  induction l with
  | nil => rfl
  | cons x xs ih =>
    by_cases hx : p x <;> simp [List.filter_cons, hx, ih]

/-- When no node satisfies both `a`, `b` and `c`, the first node satisfying
`a`, `b` and not `c` is the first node satisfying `a` and `b`. -/
theorem head?_filter_not_eq_find? (a b c : Node → Bool) (l : List Node)
    (h : l.filter (fun n => a n && b n && c n) = []) :
    (l.filter (fun n => a n && b n && !(c n))).head?
      = l.find? (fun n => a n && b n) := by
  induction l with
  | nil => rfl
  | cons x xs ih =>
    rw [List.filter_cons] at h ⊢
    by_cases ha : a x
    · by_cases hb : b x
      · by_cases hc : c x
        · rw [if_pos (by simp [ha, hb, hc])] at h
          exact absurd h (List.cons_ne_nil _ _)
        · simp [ha, hb, hc]
      · rw [if_neg (by simp [hb])] at h
        simp only [ha, hb, Bool.false_and, Bool.and_false, if_false]
        rw [List.find?_cons_of_neg _ (by simp [hb])]
        exact ih h
    · rw [if_neg (by simp [ha])] at h
      simp only [ha, Bool.false_and, if_false]
      rw [List.find?_cons_of_neg _ (by simp [ha])]
      exact ih h

/-- **C1.** Target resolution precedence of `_resolve_target` over the
store in insertion order: first the first node labelled with the full
dotted name whose kind is class or function; else, among the nodes
labelled with the last dotted segment (kind class or function), the first
one nested under the current file's id, or, failing that, the first one in
insertion order; else a fresh external-origin function node keyed by the
full dotted name and labelled with the last segment. -/
theorem c1_resolver_precedence (fid : Str) (g : Graph) (name : Str) :
    resolve_target fid g name =
      match g.nodes.find? (fun n => n.label == name && fnOrClass n) with
      | some n => (g, n.id)
      | none =>
        match g.nodes.find? (fun n => n.label == shortName name &&
            fnOrClass n && List.isPrefixOf fid n.id) with
        | some n => (g, n.id)
        | none =>
          match g.nodes.find? (fun n =>
              n.label == shortName name && fnOrClass n) with
          | some n => (g, n.id)
          | none =>
            (g.add_node ("function:".toList ++ name) "function"
              (shortName name) "3rd" 0, "function:".toList ++ name) := by
  simp only [resolve_target]
  cases hfull : g.nodes.find? (fun n => n.label == name && fnOrClass n) with
  | some n => rfl
  | none =>
    dsimp only
    have hsf := head?_filter_eq_find?
      (fun n => n.label == shortName name &&
        fnOrClass n && List.isPrefixOf fid n.id) g.nodes
    rw [hsf]
    cases hnest : g.nodes.find? (fun n => n.label == shortName name &&
        fnOrClass n && List.isPrefixOf fid n.id) with
    | some n => rfl
    | none =>
      have hempty : g.nodes.filter (fun n => n.label == shortName name &&
          fnOrClass n && List.isPrefixOf fid n.id) = [] := by
        rw [List.filter_eq_nil_iff]
        intro x hx
        have := List.find?_eq_none.mp hnest x hx
        simpa using this
      have hoth := head?_filter_not_eq_find?
        (fun n => n.label == shortName name) fnOrClass
        (fun n => List.isPrefixOf fid n.id) g.nodes hempty
      rw [hoth]

/-!
## C3: the call scan of a function body
-/

/-- The dotted name `_handle_call` extracts from a node (the callee's name
for a call expression, nothing otherwise). -/
def calleeName : Ast → Option Str
  | .Call func _ => resolve_name func
  | _ => none

theorem resolve_target_edges (fid : Str) (g : Graph) (name : Str) :
    (resolve_target fid g name).1.edges = g.edges := by
  simp only [resolve_target]
  repeat' split
  all_goals first
    | rfl
    | exact edges_add_node ..

theorem handle_call_of_none {c : Ast} (fid scope : Str) (g : Graph)
    (h : calleeName c = none) : handle_call fid scope g c = g := by
  cases c with
  | Call func args =>
    simp only [calleeName] at h
    simp only [handle_call, h]
  | _ => rfl

theorem handle_call_of_some {func : Ast} {called : Str} (fid scope : Str)
    (g : Graph) (args : List Ast) (h : resolve_name func = some called) :
    handle_call fid scope g (.Call func args)
      = (resolve_target fid g called).1.add_edge
          scope (resolve_target fid g called).2 "calls" := by
  simp only [handle_call, h]

mutual

theorem walkChild_eq (fid scope : Str) (g : Graph) (c : Ast) :
    walkChild fid scope g c = (collectChild c).foldl (handle_call fid scope) g := by
  rw [walkChild, collectChild]
  by_cases hdef : c.isDef
  · simp [hdef]
  · simp only [hdef, if_false, Bool.false_eq_true]
    rw [List.foldl_append]
    by_cases hcall : c.isCall
    · simp only [hcall, if_true]
      rw [walkBody_eq]
      rfl
    · simp only [hcall, if_false, Bool.false_eq_true]
      rw [walkBody_eq]
      rfl
termination_by 2 * sizeOf c + 1

theorem walkBody_eq (fid scope : Str) (g : Graph) (a : Ast) :
    walkBody fid scope g a = (collectBody a).foldl (handle_call fid scope) g := by
  cases a with
  | Module body => rw [walkBody, collectBody, walkKids_eq]
  | Import names => rw [walkBody, collectBody]; rfl
  | ImportFrom m => rw [walkBody, collectBody]; rfl
  | ClassDef name bases body lineno end_lineno =>
    rw [walkBody, collectBody, List.foldl_append, walkKids_eq, walkKids_eq]
  | FunctionDef name body lineno end_lineno =>
    rw [walkBody, collectBody, walkKids_eq]
  | AsyncFunctionDef name body lineno end_lineno =>
    rw [walkBody, collectBody, walkKids_eq]
  | Name id => rw [walkBody, collectBody]; rfl
  | Attribute value attr => rw [walkBody, collectBody, walkChild_eq]
  | Call func args =>
    rw [walkBody, collectBody, List.foldl_append, walkChild_eq, walkKids_eq]
  | Other children => rw [walkBody, collectBody, walkKids_eq]
termination_by 2 * sizeOf a

theorem walkKids_eq (fid scope : Str) (g : Graph) (cs : List Ast) :
    walkKids fid scope g cs = (collectKids cs).foldl (handle_call fid scope) g := by
  cases cs with
  | nil => rw [walkKids, collectKids]; rfl
  | cons c rest =>
    rw [walkKids, collectKids, List.foldl_append, walkChild_eq, walkKids_eq]
termination_by 2 * sizeOf cs

end

/-- Folding `_handle_call` over a list of nodes appends exactly one `calls`
edge from `scope` per node whose callee resolves to a dotted name, in
order, and nothing else to the edge list. -/
theorem foldl_handle_calls_edges (fid scope : Str) (cs : List Ast) (g : Graph) :
    ∃ tids : List Str,
      tids.length = (cs.filterMap calleeName).length ∧
      (cs.foldl (handle_call fid scope) g).edges
        = g.edges ++ tids.map (fun t => Edge.mk scope t "calls") := by
  induction cs generalizing g with
  | nil => exact ⟨[], rfl, by simp⟩
  | cons c rest ih =>
    rw [List.foldl_cons]
    cases hc : calleeName c with
    | none =>
      obtain ⟨tids, hlen, hed⟩ := ih (handle_call fid scope g c)
      refine ⟨tids, ?_, ?_⟩
      · simp [List.filterMap_cons, hc, hlen]
      · rw [hed, handle_call_of_none fid scope g hc]
    | some called =>
      obtain ⟨func, args, rfl⟩ : ∃ func args, c = .Call func args := by
        cases c <;> simp [calleeName] at hc
        exact ⟨_, _, rfl⟩
      have hres : resolve_name func = some called := by
        simpa [calleeName] using hc
      obtain ⟨tids, hlen, hed⟩ := ih (handle_call fid scope g (.Call func args))
      refine ⟨(resolve_target fid g called).2 :: tids, ?_, ?_⟩
      · simp [List.filterMap_cons, hc, hlen]
      · rw [hed, handle_call_of_some fid scope g args hres]
        simp [Graph.add_edge, resolve_target_edges]

theorem collectKids_append (l1 l2 : List Ast) :
    collectKids (l1 ++ l2) = collectKids l1 ++ collectKids l2 := by
  induction l1 with
  | nil => simp [collectKids]
  | cons c cs ih => simp [collectKids, ih]

theorem collectBody_eq_children (a : Ast) :
    collectBody a = collectKids a.children := by
  cases a <;> simp [collectBody, Ast.children, collectKids, collectKids_append]

theorem mem_collectKids_iff (c : Ast) (cs : List Ast) :
    c ∈ collectKids cs ↔ ∃ b ∈ cs, c ∈ collectChild b := by
  induction cs with
  | nil => simp [collectKids]
  | cons b rest ih => simp [collectKids, ih, List.mem_append, or_and_right,
      exists_or]

theorem mem_collectChild_iff (c b : Ast) :
    c ∈ collectChild b ↔
      b.isDef = false ∧ ((c = b ∧ b.isCall = true) ∨ c ∈ collectBody b) := by
  rw [collectChild]
  by_cases hdef : b.isDef
  · simp [hdef]
  · by_cases hcall : b.isCall
    · simp [hdef, hcall]
    · simp [hdef, hcall]

theorem sizeOf_lt_of_mem_children {b a : Ast} (h : b ∈ a.children) :
    sizeOf b < sizeOf a := by
  cases a with
  | Module body =>
    simp only [Ast.children] at h
    have h1 := List.sizeOf_lt_of_mem h
    simp_arith
    omega
  | Import names => simp [Ast.children] at h
  | ImportFrom m => simp [Ast.children] at h
  | ClassDef name bases body lineno end_lineno =>
    simp only [Ast.children] at h
    rcases List.mem_append.mp h with h' | h' <;>
      (have h1 := List.sizeOf_lt_of_mem h'; simp_arith; omega)
  | FunctionDef name body lineno end_lineno =>
    simp only [Ast.children] at h
    have h1 := List.sizeOf_lt_of_mem h
    simp_arith
    omega
  | AsyncFunctionDef name body lineno end_lineno =>
    simp only [Ast.children] at h
    have h1 := List.sizeOf_lt_of_mem h
    simp_arith
    omega
  | Name id => simp [Ast.children] at h
  | Attribute value attr =>
    simp only [Ast.children, List.mem_singleton] at h
    subst h
    simp_arith
  | Call func args =>
    simp only [Ast.children, List.mem_cons] at h
    rcases h with rfl | h'
    · simp_arith
    · have h1 := List.sizeOf_lt_of_mem h'
      simp_arith
      omega
  | Other children =>
    simp only [Ast.children] at h
    have h1 := List.sizeOf_lt_of_mem h
    simp_arith
    omega

/-- Spec-side reachability: the call expressions reachable from node `a`
without crossing a nested function or class definition.  A call that is a
direct child is reachable; recursion continues through any non-definition
child (including call expressions themselves, so arguments are scanned). -/
inductive ReachableCall : Ast → Ast → Prop where
  | direct {a c : Ast} (hmem : c ∈ a.children) (hcall : c.isCall = true) :
      ReachableCall a c
  | step {a b c : Ast} (hmem : b ∈ a.children) (hndef : b.isDef = false)
      (h : ReachableCall b c) : ReachableCall a c

theorem mem_collectBody_iff (a c : Ast) :
    c ∈ collectBody a ↔ ReachableCall a c := by
  constructor
  · intro hc
    rw [collectBody_eq_children, mem_collectKids_iff] at hc
    obtain ⟨b, hb, hcb⟩ := hc
    rw [mem_collectChild_iff] at hcb
    obtain ⟨hndef, hcb⟩ := hcb
    cases hcb with
    | inl h =>
      obtain ⟨rfl, hcall⟩ := h
      exact ReachableCall.direct hb hcall
    | inr h => exact ReachableCall.step hb hndef ((mem_collectBody_iff b c).mp h)
  · intro h
    cases h with
    | direct hmem hcall =>
      rw [collectBody_eq_children, mem_collectKids_iff]
      refine ⟨c, hmem, ?_⟩
      rw [mem_collectChild_iff]
      have hndef : c.isDef = false := by
        cases c <;> simp_all [Ast.isCall, Ast.isDef]
      exact ⟨hndef, Or.inl ⟨rfl, hcall⟩⟩
    | step hmem hndef hr =>
      rw [collectBody_eq_children, mem_collectKids_iff]
      exact ⟨_, hmem, (mem_collectChild_iff _ _).mpr
        ⟨hndef, Or.inr ((mem_collectBody_iff _ c).mpr hr)⟩⟩
termination_by sizeOf a
decreasing_by
  all_goals
    subst_vars
    first
      | (have hlt := sizeOf_lt_of_mem_children hb; omega)
      | (have hlt := sizeOf_lt_of_mem_children hmem; omega)

/-- **C3.** While walking one function definition, `_walk_body_for_calls`
(invoked by `_visit_function` with the function's node id as the current
scope) behaves as follows: it hands `_handle_call` exactly the call
expressions reachable from the definition node without crossing a nested
function or class definition (so arguments of a call are scanned for
further calls, and calls inside nested function/class bodies contribute
nothing), and the edges it appends are exactly one `calls` edge with the
scope as source per such call whose callee resolves to a dotted name. -/
theorem c3_function_call_scan (fid scope : Str) (g : Graph) (name : Str)
    (body : List Ast) (lineno : Nat) (end_lineno : Option Nat) :
    walkBody fid scope g (.FunctionDef name body lineno end_lineno)
      = (collectBody (.FunctionDef name body lineno end_lineno)).foldl
          (handle_call fid scope) g ∧
    (∃ tids : List Str,
      tids.length = ((collectBody
          (.FunctionDef name body lineno end_lineno)).filterMap
            calleeName).length ∧
      (walkBody fid scope g (.FunctionDef name body lineno end_lineno)).edges
        = g.edges ++ tids.map (fun t => Edge.mk scope t "calls")) ∧
    (∀ c, c ∈ collectBody (.FunctionDef name body lineno end_lineno)
        ↔ ReachableCall (.FunctionDef name body lineno end_lineno) c) := by
  refine ⟨walkBody_eq .., ?_, fun c => mem_collectBody_iff _ c⟩
  rw [walkBody_eq]
  exact foldl_handle_calls_edges fid scope _ g

/-!
## The DOT serializer (`write_dot`, `dot_id`, `dot_attrs`)

Only the width/height numbers need care: the original formats
`0.5 + loc/50` and `0.3 + loc/80` (clamped) with `{:.2f}` over binary
floats; the model computes the clamped values exactly (in hundredths resp.
ten-thousandths) and rounds half-to-even, which agrees with the float
formatting except possibly in the last digit when `0.3 + loc/80` lands
exactly on a half-hundredth (`loc ≡ 2 mod 4`), where the binary value's
rounding direction depends on representation error.  No claim concerns
these digits.
-/

/-- `self.id.replace('"', '\\"')` (character-wise, every occurrence). -/
def escapeQuotes (s : Str) : Str :=
  s.flatMap (fun c => if c = '"' then ['\\', '"'] else [c])

/-- `Node.dot_id`: the id wrapped in double quotes with inner quotes
escaped. -/
def Node.dot_id (n : Node) : Str := '"' :: escapeQuotes n.id ++ ['"']

/-- The shape table of `Node.dot_attrs` (`dict.get` with default
`"ellipse"`). -/
def shapeOf (kind : String) : String :=
  if kind = "dir" then "folder"
  else if kind = "file" then "note"
  else if kind = "class" then "box"
  else if kind = "function" then "ellipse"
  else "ellipse"

/-- The two-tier fill-color palette of `Node.dot_attrs`: `color_1st` when
`party == "1st"`, otherwise `color_3rd`; each a `dict.get` with default
`"#ffffff"`. -/
def fillColor (n : Node) : String :=
  if n.party = "1st" then
    if n.kind = "dir" then "#cccccc"
    else if n.kind = "file" then "#aaddff"
    else if n.kind = "class" then "#ffddaa"
    else if n.kind = "function" then "#ddffdd"
    else "#ffffff"
  else
    if n.kind = "dir" then "#e0e0e0"
    else if n.kind = "file" then "#d0d0d0"
    else if n.kind = "class" then "#d0d0d0"
    else if n.kind = "function" then "#d0d0d0"
    else "#ffffff"

/-- `max(0.5, min(3.0, 0.5 + loc / 50))`, exactly, in hundredths. -/
def widthHundredths (loc : Nat) : Nat := max 50 (min 300 (50 + 2 * loc))

/-- `max(0.3, min(2.0, 0.3 + loc / 80))`, exactly, in ten-thousandths. -/
def heightTenThousandths (loc : Nat) : Nat :=
  max 3000 (min 20000 (3000 + 125 * loc))

/-- Round ten-thousandths to hundredths, ties to even. -/
def roundTtH (t : Nat) : Nat :=
  let q := t / 100
  let r := t % 100
  if r < 50 then q
  else if 50 < r then q + 1
  else if q % 2 = 0 then q
  else q + 1

/-- Render hundredths as the `{:.2f}` decimal string `d.dd`. -/
def fmtHundredths (h : Nat) : Str :=
  (Nat.repr (h / 100)).toList ++ '.' ::
    (if h % 100 < 10 then '0' :: (Nat.repr (h % 100)).toList
     else (Nat.repr (h % 100)).toList)

/-- `Node.dot_attrs`. -/
def Node.dot_attrs (n : Node) : Str :=
  "[label=\"".toList ++ n.label
    ++ "\" shape=".toList ++ (shapeOf n.kind).toList
    ++ " style=filled fillcolor=\"".toList ++ (fillColor n).toList
    ++ "\" party=\"".toList ++ n.party.toList
    ++ "\" loc=".toList ++ (Nat.repr n.loc).toList
    ++ " width=".toList ++ fmtHundredths (widthHundredths n.loc)
    ++ " height=".toList ++ fmtHundredths (roundTtH (heightTenThousandths n.loc))
    ++ "]".toList

/-- The style table of `Edge.dot_attrs` (`dict.get` with default `""`). -/
def edgeStyle (kind : String) : String :=
  if kind = "imports" then "style=dashed color=\"#6666cc\" fontcolor=\"#6666cc\""
  else if kind = "calls" then "color=\"#cc3333\" fontcolor=\"#cc3333\""
  else if kind = "has" then "style=dotted color=\"#666666\" fontcolor=\"#666666\""
  else if kind = "is" then "style=bold color=\"#33aa33\" fontcolor=\"#33aa33\""
  else ""

/-- `Edge.dot_attrs`: `f'[label="{kind}" {style}]'`. -/
def Edge.dot_attrs (e : Edge) : Str :=
  "[label=\"".toList ++ e.kind.toList ++ "\" ".toList
    ++ (edgeStyle e.kind).toList ++ "]".toList

/-- One node line of `write_dot`: `f"  {n.dot_id()} {n.dot_attrs()};"`. -/
def nodeLine (n : Node) : Str :=
  "  ".toList ++ n.dot_id ++ " ".toList ++ n.dot_attrs ++ ";".toList

/-- Endpoint rendering of `write_dot`: a stored id renders through the
node's `dot_id`, a missing one as the bare quoted literal `f'"{id}"'`. -/
def endpointStr (g : Graph) (id : Str) : Str :=
  match g.getNode id with
  | some n => n.dot_id
  | none => '"' :: id ++ ['"']

/-- One edge line of `write_dot`:
`f"  {src} -> {dst} {e.dot_attrs()};"`. -/
def edgeLine (g : Graph) (e : Edge) : Str :=
  "  ".toList ++ endpointStr g e.src ++ " -> ".toList ++ endpointStr g e.dst
    ++ " ".toList ++ e.dot_attrs ++ ";".toList

/-- The fixed header lines of `write_dot`. -/
def dotHeader : List Str :=
  ["digraph callgraph \x7b".toList, "  rankdir=LR;".toList,
   "  node [fontname=Helvetica fontsize=10];".toList,
   "  edge [fontname=Helvetica fontsize=8];".toList, "".toList]

/-- The full line list `write_dot` builds: header, node lines, a blank
line, edge lines, closing brace. -/
def writeDotLines (g : Graph) : List Str :=
  dotHeader ++ g.nodes.map nodeLine ++ ["".toList]
    ++ g.edges.map (edgeLine g) ++ ["\x7d".toList]

/-- `Graph.write_dot` as the text written to the file: the lines joined
with newlines, plus a trailing newline. -/
def write_dot (g : Graph) : Str :=
  List.intercalate "\n".toList (writeDotLines g) ++ "\n".toList

/-!
## C7: missing edge endpoints are tolerated by the serializer
-/

/-- **C7.** For every graph store and edge in it with an endpoint id that
has no node in the store, serialization still succeeds: the edge's line is
present in the output and the missing endpoint is rendered as the bare
quoted literal of the id (instead of the serialization failing). -/
theorem c7_missing_endpoint_rendered (g : Graph) (e : Edge) :
    write_dot g = List.intercalate "\n".toList (writeDotLines g)
      ++ "\n".toList ∧
    (e ∈ g.edges → edgeLine g e ∈ writeDotLines g) ∧
    (g.getNode e.src = none →
      edgeLine g e = "  ".toList ++ ('"' :: e.src ++ ['"']) ++ " -> ".toList
        ++ endpointStr g e.dst ++ " ".toList ++ e.dot_attrs ++ ";".toList) ∧
    (g.getNode e.dst = none →
      edgeLine g e = "  ".toList ++ endpointStr g e.src ++ " -> ".toList
        ++ ('"' :: e.dst ++ ['"']) ++ " ".toList ++ e.dot_attrs
        ++ ";".toList) := by
  refine ⟨rfl, fun he => ?_, fun h => ?_, fun h => ?_⟩
  · unfold writeDotLines
    refine List.mem_append_left _ (List.mem_append_right _ ?_)
    exact List.mem_map_of_mem _ he
  · unfold edgeLine endpointStr
    rw [h]
  · unfold edgeLine endpointStr
    rw [h]

/-- Witness for C7: a store holding one edge and no nodes renders the edge
with both endpoints as bare quoted literals, inside the output lines. -/
theorem c7_witness :
    (edgeLine (Graph.empty.add_edge "a".toList "b".toList "has")
        ⟨"a".toList, "b".toList, "has"⟩
      ∈ writeDotLines (Graph.empty.add_edge "a".toList "b".toList "has")) ∧
    (edgeLine (Graph.empty.add_edge "a".toList "b".toList "has")
        ⟨"a".toList, "b".toList, "has"⟩
      = "  ".toList ++ ('"' :: "a".toList ++ ['"']) ++ " -> ".toList
        ++ endpointStr (Graph.empty.add_edge "a".toList "b".toList "has")
            "b".toList
        ++ " ".toList ++ (Edge.mk "a".toList "b".toList "has").dot_attrs
        ++ ";".toList) :=
  ⟨(c7_missing_endpoint_rendered _ _).2.1 (by decide),
   (c7_missing_endpoint_rendered _ _).2.2.1 (by decide)⟩

/-!
## C8: the fill-color palette
-/

/-- **C8 counterexample.** The palette does not give every external-origin
node one single gray regardless of kind: an external `dir` node is filled
`#e0e0e0` while an external `file` node is filled `#d0d0d0`. -/
theorem c8_counterexample :
    fillColor ⟨"dir:a".toList, "dir", "a".toList, "3rd", 0⟩ = "#e0e0e0" ∧
    fillColor ⟨"file:b".toList, "file", "b".toList, "3rd", 0⟩ = "#d0d0d0" ∧
    ("#e0e0e0" : String) ≠ "#d0d0d0" :=
  ⟨rfl, rfl, by decide⟩

/-- **C8 (amended).** In the serialized attributes the fill color is
`fillColor`, which gives every own-origin node a distinct color per kind
(over the four kinds `dir`, `file`, `class`, `function`), and gives every
external-origin node of kind `file`, `class` or `function` — the only
external kinds the analyzer creates — the single muted gray `#d0d0d0`; an
external-origin `dir` node would instead receive `#e0e0e0`. -/
theorem c8_fill_colors (n : Node) :
    (∃ pre post, n.dot_attrs = pre ++ (fillColor n).toList ++ post) ∧
    (n.party = "1st" →
      (n.kind = "dir" → fillColor n = "#cccccc") ∧
      (n.kind = "file" → fillColor n = "#aaddff") ∧
      (n.kind = "class" → fillColor n = "#ffddaa") ∧
      (n.kind = "function" → fillColor n = "#ddffdd")) ∧
    (n.party = "3rd" →
      (n.kind = "file" ∨ n.kind = "class" ∨ n.kind = "function") →
      fillColor n = "#d0d0d0") ∧
    (n.party = "3rd" → n.kind = "dir" → fillColor n = "#e0e0e0") ∧
    (["#cccccc", "#aaddff", "#ffddaa", "#ddffdd"] : List String).Nodup := by
  refine ⟨?_, fun hp => ⟨fun hk => ?_, fun hk => ?_, fun hk => ?_, fun hk => ?_⟩,
    fun hp hk => ?_, fun hp hk => ?_, by decide⟩
  · exact ⟨"[label=\"".toList ++ n.label ++ "\" shape=".toList
      ++ (shapeOf n.kind).toList ++ " style=filled fillcolor=\"".toList,
      "\" party=\"".toList ++ n.party.toList
      ++ "\" loc=".toList ++ (Nat.repr n.loc).toList
      ++ " width=".toList ++ fmtHundredths (widthHundredths n.loc)
      ++ " height=".toList ++ fmtHundredths (roundTtH (heightTenThousandths n.loc))
      ++ "]".toList, by simp [Node.dot_attrs]⟩
  · simp [fillColor, hp, hk]
  · simp [fillColor, hp, hk]
  · simp [fillColor, hp, hk]
  · simp [fillColor, hp, hk]
  · rcases hk with hk | hk | hk <;> simp [fillColor, hp, hk]
  · simp [fillColor, hp, hk]

/-- Witness for C8 (amended) at a concrete pair of nodes: an own-origin
class node is filled `#ffddaa` and an external function placeholder is
filled `#d0d0d0`. -/
theorem c8_witness :
    fillColor ⟨"x".toList, "class", "x".toList, "1st", 1⟩ = "#ffddaa" ∧
    fillColor ⟨"y".toList, "function", "y".toList, "3rd", 0⟩ = "#d0d0d0" :=
  ⟨((c8_fill_colors ⟨"x".toList, "class", "x".toList, "1st", 1⟩).2.1
      rfl).2.2.1 rfl,
   (c8_fill_colors ⟨"y".toList, "function", "y".toList, "3rd", 0⟩).2.2.1
      rfl (Or.inr (Or.inr rfl))⟩

/-!
## Per-file analysis and project scaffolding (`analyze`, `build_graph`)
-/

/-- One discovered source file: the directory segments and final component
of its path relative to the resolved root (`rel.parts[:-1]` and
`rel.parts[-1]`), its text, and the result of `ast.parse` (`none` models a
`SyntaxError`). -/
structure SrcFile where
  dirs : List Str
  base : Str
  src : Str
  tree : Option Ast

/-- `"/".join(parts)`. -/
def joinPath : List Str → Str
  | [] => []
  | [p] => p
  | p :: q :: rest => p ++ '/' :: joinPath (q :: rest)

/-- `str(rel)`: the slash-joined relative path. -/
def SrcFile.rel (f : SrcFile) : Str := joinPath (f.dirs ++ [f.base])

/-- `self.file_id = f"file:{self.rel_path}"`. -/
def SrcFile.fileId (f : SrcFile) : Str := "file:".toList ++ f.rel

/-- The file line count computed by `analyze`:
`source.count("\n") + (1 if source and not source.endswith("\n") else 0)`. -/
def fileLoc (src : Str) : Nat :=
  src.count '\n' + (if src ≠ [] ∧ src.getLast? ≠ some '\n' then 1 else 0)

/-- `CallGraphVisitor.analyze`: a parse failure (`tree = none`) returns
before touching the store; success creates the file node — labelled
`Path(rel).name`, sized by the line count — and visits the tree with the
file id as the initial scope. -/
def analyze (g : Graph) (f : SrcFile) : Graph :=
  match f.tree with
  | none => g
  | some tree =>
    let g1 := g.add_node f.fileId "file" f.base "1st" (fileLoc f.src)
    visit f.fileId [f.fileId] g1 tree

/-- The directory-prefix loop of `build_graph` for one file's `parts`:
`done` is the prefix already consumed, so `done ≠ []` models `i > 0`.  A
directory id not in `dirs_seen` gets its node, its mark in `dirs_seen`,
and (except at the top level) the `has` edge from its parent. -/
def addDirs (g : Graph) (seen : List Str) (done rest : List Str) :
    Graph × List Str :=
  match rest with
  | [] => (g, seen)
  | p :: rest' =>
    let dir_id := "dir:".toList ++ joinPath (done ++ [p])
    let gs :=
      if dir_id ∈ seen then (g, seen)
      else
        let g1 := g.add_node dir_id "dir" p "1st" 0
        let g2 := if done ≠ [] then
            g1.add_edge ("dir:".toList ++ joinPath done) dir_id "has"
          else g1
        (g2, dir_id :: seen)
    addDirs gs.1 gs.2 (done ++ [p]) rest'

/-- The scaffolding step of `build_graph` for one file: directory nodes
and parent edges for every path prefix, then the dir→file `has` edge when
the directory part is nonempty (`if dir_path:`). -/
def scaffoldFile (gs : Graph × List Str) (f : SrcFile) : Graph × List Str :=
  let gs1 := addDirs gs.1 gs.2 [] f.dirs
  if joinPath f.dirs ≠ [] then
    (gs1.1.add_edge ("dir:".toList ++ joinPath f.dirs) f.fileId "has", gs1.2)
  else gs1

/-- `build_graph` from the point where the discovered file list is known:
scaffold every file's directories, then analyze each file in order. -/
def build_graph (files : List SrcFile) : Graph :=
  (files.foldl analyze (files.foldl scaffoldFile (Graph.empty, [])).1)

/-!
## C6: recorded sizes
-/

/-- The total number of lines of a text, where a final line lacking a
trailing newline still counts as one line. -/
def numLines : Str → Nat
  | [] => 0
  | [_] => 1
  | c :: d :: rest => (if c = '\n' then 1 else 0) + numLines (d :: rest)

theorem fileLoc_eq_numLines (src : Str) : fileLoc src = numLines src := by
  induction src with
  | nil => rfl
  | cons c rest ih =>
    cases rest with
    | nil =>
      by_cases hc : c = '\n' <;>
        simp [fileLoc, numLines, hc, List.count_cons, List.count_nil]
    | cons d rest' =>
      have htail : (c :: d :: rest').getLast? = (d :: rest').getLast? := by
        rw [List.getLast?_cons_cons]
      rw [numLines]
      rw [← ih]
      unfold fileLoc
      rw [htail]
      rw [List.count_cons]
      by_cases hc : c = '\n'
      · simp [hc]
        omega
      · simp [hc]

theorem getNode_walkBody (fid scope : Str) (g : Graph) (a : Ast) {i : Str}
    {n : Node} (h : g.getNode i = some n) :
    (walkBody fid scope g a).getNode i = some n :=
  getNode_mono (walkBody_extends fid scope g a) h

theorem getNode_visitList (fid : Str) (stk : List Str) (g : Graph)
    (as : List Ast) {i : Str} {n : Node} (h : g.getNode i = some n) :
    (visitList fid stk g as).getNode i = some n :=
  getNode_mono (visitList_extends fid stk g as) h

/-- **C6.** Sizes recorded at node creation: a successfully parsed file's
node has `size` equal to the file's total line count (a final line lacking
a trailing newline counts), and a class or function definition's node has
`size = end_line - start_line + 1`. -/
theorem c6_sizes (g : Graph) (f : SrcFile) (tree : Ast) (fid : Str)
    (stk : List Str) (name : Str) (bases body : List Ast)
    (lineno endl : Nat) :
    (f.tree = some tree → g.getNode f.fileId = none →
      ∃ n, (analyze g f).getNode f.fileId = some n ∧
        n.loc = numLines f.src ∧ n.kind = "file") ∧
    (g.getNode (makeId fid stk "function" name) = none → lineno ≤ endl →
      ∃ n, (visit fid stk g
          (.FunctionDef name body lineno (some endl))).getNode
            (makeId fid stk "function" name) = some n ∧
        n.loc = endl - lineno + 1 ∧ n.kind = "function") ∧
    (g.getNode (makeId fid stk "class" name) = none → lineno ≤ endl →
      ∃ n, (visit fid stk g
          (.ClassDef name bases body lineno (some endl))).getNode
            (makeId fid stk "class" name) = some n ∧
        n.loc = endl - lineno + 1 ∧ n.kind = "class") := by
  refine ⟨fun htree hfresh => ?_, fun hfresh hle => ?_, fun hfresh hle => ?_⟩
  · unfold analyze
    rw [htree]
    refine ⟨⟨f.fileId, "file", f.base, "1st", fileLoc f.src⟩, ?_, ?_, rfl⟩
    · exact getNode_mono (visit_extends ..)
        (getNode_add_node_fresh _ _ _ _ _ _ hfresh)
    · exact fileLoc_eq_numLines f.src
  · rw [visit, visitFunction]
    refine ⟨⟨makeId fid stk "function" name, "function", name, "1st",
      (some endl).getD lineno - lineno + 1⟩, ?_, by simp, rfl⟩
    refine getNode_visitList _ _ _ _ (getNode_walkBody _ _ _ _ ?_)
    rw [getNode_add_edge]
    exact getNode_add_node_fresh _ _ _ _ _ _ hfresh
  · rw [visit]
    refine ⟨⟨makeId fid stk "class" name, "class", name, "1st",
      (some endl).getD lineno - lineno + 1⟩, ?_, by simp, rfl⟩
    refine getNode_visitList _ _ _ _ (getNode_visitList _ _ _ _ ?_)
    refine getNode_mono (extends_bases_fold (makeId fid stk "class" name)
      bases _) ?_
    rw [getNode_add_edge]
    exact getNode_add_node_fresh _ _ _ _ _ _ hfresh

/-- Witness for C6 at concrete inputs: a two-line file without trailing
newline gets `size = 2`; a function spanning lines 1-3 gets `size = 3`; a
class spanning lines 2-5 gets `size = 4`. -/
theorem c6_witness :
    (∃ n, (analyze Graph.empty
        ⟨[], "a.py".toList, "x\ny".toList, some (.Module [])⟩).getNode
          (SrcFile.fileId ⟨[], "a.py".toList, "x\ny".toList,
            some (.Module [])⟩) = some n ∧
      n.loc = numLines "x\ny".toList ∧ n.kind = "file") ∧
    (∃ n, (visit "file:a.py".toList ["file:a.py".toList] Graph.empty
        (.FunctionDef "f".toList [] 1 (some 3))).getNode
          (makeId "file:a.py".toList ["file:a.py".toList] "function"
            "f".toList) = some n ∧
      n.loc = 3 - 1 + 1 ∧ n.kind = "function") ∧
    (∃ n, (visit "file:a.py".toList ["file:a.py".toList] Graph.empty
        (.ClassDef "C".toList [] [] 2 (some 5))).getNode
          (makeId "file:a.py".toList ["file:a.py".toList] "class"
            "C".toList) = some n ∧
      n.loc = 5 - 2 + 1 ∧ n.kind = "class") :=
  ⟨(c6_sizes Graph.empty ⟨[], "a.py".toList, "x\ny".toList,
        some (.Module [])⟩ (.Module []) [] [] [] [] [] 0 0).1 rfl (by decide),
   (c6_sizes Graph.empty ⟨[], [], [], none⟩ (.Module [])
        "file:a.py".toList ["file:a.py".toList] "f".toList [] [] 1 3).2.1
      (by decide) (by decide),
   (c6_sizes Graph.empty ⟨[], [], [], none⟩ (.Module [])
        "file:a.py".toList ["file:a.py".toList] "C".toList [] [] 2 5).2.2
      (by decide) (by decide)⟩

/-!
## C4: parse failures skip the file but not the run
-/

/-- **C4 (amended).** A file whose source fails to parse contributes
nothing during its walk — `analyze` returns the store untouched — and the
run continues over the remaining files: the final graph equals the
scaffolding of all files followed by the walks of exactly the successfully
parsed ones, with no run-level failure.  (Contrary to the original claim,
the graph is not limited to nodes/edges of the well-formed files: the
scaffolder has already contributed the malformed file's directory nodes
and its dir→file `has` edge; see the counterexample.) -/
theorem c4_parse_failure_skips (files : List SrcFile) (g : Graph)
    (f : SrcFile) :
    (f.tree = none → analyze g f = g) ∧
    build_graph files = (files.filter (fun f' => f'.tree.isSome)).foldl
      analyze (files.foldl scaffoldFile (Graph.empty, [])).1 := by
  constructor
  · intro h
    unfold analyze
    rw [h]
  · unfold build_graph
    generalize (files.foldl scaffoldFile (Graph.empty, [])).1 = g0
    induction files generalizing g0 with
    | nil => rfl
    | cons f' rest ih =>
      rw [List.foldl_cons, List.filter_cons]
      cases ht : f'.tree with
      | none =>
        have hid : analyze g0 f' = g0 := by unfold analyze; rw [ht]
        rw [if_neg (by simp), hid]
        exact ih g0
      | some t =>
        rw [if_pos (by simp), List.foldl_cons]
        exact ih (analyze g0 f')

/-- Witness for C4 (amended): analyzing a malformed file leaves the empty
store empty. -/
theorem c4_witness :
    analyze Graph.empty ⟨["d".toList], "bad.py".toList, "x(".toList, none⟩
      = Graph.empty :=
  (c4_parse_failure_skips [] Graph.empty
    ⟨["d".toList], "bad.py".toList, "x(".toList, none⟩).1 rfl

/-- **C4 counterexample.** A directory `d` holding a malformed `bad.py`
and a well-formed `good.py` yields a graph that still contains the
scaffolder's `has` edge from `dir:d` to the malformed file's id
`file:d/bad.py` — an edge that is not a node/edge of the well-formed
file, refuting "a graph containing only nodes/edges from the well-formed
file". -/
theorem c4_counterexample :
    Edge.mk "dir:d".toList "file:d/bad.py".toList "has"
      ∈ (build_graph
        [⟨["d".toList], "bad.py".toList, "x(".toList, none⟩,
         ⟨["d".toList], "good.py".toList, [], some (.Module [])⟩]).edges := by
  have hv : ∀ (fid : Str) (g1 : Graph), visit fid [fid] g1 (.Module []) = g1 := by
    intro fid g1
    rw [visit, visitList]
  unfold build_graph
  simp only [List.foldl_cons, List.foldl_nil, analyze, hv]
  decide

/-!
## C5 counterexample: the file node of an unparseable file is absent
-/

/-- **C5 counterexample.** For a discovered file `a/b/c.py` whose source
fails to parse, the finished store contains `dir:a`, `dir:a/b` and both
`has` edges, but no node `file:a/b/c.py` — refuting "the store contains
nodes dir:a, dir:a/b and file:a/b/c.ext" for every discovered file. -/
theorem c5_counterexample :
    (build_graph [⟨["a".toList, "b".toList], "c.py".toList, [],
        none⟩]).getNode "file:a/b/c.py".toList = none ∧
    (∃ n ∈ (build_graph [⟨["a".toList, "b".toList], "c.py".toList, [],
        none⟩]).nodes, n.id = "dir:a".toList) ∧
    (∃ n ∈ (build_graph [⟨["a".toList, "b".toList], "c.py".toList, [],
        none⟩]).nodes, n.id = "dir:a/b".toList) ∧
    Edge.mk "dir:a".toList "dir:a/b".toList "has"
      ∈ (build_graph [⟨["a".toList, "b".toList], "c.py".toList, [],
          none⟩]).edges ∧
    Edge.mk "dir:a/b".toList "file:a/b/c.py".toList "has"
      ∈ (build_graph [⟨["a".toList, "b".toList], "c.py".toList, [],
          none⟩]).edges := by
  refine ⟨?_, ?_, ?_, ?_, ?_⟩ <;> decide

/-!
## Well-formedness of names and paths

Python identifiers, dotted names and module paths never contain `':'` or
`'/'`, and path segments are nonempty.  The node-id disjointness facts
behind the remaining claims hold under exactly these assumptions, recorded
by the predicates below.
-/

/-- A benign name: no colon, no slash. -/
def okName (s : Str) : Bool := !(s.contains ':') && !(s.contains '/')

/-- A benign path segment: nonempty benign name. -/
def okSeg (s : Str) : Bool := !(s.isEmpty) && okName s

theorem okName_iff {s : Str} : okName s = true ↔ ':' ∉ s ∧ '/' ∉ s := by
  unfold okName
  rw [List.contains_eq_any_beq, List.contains_eq_any_beq]
  simp [List.any_eq_true]
  constructor
  · exact fun ⟨h1, h2⟩ => ⟨fun hm => h1 _ hm rfl, fun hm => h2 _ hm rfl⟩
  · exact fun ⟨h1, h2⟩ => ⟨fun x hm he => h1 (he ▸ hm), fun x hm he => h2 (he ▸ hm)⟩

theorem okSeg_iff {s : Str} :
    okSeg s = true ↔ s ≠ [] ∧ ':' ∉ s ∧ '/' ∉ s := by
  simp [okSeg, okName_iff, List.isEmpty_iff]

/-- Uniqueness of the split at the first occurrence of a separator. -/
theorem append_sep_inj (sep : Char) (a : Str) :
    ∀ (b u v : Str), sep ∉ a → sep ∉ b →
      a ++ sep :: u = b ++ sep :: v → a = b ∧ u = v := by
  induction a with
  | nil =>
    intro b u v _ hb h
    cases b with
    | nil =>
      simp only [List.nil_append] at h
      injection h with _ h2
      exact ⟨rfl, h2⟩
    | cons x xs =>
      simp only [List.nil_append, List.cons_append] at h
      injection h with h1 _
      exact absurd (h1 ▸ List.mem_cons_self x xs) hb
  | cons x xs ih =>
    intro b u v ha hb h
    cases b with
    | nil =>
      simp only [List.cons_append, List.nil_append] at h
      injection h with h1 _
      exact absurd (h1.symm ▸ List.mem_cons_self x xs) ha
    | cons y ys =>
      simp only [List.cons_append] at h
      injection h with h1 h2
      subst h1
      obtain ⟨hxs, huv⟩ := ih ys u v
        (fun hm => ha (List.mem_cons_of_mem _ hm))
        (fun hm => hb (List.mem_cons_of_mem _ hm)) h2
      exact ⟨by rw [hxs], huv⟩

/-- Uniqueness of the split at the last occurrence of a separator. -/
theorem append_sep_inj_last (sep : Char) (u v a b : Str) (ha : sep ∉ a)
    (hb : sep ∉ b) (h : u ++ sep :: a = v ++ sep :: b) : u = v ∧ a = b := by
  have h' := congrArg List.reverse h
  rw [List.reverse_append, List.reverse_append, List.reverse_cons,
    List.reverse_cons, List.append_assoc, List.append_assoc,
    List.singleton_append, List.singleton_append] at h'
  obtain ⟨h1, h2⟩ := append_sep_inj sep a.reverse b.reverse u.reverse v.reverse
    (by simpa using ha) (by simpa using hb) h'
  exact ⟨List.reverse_inj.mp h2, List.reverse_inj.mp h1⟩

/-!
## Node-id shapes

`FnId` captures exactly the ids the analyzer ever assigns to `function`
nodes: a flat external placeholder `function:<dotted>` or a scoped
`<scope>::function:<name>`.
-/

/-- An id of function shape. -/
def FnId (id : Str) : Prop :=
  (∃ t, id = "function:".toList ++ t ∧ ':' ∉ t) ∨
  (∃ p nm, id = p ++ "::function:".toList ++ nm ∧ ':' ∉ nm)

theorem count_flat (pre m : Str) (hm : ':' ∉ m) :
    (pre ++ m).count ':' = pre.count ':' := by
  rw [List.count_append, List.count_eq_zero.mpr hm]
  omega

theorem count_scoped (p mid nm : Str) (hnm : ':' ∉ nm) :
    (p ++ mid ++ nm).count ':' = p.count ':' + mid.count ':' := by
  rw [List.count_append, List.count_append, List.count_eq_zero.mpr hnm]
  omega

theorem not_FnId_file {m : Str} (hm : ':' ∉ m) :
    ¬ FnId ("file:".toList ++ m) := by
  rintro (⟨t, ht, hc⟩ | ⟨p, nm, hp, hnm⟩)
  · have h5 : "file:".toList = ['f', 'i', 'l', 'e', ':'] := rfl
    have h9 : "function:".toList
        = ['f', 'u', 'n', 'c', 't', 'i', 'o', 'n', ':'] := rfl
    rw [h5, h9] at ht
    simp at ht
  · have h1 : ("file:".toList ++ m).count ':' = 1 := by
      rw [count_flat _ _ hm]
      rfl
    rw [hp, count_scoped _ _ _ hnm] at h1
    have h2 : ("::function:".toList).count ':' = 3 := rfl
    omega

theorem not_FnId_dir {m : Str} (hm : ':' ∉ m) :
    ¬ FnId ("dir:".toList ++ m) := by
  rintro (⟨t, ht, hc⟩ | ⟨p, nm, hp, hnm⟩)
  · have h5 : "dir:".toList = ['d', 'i', 'r', ':'] := rfl
    have h9 : "function:".toList
        = ['f', 'u', 'n', 'c', 't', 'i', 'o', 'n', ':'] := rfl
    rw [h5, h9] at ht
    simp at ht
  · have h1 : ("dir:".toList ++ m).count ':' = 1 := by
      rw [count_flat _ _ hm]
      rfl
    rw [hp, count_scoped _ _ _ hnm] at h1
    have h2 : ("::function:".toList).count ':' = 3 := rfl
    omega

theorem not_FnId_class_flat {m : Str} (hm : ':' ∉ m) :
    ¬ FnId ("class:".toList ++ m) := by
  rintro (⟨t, ht, hc⟩ | ⟨p, nm, hp, hnm⟩)
  · have h5 : "class:".toList = ['c', 'l', 'a', 's', 's', ':'] := rfl
    have h9 : "function:".toList
        = ['f', 'u', 'n', 'c', 't', 'i', 'o', 'n', ':'] := rfl
    rw [h5, h9] at ht
    simp at ht
  · have h1 : ("class:".toList ++ m).count ':' = 1 := by
      rw [count_flat _ _ hm]
      rfl
    rw [hp, count_scoped _ _ _ hnm] at h1
    have h2 : ("::function:".toList).count ':' = 3 := rfl
    omega

theorem FnId_placeholder {nm : Str} (h : ':' ∉ nm) :
    FnId ("function:".toList ++ nm) := Or.inl ⟨nm, rfl, h⟩

theorem FnId_scoped {p nm : Str} (h : ':' ∉ nm) :
    FnId (p ++ "::function:".toList ++ nm) := Or.inr ⟨p, nm, rfl, h⟩

theorem not_FnId_class_scoped {p nm : Str} (hp : ∃ pp, p = "file:".toList ++ pp)
    (hnm : ':' ∉ nm) : ¬ FnId (p ++ "::class:".toList ++ nm) := by
  rintro (⟨t, ht, hc⟩ | ⟨q, nm', hq, hnm'⟩)
  · obtain ⟨pp, rfl⟩ := hp
    have h5 : "file:".toList = ['f', 'i', 'l', 'e', ':'] := rfl
    have h9 : "function:".toList
        = ['f', 'u', 'n', 'c', 't', 'i', 'o', 'n', ':'] := rfl
    rw [h5, h9] at ht
    simp at ht
  · have e1 : p ++ "::class:".toList ++ nm
        = (p ++ [':', ':', 'c', 'l', 'a', 's', 's']) ++ ':' :: nm := by
      simp
    have e2 : q ++ "::function:".toList ++ nm'
        = (q ++ [':', ':', 'f', 'u', 'n', 'c', 't', 'i', 'o', 'n'])
          ++ ':' :: nm' := by
      simp
    rw [e1, e2] at hq
    obtain ⟨h1, -⟩ := append_sep_inj_last ':' _ _ _ _ hnm hnm' hq
    have h2 := congrArg List.getLast? h1
    rw [List.getLast?_append, List.getLast?_append] at h2
    simp at h2

theorem makeId_function (fid : Str) (stk : List Str) (name : Str) :
    makeId fid stk "function" name
      = curScope fid stk ++ "::function:".toList ++ name := by
  simp only [makeId, List.append_assoc]
  congr 1

theorem makeId_class (fid : Str) (stk : List Str) (name : Str) :
    makeId fid stk "class" name
      = curScope fid stk ++ "::class:".toList ++ name := by
  simp only [makeId, List.append_assoc]
  congr 1

mutual

/-- All identifiers, attribute names, definition names and import module
paths in the tree are benign names. -/
def astOk : Ast → Bool
  | .Module body => astListOk body
  | .Import names => names.all okName
  | .ImportFrom m => (match m with | none => true | some s => okName s)
  | .ClassDef name bases body _ _ =>
    okName name && astListOk bases && astListOk body
  | .FunctionDef name body _ _ => okName name && astListOk body
  | .AsyncFunctionDef name body _ _ => okName name && astListOk body
  | .Name id => okName id
  | .Attribute value attr => okName attr && astOk value
  | .Call func args => astOk func && astListOk args
  | .Other children => astListOk children
termination_by a => 2 * sizeOf a

/-- `astOk` over a list of nodes. -/
def astListOk : List Ast → Bool
  | [] => true
  | a :: as => astOk a && astListOk as
termination_by as => 2 * sizeOf as

end

theorem astListOk_mem {l : List Ast} {a : Ast} (h : astListOk l = true)
    (hm : a ∈ l) : astOk a = true := by
  induction l with
  | nil => cases hm
  | cons b rest ih =>
    rw [astListOk, Bool.and_eq_true] at h
    rcases List.mem_cons.mp hm with rfl | hm'
    · exact h.1
    · exact ih h.2 hm'

theorem astOk_children {a b : Ast} (ha : astOk a = true)
    (hb : b ∈ a.children) : astOk b = true := by
  cases a with
  | Module body =>
    rw [astOk] at ha
    exact astListOk_mem ha hb
  | Import names => simp [Ast.children] at hb
  | ImportFrom m => simp [Ast.children] at hb
  | ClassDef name bases body lineno end_lineno =>
    rw [astOk, Bool.and_eq_true, Bool.and_eq_true] at ha
    rcases List.mem_append.mp hb with h' | h'
    · exact astListOk_mem ha.1.2 h'
    · exact astListOk_mem ha.2 h'
  | FunctionDef name body lineno end_lineno =>
    rw [astOk, Bool.and_eq_true] at ha
    exact astListOk_mem ha.2 hb
  | AsyncFunctionDef name body lineno end_lineno =>
    rw [astOk, Bool.and_eq_true] at ha
    exact astListOk_mem ha.2 hb
  | Name id => simp [Ast.children] at hb
  | Attribute value attr =>
    rw [astOk, Bool.and_eq_true] at ha
    rw [Ast.children, List.mem_singleton] at hb
    exact hb ▸ ha.2
  | Call func args =>
    rw [astOk, Bool.and_eq_true] at ha
    rcases List.mem_cons.mp hb with rfl | h'
    · exact ha.1
    · exact astListOk_mem ha.2 h'
  | Other children =>
    rw [astOk] at ha
    exact astListOk_mem ha hb

/-- A resolvable dotted name built from benign identifiers is benign
(its characters are identifier characters and dots). -/
theorem resolve_name_ok (e : Ast) : ∀ {s : Str}, astOk e = true →
    resolve_name e = some s → ':' ∉ s ∧ '/' ∉ s := by
  match e with
  | .Name id =>
    intro s ha hs
    rw [resolve_name] at hs
    injection hs with hs
    subst hs
    exact okName_iff.mp (by rw [astOk] at ha; exact ha)
  | .Attribute value attr =>
    intro s ha hs
    rw [astOk, Bool.and_eq_true] at ha
    have hattr := okName_iff.mp ha.1
    rw [resolve_name] at hs
    cases hrv : resolve_name value with
    | none =>
      rw [hrv] at hs
      injection hs with hs
      subst hs
      exact hattr
    | some val =>
      rw [hrv] at hs
      dsimp only at hs
      have hval := resolve_name_ok value ha.2 hrv
      by_cases hne : val ≠ []
      · rw [if_pos hne] at hs
        injection hs with hs
        subst hs
        constructor
        · intro hm
          rcases List.mem_append.mp hm with h' | h'
          · exact hval.1 h'
          · rcases List.mem_cons.mp h' with he | h''
            · exact absurd he (by decide)
            · exact hattr.1 h''
        · intro hm
          rcases List.mem_append.mp hm with h' | h'
          · exact hval.2 h'
          · rcases List.mem_cons.mp h' with he | h''
            · exact absurd he (by decide)
            · exact hattr.2 h''
      · rw [if_neg hne] at hs
        injection hs with hs
        subst hs
        exact hattr
  | .Module body => intro s _ hs; simp [resolve_name] at hs
  | .Import names => intro s _ hs; simp [resolve_name] at hs
  | .ImportFrom m => intro s _ hs; simp [resolve_name] at hs
  | .ClassDef name bases body lineno end_lineno =>
    intro s _ hs; simp [resolve_name] at hs
  | .FunctionDef name body lineno end_lineno =>
    intro s _ hs; simp [resolve_name] at hs
  | .AsyncFunctionDef name body lineno end_lineno =>
    intro s _ hs; simp [resolve_name] at hs
  | .Call func args => intro s _ hs; simp [resolve_name] at hs
  | .Other children => intro s _ hs; simp [resolve_name] at hs

/-- Everything the call scan collects from a benign tree is benign. -/
theorem astOk_collectBody {a c : Ast} (hc : c ∈ collectBody a)
    (ha : astOk a = true) : astOk c = true := by
  rw [collectBody_eq_children, mem_collectKids_iff] at hc
  obtain ⟨b, hb, hcb⟩ := hc
  rw [mem_collectChild_iff] at hcb
  obtain ⟨-, hcb⟩ := hcb
  have hbok := astOk_children ha hb
  cases hcb with
  | inl h => exact h.1 ▸ hbok
  | inr h => exact astOk_collectBody h hbok
termination_by sizeOf a
decreasing_by
  have := sizeOf_lt_of_mem_children hb
  omega

theorem joinPath_no_colon {l : List Str} (h : ∀ s ∈ l, ':' ∉ s) :
    ':' ∉ joinPath l := by
  induction l with
  | nil => simp [joinPath]
  | cons p rest ih =>
    cases rest with
    | nil => simpa [joinPath] using h p (by simp)
    | cons q rest' =>
      rw [joinPath]
      intro hm
      rcases List.mem_append.mp hm with h' | h'
      · exact h p (by simp) h'
      · rcases List.mem_cons.mp h' with he | h''
        · exact absurd he (by decide)
        · exact ih (fun s hs => h s (List.mem_cons_of_mem _ hs)) h''

theorem slash_mem_joinPath (a b : Str) (rest : List Str) :
    '/' ∈ joinPath (a :: b :: rest) := by
  rw [joinPath]
  simp

theorem joinPath_cons_cons_ne_nil (a b : Str) (rest : List Str) :
    joinPath (a :: b :: rest) ≠ [] := by
  rw [joinPath]
  simp

/-- With nonempty slash-free segments, the slash-joined path determines
the segment list. -/
theorem joinPath_inj : ∀ (l1 l2 : List Str),
    (∀ s ∈ l1, s ≠ [] ∧ '/' ∉ s) → (∀ s ∈ l2, s ≠ [] ∧ '/' ∉ s) →
    joinPath l1 = joinPath l2 → l1 = l2 := by
  intro l1
  induction l1 with
  | nil =>
    intro l2 _ h2 he
    cases l2 with
    | nil => rfl
    | cons p rest =>
      cases rest with
      | nil => exact absurd he.symm (h2 p (by simp)).1
      | cons q rest' => exact absurd he.symm (joinPath_cons_cons_ne_nil p q rest')
  | cons p rest ih =>
    intro l2 h1 h2 he
    cases l2 with
    | nil =>
      cases rest with
      | nil => exact absurd he (h1 p (by simp)).1
      | cons q rest' => exact absurd he (joinPath_cons_cons_ne_nil p q rest')
    | cons p' rest' =>
      cases rest with
      | nil =>
        cases rest' with
        | nil => rw [joinPath] at he; rw [joinPath] at he; rw [he]
        | cons q' rest'' =>
          rw [joinPath, joinPath] at he
          exact absurd (he ▸ (by simp : '/' ∈ p' ++ '/' :: joinPath (q' :: rest'')))
            (h1 p (by simp)).2
      | cons q rest2 =>
        cases rest' with
        | nil =>
          rw [joinPath, joinPath] at he
          exact absurd (he.symm ▸ (by simp : '/' ∈ p ++ '/' :: joinPath (q :: rest2)))
            (h2 p' (by simp)).2
        | cons q' rest2' =>
          rw [joinPath, joinPath] at he
          obtain ⟨hp, hrest⟩ := append_sep_inj '/' p (p') _ _
            (h1 p (by simp)).2 (h2 p' (by simp)).2 he
          have := ih (q' :: rest2')
            (fun s hs => h1 s (List.mem_cons_of_mem _ hs))
            (fun s hs => h2 s (List.mem_cons_of_mem _ hs)) hrest
          rw [hp, this]

/-!
## What the walkers add to the store
-/

theorem resolve_target_nodes (fid : Str) (g : Graph) (name : Str) :
    (resolve_target fid g name).1.nodes = g.nodes ∨
    (resolve_target fid g name).1.nodes = g.nodes ++
      [⟨"function:".toList ++ name, "function", shortName name, "3rd", 0⟩] := by
  simp only [resolve_target]
  repeat' split
  all_goals first
    | exact Or.inl rfl
    | (unfold Graph.add_node
       split
       · exact Or.inl rfl
       · exact Or.inr rfl)

theorem handle_call_nodes (fid scope : Str) (g : Graph) (c : Ast)
    (hok : ∀ s, calleeName c = some s → ':' ∉ s ∧ '/' ∉ s) :
    ∀ n ∈ (handle_call fid scope g c).nodes, n ∈ g.nodes ∨
      ∃ nm, n.id = "function:".toList ++ nm ∧ ':' ∉ nm ∧ '/' ∉ nm ∧
        n.kind = "function" := by
  intro n hn
  cases c with
  | Call func args =>
    rw [handle_call] at hn
    cases hr : resolve_name func with
    | none =>
      rw [hr] at hn
      exact Or.inl hn
    | some called =>
      rw [hr] at hn
      dsimp only at hn
      have hedge : ((resolve_target fid g called).1.add_edge scope
          (resolve_target fid g called).2 "calls").nodes
          = (resolve_target fid g called).1.nodes := rfl
      rw [hedge] at hn
      rcases resolve_target_nodes fid g called with h | h
      · rw [h] at hn
        exact Or.inl hn
      · rw [h] at hn
        rcases List.mem_append.mp hn with h' | h'
        · exact Or.inl h'
        · rw [List.mem_singleton] at h'
          subst h'
          have hok' := hok called (by rw [calleeName]; exact hr)
          exact Or.inr ⟨called, rfl, hok'.1, hok'.2, rfl⟩
  | Module body => exact Or.inl hn
  | Import names => exact Or.inl hn
  | ImportFrom m => exact Or.inl hn
  | ClassDef name bases body lineno end_lineno => exact Or.inl hn
  | FunctionDef name body lineno end_lineno => exact Or.inl hn
  | AsyncFunctionDef name body lineno end_lineno => exact Or.inl hn
  | Name id => exact Or.inl hn
  | Attribute value attr => exact Or.inl hn
  | Other children => exact Or.inl hn

theorem foldl_handle_nodes (fid scope : Str) (cs : List Ast) (g : Graph)
    (hok : ∀ c ∈ cs, ∀ s, calleeName c = some s → ':' ∉ s ∧ '/' ∉ s) :
    ∀ n ∈ (cs.foldl (handle_call fid scope) g).nodes, n ∈ g.nodes ∨
      ∃ nm, n.id = "function:".toList ++ nm ∧ ':' ∉ nm ∧ '/' ∉ nm ∧
        n.kind = "function" := by
  induction cs generalizing g with
  | nil => exact fun n hn => Or.inl hn
  | cons c rest ih =>
    intro n hn
    rw [List.foldl_cons] at hn
    rcases ih (handle_call fid scope g c)
        (fun c' h' => hok c' (List.mem_cons_of_mem _ h')) n hn with h | h
    · exact handle_call_nodes fid scope g c (hok c (by simp)) n h
    · exact Or.inr h

/-- Nodes added during the call scan of a benign tree are exactly external
function placeholders. -/
theorem walkBody_nodes (fid scope : Str) (g : Graph) (a : Ast)
    (ha : astOk a = true) :
    ∀ n ∈ (walkBody fid scope g a).nodes, n ∈ g.nodes ∨
      ∃ nm, n.id = "function:".toList ++ nm ∧ ':' ∉ nm ∧ '/' ∉ nm ∧
        n.kind = "function" := by
  rw [walkBody_eq]
  apply foldl_handle_nodes
  intro c hc s hs
  have hcok := astOk_collectBody hc ha
  cases c with
  | Call func args =>
    rw [calleeName] at hs
    rw [astOk, Bool.and_eq_true] at hcok
    exact resolve_name_ok func hcok.1 hs
  | Module body => simp [calleeName] at hs
  | Import names => simp [calleeName] at hs
  | ImportFrom m => simp [calleeName] at hs
  | ClassDef name bases body lineno end_lineno => simp [calleeName] at hs
  | FunctionDef name body lineno end_lineno => simp [calleeName] at hs
  | AsyncFunctionDef name body lineno end_lineno => simp [calleeName] at hs
  | Name id => simp [calleeName] at hs
  | Attribute value attr => simp [calleeName] at hs
  | Other children => simp [calleeName] at hs

/-!
## Shapes of the nodes and edges the visitor creates
-/

/-- The shapes of nodes `visit` (and the call scan it triggers) can add to
the store, given a benign tree and a scope stack of file-rooted ids. -/
def NewNode (n : Node) : Prop :=
  (∃ m, n.id = "file:".toList ++ m ∧ ':' ∉ m ∧ '/' ∉ m ∧ n.kind = "file")
  ∨ (∃ p nm, n.id = p ++ "::class:".toList ++ nm ∧
      (∃ pp, p = "file:".toList ++ pp) ∧ ':' ∉ nm ∧ n.kind = "class")
  ∨ (∃ p nm, n.id = p ++ "::function:".toList ++ nm ∧ ':' ∉ nm ∧
      n.kind = "function")
  ∨ (∃ nm, n.id = "class:".toList ++ nm ∧ ':' ∉ nm ∧ '/' ∉ nm ∧
      n.kind = "class")
  ∨ (∃ nm, n.id = "function:".toList ++ nm ∧ ':' ∉ nm ∧ '/' ∉ nm ∧
      n.kind = "function")

/-- Among the shapes `visit` creates, ids of function shape belong exactly
to `function`-kind nodes. -/
theorem NewNode_fnkind {n : Node} (h : NewNode n) (hf : FnId n.id) :
    n.kind = "function" := by
  rcases h with ⟨m, hid, hm, _, hk⟩ | ⟨p, nm, hid, hp, hnm, hk⟩
    | ⟨p, nm, hid, hnm, hk⟩ | ⟨nm, hid, hnm, _, hk⟩ | ⟨nm, hid, hnm, _, hk⟩
  · exact absurd (hid ▸ hf) (not_FnId_file hm)
  · exact absurd (hid ▸ hf) (not_FnId_class_scoped hp hnm)
  · exact hk
  · exact absurd (hid ▸ hf) (not_FnId_class_flat hnm)
  · exact hk

/-- The shapes of edges `visit` can append, relative to a node list `ns`
(the nodes of the graph after the visit). -/
def NewEdge (ns : List Node) (e : Edge) : Prop :=
  e.kind = "imports" ∨ e.kind = "is"
  ∨ (e.kind = "has" ∧ ∃ p r, e.dst = p ++ ':' :: ':' :: r)
  ∨ (e.kind = "calls" ∧ ∃ n ∈ ns, n.id = e.src ∧ n.kind = "function")

theorem NewEdge_mono {g g' : Graph} (h : Extends g g') {e : Edge}
    (he : NewEdge g.nodes e) : NewEdge g'.nodes e := by
  rcases he with h1 | h1 | h1 | ⟨h1, n, hn, hid, hk⟩
  · exact Or.inl h1
  · exact Or.inr (Or.inl h1)
  · exact Or.inr (Or.inr (Or.inl h1))
  · exact Or.inr (Or.inr (Or.inr ⟨h1, n, mem_nodes_mono h hn, hid, hk⟩))

/-- Ids of function shape always name nodes of kind `function`.  This is
the store invariant behind C9. -/
def FnKindInv (g : Graph) : Prop :=
  ∀ n ∈ g.nodes, FnId n.id → n.kind = "function"

theorem FnKindInv_of_char {g g' : Graph} (h : FnKindInv g)
    (hchar : ∀ n ∈ g'.nodes, n ∈ g.nodes ∨ NewNode n) : FnKindInv g' :=
  fun n hn hf => (hchar n hn).elim (fun h' => h n h' hf)
    (fun h' => NewNode_fnkind h' hf)

theorem mem_nodes_add_node {g : Graph} {id : Str} {k : String} {l : Str}
    {p : String} {s : Nat} {n : Node}
    (hn : n ∈ (g.add_node id k l p s).nodes) :
    n ∈ g.nodes ∨ n = ⟨id, k, l, p, s⟩ := by
  unfold Graph.add_node at hn
  split at hn
  · exact Or.inl hn
  · rcases List.mem_append.mp hn with h | h
    · exact Or.inl h
    · exact Or.inr (List.mem_singleton.mp h)

theorem mem_edges_add_edge {g : Graph} {s d : Str} {k : String} {e : Edge}
    (he : e ∈ (g.add_edge s d k).edges) : e ∈ g.edges ∨ e = ⟨s, d, k⟩ := by
  unfold Graph.add_edge at he
  rcases List.mem_append.mp he with h | h
  · exact Or.inl h
  · exact Or.inr (List.mem_singleton.mp h)

theorem nodes_add_edge (g : Graph) (s d : Str) (k : String) :
    (g.add_edge s d k).nodes = g.nodes := rfl

/-- Node/edge characterization of the `visit_Import` alias loop. -/
theorem import_fold_char (scopeId : Str) (names : List Str) (g : Graph)
    (hok : ∀ nm ∈ names, okName nm = true) :
    (∀ n ∈ (names.foldl (fun g nm =>
        let mod_id := "file:".toList ++ nm
        (g.add_node mod_id "file" nm "3rd" 0).add_edge scopeId mod_id
          "imports") g).nodes, n ∈ g.nodes ∨ NewNode n) ∧
    (∀ e ∈ (names.foldl (fun g nm =>
        let mod_id := "file:".toList ++ nm
        (g.add_node mod_id "file" nm "3rd" 0).add_edge scopeId mod_id
          "imports") g).edges, e ∈ g.edges ∨ e.kind = "imports") := by
  induction names generalizing g with
  | nil => exact ⟨fun n hn => Or.inl hn, fun e he => Or.inl he⟩
  | cons nm rest ih =>
    rw [List.foldl_cons]
    obtain ⟨ihn, ihe⟩ := ih ((g.add_node ("file:".toList ++ nm) "file" nm
        "3rd" 0).add_edge scopeId ("file:".toList ++ nm) "imports")
      (fun nm' h' => hok nm' (List.mem_cons_of_mem _ h'))
    refine ⟨fun n hn => ?_, fun e he => ?_⟩
    · rcases ihn n hn with h | h
      · rw [nodes_add_edge] at h
        rcases mem_nodes_add_node h with h' | h'
        · exact Or.inl h'
        · subst h'
          have hno := okName_iff.mp (hok nm (by simp))
          exact Or.inr (Or.inl ⟨nm, rfl, hno.1, hno.2, rfl⟩)
      · exact Or.inr h
    · rcases ihe e he with h | h
      · rcases mem_edges_add_edge h with h' | h'
        · rw [edges_add_node] at h'
          exact Or.inl h'
        · subst h'
          exact Or.inr rfl
      · exact Or.inr h

/-- Node/edge characterization of the base-class loop of
`visit_ClassDef`. -/
theorem bases_fold_char (cls_id : Str) (bases : List Ast) (g1 : Graph)
    (hok : ∀ b ∈ bases, astOk b = true) :
    (∀ n ∈ (bases.foldl (fun g b =>
        match resolve_name b with
        | some base_name =>
          if base_name ≠ [] then
            let base_id := "class:".toList ++ base_name
            (g.add_node base_id "class" base_name "3rd" 0).add_edge
              cls_id base_id "is"
          else g
        | none => g) g1).nodes, n ∈ g1.nodes ∨ NewNode n) ∧
    (∀ e ∈ (bases.foldl (fun g b =>
        match resolve_name b with
        | some base_name =>
          if base_name ≠ [] then
            let base_id := "class:".toList ++ base_name
            (g.add_node base_id "class" base_name "3rd" 0).add_edge
              cls_id base_id "is"
          else g
        | none => g) g1).edges, e ∈ g1.edges ∨ e.kind = "is") := by
  induction bases generalizing g1 with
  | nil => exact ⟨fun n hn => Or.inl hn, fun e he => Or.inl he⟩
  | cons b rest ih =>
    rw [List.foldl_cons]
    have hbok := hok b (by simp)
    have hrest : ∀ b' ∈ rest, astOk b' = true :=
      fun b' h' => hok b' (List.mem_cons_of_mem _ h')
    cases hr : resolve_name b with
    | none =>
      dsimp only
      obtain ⟨ihn, ihe⟩ := ih g1 hrest
      exact ⟨ihn, ihe⟩
    | some bn =>
      dsimp only
      by_cases hne : bn ≠ []
      · rw [if_pos hne]
        have hbn := resolve_name_ok b hbok hr
        obtain ⟨ihn, ihe⟩ := ih ((g1.add_node ("class:".toList ++ bn)
            "class" bn "3rd" 0).add_edge cls_id ("class:".toList ++ bn)
            "is") hrest
        refine ⟨fun n hn => ?_, fun e he => ?_⟩
        · rcases ihn n hn with h | h
          · rw [nodes_add_edge] at h
            rcases mem_nodes_add_node h with h' | h'
            · exact Or.inl h'
            · subst h'
              exact Or.inr (Or.inr (Or.inr (Or.inr (Or.inl
                ⟨bn, rfl, hbn.1, hbn.2, rfl⟩))))
          · exact Or.inr h
        · rcases ihe e he with h | h
          · rcases mem_edges_add_edge h with h' | h'
            · rw [edges_add_node] at h'
              exact Or.inl h'
            · subst h'
              exact Or.inr rfl
          · exact Or.inr h
      · rw [if_neg hne]
        exact ih g1 hrest

theorem char_trans {g1 g2 g3 : Graph}
    (h12 : ∀ n ∈ g2.nodes, n ∈ g1.nodes ∨ NewNode n)
    (h23 : ∀ n ∈ g3.nodes, n ∈ g2.nodes ∨ NewNode n) :
    ∀ n ∈ g3.nodes, n ∈ g1.nodes ∨ NewNode n :=
  fun n hn => (h23 n hn).elim (fun h => h12 n h) Or.inr

theorem curScope_file {fid : Str} {stk : List Str}
    (hstk : ∀ s ∈ stk, ∃ pp, s = "file:".toList ++ pp)
    (hfid : ∃ pp, fid = "file:".toList ++ pp) :
    ∃ pp, curScope fid stk = "file:".toList ++ pp := by
  cases stk with
  | nil => exact hfid
  | cons s rest => exact hstk s (by simp)

theorem makeId_file {fid : Str} {stk : List Str} (k : String) (name : Str)
    (hstk : ∀ s ∈ stk, ∃ pp, s = "file:".toList ++ pp)
    (hfid : ∃ pp, fid = "file:".toList ++ pp) :
    ∃ pp, makeId fid stk k name = "file:".toList ++ pp := by
  obtain ⟨pp, hpp⟩ := curScope_file hstk hfid
  exact ⟨pp ++ "::".toList ++ k.toList ++ ":".toList ++ name,
    by simp [makeId, hpp]⟩

theorem makeId_cc (fid : Str) (stk : List Str) (k : String) (name : Str) :
    ∃ p r, makeId fid stk k name = p ++ ':' :: ':' :: r :=
  ⟨curScope fid stk, k.toList ++ ":".toList ++ name, by simp [makeId]⟩

/-- Node/edge characterization of creating a definition node and its
containment edge (shared by `visit_ClassDef` and `_visit_function`). -/
theorem def_node_char (g : Graph) (scopeId defId : Str) (k : String)
    (name : Str) (loc : Nat)
    (hnew : NewNode ⟨defId, k, name, "1st", loc⟩)
    (hcc : ∃ p r, defId = p ++ ':' :: ':' :: r) :
    (∀ n ∈ ((g.add_node defId k name "1st" loc).add_edge scopeId defId
        "has").nodes, n ∈ g.nodes ∨ NewNode n) ∧
    (∀ (ns : List Node), ∀ e ∈ ((g.add_node defId k name "1st" loc).add_edge
        scopeId defId "has").edges, e ∈ g.edges ∨ NewEdge ns e) := by
  refine ⟨fun n hn => ?_, fun ns e he => ?_⟩
  · rw [nodes_add_edge] at hn
    rcases mem_nodes_add_node hn with h | h
    · exact Or.inl h
    · subst h
      exact Or.inr hnew
  · rcases mem_edges_add_edge he with h | h
    · rw [edges_add_node] at h
      exact Or.inl h
    · subst h
      exact Or.inr (Or.inr (Or.inr (Or.inl ⟨rfl, hcc⟩)))

mutual

theorem visit_char (fid : Str) (stk : List Str) (g : Graph) (a : Ast)
    (ha : astOk a = true) (hkind : FnKindInv g)
    (hstk : ∀ s ∈ stk, ∃ pp, s = "file:".toList ++ pp)
    (hfid : ∃ pp, fid = "file:".toList ++ pp) :
    (∀ n ∈ (visit fid stk g a).nodes, n ∈ g.nodes ∨ NewNode n) ∧
    (∀ e ∈ (visit fid stk g a).edges, e ∈ g.edges ∨
      NewEdge (visit fid stk g a).nodes e) := by
  cases a with
  | Module body =>
    rw [visit]
    exact visitList_char fid stk g body (by rwa [astOk] at ha) hkind hstk hfid
  | Import names =>
    rw [visit]
    have hok : ∀ nm ∈ names, okName nm = true := by
      rw [astOk] at ha
      exact fun nm h => List.all_eq_true.mp ha nm h
    obtain ⟨hn, he⟩ := import_fold_char (curScope fid stk) names g hok
    exact ⟨hn, fun e hee => (he e hee).elim Or.inl (fun h => Or.inr (Or.inl h))⟩
  | ImportFrom m =>
    cases m with
    | none => rw [visit]; exact ⟨fun n hn => Or.inl hn, fun e he => Or.inl he⟩
    | some mm =>
      rw [visit]
      have hok := okName_iff.mp (by rw [astOk] at ha; exact ha)
      refine ⟨fun n hn => ?_, fun e he => ?_⟩
      · rw [nodes_add_edge] at hn
        rcases mem_nodes_add_node hn with h | h
        · exact Or.inl h
        · subst h
          exact Or.inr (Or.inl ⟨mm, rfl, hok.1, hok.2, rfl⟩)
      · rcases mem_edges_add_edge he with h | h
        · rw [edges_add_node] at h
          exact Or.inl h
        · subst h
          exact Or.inr (Or.inl rfl)
  | ClassDef name bases body lineno end_lineno =>
    rw [visit]
    rw [astOk, Bool.and_eq_true, Bool.and_eq_true] at ha
    obtain ⟨⟨hname, hbases⟩, hbody⟩ := ha
    obtain ⟨pp, hpp⟩ := curScope_file hstk hfid
    have hstk' : ∀ s ∈ (makeId fid stk "class" name :: stk),
        ∃ qq, s = "file:".toList ++ qq := by
      intro s hs
      rcases List.mem_cons.mp hs with rfl | hs'
      · exact makeId_file "class" name hstk hfid
      · exact hstk s hs'
    obtain ⟨h1n, h1e⟩ := def_node_char g (curScope fid stk)
      (makeId fid stk "class" name) "class" name
      ((end_lineno.getD lineno) - lineno + 1)
      (Or.inr (Or.inl ⟨curScope fid stk, name, makeId_class fid stk name,
        ⟨pp, hpp⟩, (okName_iff.mp hname).1, rfl⟩))
      (makeId_cc fid stk "class" name)
    obtain ⟨h2n, h2e⟩ := bases_fold_char (makeId fid stk "class" name) bases
      ((g.add_node (makeId fid stk "class" name) "class" name "1st"
        ((end_lineno.getD lineno) - lineno + 1)).add_edge (curScope fid stk)
        (makeId fid stk "class" name) "has")
      (fun b hb => astListOk_mem hbases hb)
    have hkind2 : FnKindInv _ := FnKindInv_of_char hkind (char_trans h1n h2n)
    obtain ⟨h3n, h3e⟩ := visitList_char fid (makeId fid stk "class" name :: stk)
      _ bases hbases hkind2 hstk' hfid
    have hkind3 : FnKindInv _ := FnKindInv_of_char hkind2 h3n
    obtain ⟨h4n, h4e⟩ := visitList_char fid (makeId fid stk "class" name :: stk)
      _ body hbody hkind3 hstk' hfid
    refine ⟨char_trans (char_trans (char_trans h1n h2n) h3n) h4n,
      fun e he => ?_⟩
    rcases h4e e he with h | h
    · rcases h3e e h with h' | h'
      · rcases h2e e h' with h'' | h''
        · rcases h1e _ e h'' with h3 | h3
          · exact Or.inl h3
          · exact Or.inr h3
        · exact Or.inr (Or.inr (Or.inl h''))
      · exact Or.inr (NewEdge_mono (visitList_extends ..) h')
    · exact Or.inr h
  | FunctionDef name body lineno end_lineno =>
    rw [visit]
    rw [astOk, Bool.and_eq_true] at ha
    exact visitFunction_char fid stk g name body lineno end_lineno ha.1 ha.2
      hkind hstk hfid
  | AsyncFunctionDef name body lineno end_lineno =>
    rw [visit]
    rw [astOk, Bool.and_eq_true] at ha
    exact visitFunction_char fid stk g name body lineno end_lineno ha.1 ha.2
      hkind hstk hfid
  | Name id => rw [visit]; exact ⟨fun n hn => Or.inl hn, fun e he => Or.inl he⟩
  | Attribute value attr =>
    rw [visit]
    rw [astOk, Bool.and_eq_true] at ha
    exact visit_char fid stk g value ha.2 hkind hstk hfid
  | Call func args =>
    rw [visit]
    rw [astOk, Bool.and_eq_true] at ha
    obtain ⟨h1n, h1e⟩ := visit_char fid stk g func ha.1 hkind hstk hfid
    obtain ⟨h2n, h2e⟩ := visitList_char fid stk _ args ha.2
      (FnKindInv_of_char hkind h1n) hstk hfid
    refine ⟨char_trans h1n h2n, fun e he => ?_⟩
    rcases h2e e he with h | h
    · rcases h1e e h with h' | h'
      · exact Or.inl h'
      · exact Or.inr (NewEdge_mono (visitList_extends ..) h')
    · exact Or.inr h
  | Other children =>
    rw [visit]
    exact visitList_char fid stk g children (by rwa [astOk] at ha) hkind
      hstk hfid
termination_by 2 * sizeOf a
decreasing_by
  all_goals subst_vars
  all_goals simp_arith
  all_goals omega

theorem visitFunction_char (fid : Str) (stk : List Str) (g : Graph)
    (name : Str) (body : List Ast) (lineno : Nat) (end_lineno : Option Nat)
    (hname : okName name = true) (hbody : astListOk body = true)
    (hkind : FnKindInv g)
    (hstk : ∀ s ∈ stk, ∃ pp, s = "file:".toList ++ pp)
    (hfid : ∃ pp, fid = "file:".toList ++ pp) :
    (∀ n ∈ (visitFunction fid stk g name body lineno end_lineno).nodes,
      n ∈ g.nodes ∨ NewNode n) ∧
    (∀ e ∈ (visitFunction fid stk g name body lineno end_lineno).edges,
      e ∈ g.edges ∨ NewEdge
        (visitFunction fid stk g name body lineno end_lineno).nodes e) := by
  rw [visitFunction]
  have hnc : ':' ∉ name := (okName_iff.mp hname).1
  have hfnid : FnId (makeId fid stk "function" name) := by
    rw [makeId_function]
    exact FnId_scoped hnc
  have hstk' : ∀ s ∈ (makeId fid stk "function" name :: stk),
      ∃ qq, s = "file:".toList ++ qq := by
    intro s hs
    rcases List.mem_cons.mp hs with rfl | hs'
    · exact makeId_file "function" name hstk hfid
    · exact hstk s hs'
  set g1 := (g.add_node (makeId fid stk "function" name) "function" name
    "1st" ((end_lineno.getD lineno) - lineno + 1)).add_edge
    (curScope fid stk) (makeId fid stk "function" name) "has" with hg1
  set g2 := walkBody fid (makeId fid stk "function" name) g1
    (.FunctionDef name body lineno end_lineno) with hg2
  obtain ⟨h1n, h1e⟩ := def_node_char g (curScope fid stk)
    (makeId fid stk "function" name) "function" name
    ((end_lineno.getD lineno) - lineno + 1)
    (Or.inr (Or.inr (Or.inl ⟨curScope fid stk, name,
      makeId_function fid stk name, hnc, rfl⟩)))
    (makeId_cc fid stk "function" name)
  -- the function node (freshly created here or first-created earlier) is
  -- in the store before the call scan starts, with kind "function"
  have hfn : ∃ n ∈ g1.nodes,
      n.id = makeId fid stk "function" name ∧ n.kind = "function" := by
    rw [hg1, nodes_add_edge]
    cases hg : g.getNode (makeId fid stk "function" name) with
    | some n =>
      have hmem : n ∈ g.nodes := List.mem_of_find?_eq_some hg
      have hid : n.id = makeId fid stk "function" name := by
        have := List.find?_some hg
        simpa using this
      refine ⟨n, ?_, hid, hkind n hmem (hid ▸ hfnid)⟩
      rw [add_node_noop _ _ _ _ _ _ (by rw [hg]; rfl)]
      exact hmem
    | none =>
      refine ⟨⟨makeId fid stk "function" name, "function", name, "1st",
        (end_lineno.getD lineno) - lineno + 1⟩, ?_, rfl, rfl⟩
      unfold Graph.add_node
      rw [hg]
      simp
  have hastfd : astOk (.FunctionDef name body lineno end_lineno) = true := by
    rw [astOk, Bool.and_eq_true]
    exact ⟨hname, hbody⟩
  have h2n := walkBody_nodes fid (makeId fid stk "function" name) g1
    (.FunctionDef name body lineno end_lineno) hastfd
  have h2n' : ∀ n ∈ g2.nodes, n ∈ g1.nodes ∨ NewNode n := by
    intro n hn
    rcases h2n n hn with h | ⟨nm, hid, hc, hs, hk⟩
    · exact Or.inl h
    · exact Or.inr (Or.inr (Or.inr (Or.inr (Or.inr ⟨nm, hid, hc, hs, hk⟩))))
  obtain ⟨h3n, h3e⟩ := visitList_char fid
    (makeId fid stk "function" name :: stk) g2 body hbody
    (FnKindInv_of_char hkind (char_trans h1n h2n')) hstk' hfid
  refine ⟨char_trans (char_trans h1n h2n') h3n, fun e he => ?_⟩
  rcases h3e e he with h | h
  · -- an edge present before the generic recursion: either pre-existing,
    -- the containment edge, or a calls edge appended by the scan
    rw [hg2, walkBody_eq] at h
    obtain ⟨tids, -, hedges⟩ := foldl_handle_calls_edges fid
      (makeId fid stk "function" name)
      (collectBody (.FunctionDef name body lineno end_lineno)) g1
    rw [hedges] at h
    rcases List.mem_append.mp h with h' | h'
    · rcases h1e _ e h' with h'' | h''
      · exact Or.inl h''
      · exact Or.inr h''
    · obtain ⟨t, -, rfl⟩ := List.mem_map.mp h'
      obtain ⟨n, hn, hid, hk⟩ := hfn
      refine Or.inr (Or.inr (Or.inr (Or.inr ⟨rfl, n, ?_, hid, hk⟩)))
      refine mem_nodes_mono (Extends.trans ?_ (visitList_extends ..)) hn
      rw [hg2]
      exact walkBody_extends ..
  · exact Or.inr h
termination_by 2 * sizeOf body + 1
decreasing_by
  all_goals simp_arith

theorem visitList_char (fid : Str) (stk : List Str) (g : Graph)
    (as : List Ast) (ha : astListOk as = true) (hkind : FnKindInv g)
    (hstk : ∀ s ∈ stk, ∃ pp, s = "file:".toList ++ pp)
    (hfid : ∃ pp, fid = "file:".toList ++ pp) :
    (∀ n ∈ (visitList fid stk g as).nodes, n ∈ g.nodes ∨ NewNode n) ∧
    (∀ e ∈ (visitList fid stk g as).edges, e ∈ g.edges ∨
      NewEdge (visitList fid stk g as).nodes e) := by
  cases as with
  | nil => rw [visitList]; exact ⟨fun n hn => Or.inl hn, fun e he => Or.inl he⟩
  | cons a rest =>
    rw [visitList]
    rw [astListOk, Bool.and_eq_true] at ha
    obtain ⟨h1n, h1e⟩ := visit_char fid stk g a ha.1 hkind hstk hfid
    obtain ⟨h2n, h2e⟩ := visitList_char fid stk _ rest ha.2
      (FnKindInv_of_char hkind h1n) hstk hfid
    refine ⟨char_trans h1n h2n, fun e he => ?_⟩
    rcases h2e e he with h | h
    · rcases h1e e h with h' | h'
      · exact Or.inl h'
      · exact Or.inr (NewEdge_mono (visitList_extends ..) h')
    · exact Or.inr h
termination_by 2 * sizeOf as
decreasing_by
  all_goals subst_vars
  all_goals simp_arith
  all_goals omega

end

/-!
## The calls-edge invariant (C9)
-/

/-- Every `calls` edge's source is the id of a stored node of kind
`function`. -/
def CallsInv (g : Graph) : Prop :=
  ∀ e ∈ g.edges, e.kind = "calls" →
    ∃ n ∈ g.nodes, n.id = e.src ∧ n.kind = "function"

theorem CallsInv_of_char {g g' : Graph} (hext : Extends g g')
    (hc : CallsInv g)
    (hchar : ∀ e ∈ g'.edges, e ∈ g.edges ∨ NewEdge g'.nodes e) :
    CallsInv g' := by
  intro e he hk
  rcases hchar e he with h | h
  · obtain ⟨n, hn, hid, hkd⟩ := hc e h hk
    exact ⟨n, mem_nodes_mono hext hn, hid, hkd⟩
  · rcases h with h1 | h1 | ⟨h1, -⟩ | ⟨-, n, hn, hid, hkd⟩
    · rw [hk] at h1
      exact absurd h1 (by decide)
    · rw [hk] at h1
      exact absurd h1 (by decide)
    · rw [hk] at h1
      exact absurd h1 (by decide)
    · exact ⟨n, hn, hid, hkd⟩

/-- A source file is benign: path segments are nonempty and free of `':'`
and `'/'`, and the parsed tree (when present) uses only benign names. -/
def fileOk (f : SrcFile) : Bool :=
  f.dirs.all okSeg && okSeg f.base &&
    (match f.tree with | none => true | some t => astOk t)

/-- All files of a run are benign. -/
def filesOk (files : List SrcFile) : Bool := files.all fileOk

theorem fileOk_parts {f : SrcFile} (hf : fileOk f = true) :
    (∀ s ∈ f.dirs, s ≠ [] ∧ ':' ∉ s ∧ '/' ∉ s) ∧
    (f.base ≠ [] ∧ ':' ∉ f.base ∧ '/' ∉ f.base) ∧
    (∀ t, f.tree = some t → astOk t = true) := by
  unfold fileOk at hf
  rw [Bool.and_eq_true, Bool.and_eq_true] at hf
  obtain ⟨⟨hdirs, hbase⟩, htree⟩ := hf
  refine ⟨fun s hs => okSeg_iff.mp (List.all_eq_true.mp hdirs s hs),
    okSeg_iff.mp hbase, fun t ht => ?_⟩
  rw [ht] at htree
  exact htree

theorem rel_no_colon {f : SrcFile} (hf : fileOk f = true) : ':' ∉ f.rel := by
  obtain ⟨hdirs, hbase, -⟩ := fileOk_parts hf
  refine joinPath_no_colon ?_
  intro s hs
  rcases List.mem_append.mp hs with h | h
  · exact (hdirs s h).2.1
  · rw [List.mem_singleton] at h
    exact h ▸ hbase.2.1

/-- Node/edge/invariant characterization of one `analyze` call on a benign
file. -/
theorem analyze_char (g : Graph) (f : SrcFile) (hf : fileOk f = true)
    (hkind : FnKindInv g) :
    (∀ n ∈ (analyze g f).nodes, n ∈ g.nodes ∨
      (f.tree.isSome = true ∧ n.id = f.fileId ∧ n.kind = "file") ∨
      NewNode n) ∧
    (∀ e ∈ (analyze g f).edges, e ∈ g.edges ∨
      NewEdge (analyze g f).nodes e) ∧
    FnKindInv (analyze g f) ∧
    (CallsInv g → CallsInv (analyze g f)) := by
  cases htree : f.tree with
  | none =>
    have hid : analyze g f = g := by unfold analyze; rw [htree]
    rw [hid]
    exact ⟨fun n hn => Or.inl hn, fun e he => Or.inl he, hkind, fun h => h⟩
  | some tree =>
    have hana : analyze g f = visit f.fileId [f.fileId]
        (g.add_node f.fileId "file" f.base "1st" (fileLoc f.src)) tree := by
      unfold analyze
      rw [htree]
    have hastok : astOk tree = true := (fileOk_parts hf).2.2 tree htree
    have hrelc : ':' ∉ f.rel := rel_no_colon hf
    have hfid : ∃ pp, f.fileId = "file:".toList ++ pp := ⟨f.rel, rfl⟩
    have hstk : ∀ s ∈ [f.fileId], ∃ pp, s = "file:".toList ++ pp := by
      intro s hs
      rw [List.mem_singleton] at hs
      exact hs ▸ hfid
    set g1 := g.add_node f.fileId "file" f.base "1st" (fileLoc f.src)
      with hg1
    have h0n : ∀ n ∈ g1.nodes, n ∈ g.nodes ∨
        ((some tree).isSome = true ∧ n.id = f.fileId ∧ n.kind = "file") := by
      intro n hn
      rcases mem_nodes_add_node hn with h | h
      · exact Or.inl h
      · subst h
        exact Or.inr ⟨rfl, rfl, rfl⟩
    have hkind1 : FnKindInv g1 := by
      intro n hn hfn
      rcases h0n n hn with h | h
      · exact hkind n h hfn
      · have hfn' : FnId f.fileId := h.2.1 ▸ hfn
        exact absurd hfn' (not_FnId_file hrelc)
    rw [hana]
    obtain ⟨hvn, hve⟩ := visit_char f.fileId [f.fileId] g1 tree hastok
      hkind1 hstk hfid
    refine ⟨fun n hn => ?_, fun e he => ?_, FnKindInv_of_char hkind1 hvn,
      fun hcalls => ?_⟩
    · rcases hvn n hn with h | h
      · rcases h0n n h with h' | h'
        · exact Or.inl h'
        · exact Or.inr (Or.inl h')
      · exact Or.inr (Or.inr h)
    · rcases hve e he with h | h
      · rw [hg1, edges_add_node] at h
        exact Or.inl h
      · exact Or.inr h
    · have hc1 : CallsInv g1 := by
        intro e he hk
        rw [hg1, edges_add_node] at he
        obtain ⟨n, hn, hi, hkd⟩ := hcalls e he hk
        exact ⟨n, mem_nodes_mono (extends_add_node ..) hn, hi, hkd⟩
      exact CallsInv_of_char (visit_extends ..) hc1 hve

/-- The alias loop of `visit_Import` only ever appends `imports` edges. -/
theorem import_fold_no_calls (scopeId : Str) (names : List Str) (g : Graph) :
    ∀ e ∈ (names.foldl (fun g nm =>
        let mod_id := "file:".toList ++ nm
        (g.add_node mod_id "file" nm "3rd" 0).add_edge scopeId mod_id
          "imports") g).edges, e ∈ g.edges ∨ e.kind = "imports" := by
  induction names generalizing g with
  | nil => exact fun e he => Or.inl he
  | cons nm rest ih =>
    intro e he
    rw [List.foldl_cons] at he
    rcases ih _ e he with h | h
    · dsimp only at h
      rcases mem_edges_add_edge h with h' | h'
      · rw [edges_add_node] at h'
        exact Or.inl h'
      · rw [h']
        exact Or.inr rfl
    · exact Or.inr h

/-- The base-class loop of `visit_ClassDef` only ever appends `is` edges. -/
theorem bases_fold_no_calls (cls_id : Str) (bases : List Ast) (g : Graph) :
    ∀ e ∈ (bases.foldl (fun g b =>
        match resolve_name b with
        | some base_name =>
          if base_name ≠ [] then
            let base_id := "class:".toList ++ base_name
            (g.add_node base_id "class" base_name "3rd" 0).add_edge
              cls_id base_id "is"
          else g
        | none => g) g).edges, e ∈ g.edges ∨ e.kind = "is" := by
  induction bases generalizing g with
  | nil => exact fun e he => Or.inl he
  | cons b rest ih =>
    intro e he
    rw [List.foldl_cons] at he
    rcases ih _ e he with h | h
    · dsimp only at h
      cases hr : resolve_name b with
      | none =>
        rw [hr] at h
        exact Or.inl h
      | some base_name =>
        rw [hr] at h
        dsimp only at h
        by_cases hne : base_name ≠ []
        · rw [if_pos hne] at h
          rcases mem_edges_add_edge h with h' | h'
          · rw [edges_add_node] at h'
            exact Or.inl h'
          · rw [h']
            exact Or.inr rfl
        · rw [if_neg hne] at h
          exact Or.inl h
    · exact Or.inr h

mutual

/-- The subtree contains no function definition (async included). -/
def noFnDef : Ast → Bool
  | .FunctionDef .. => false
  | .AsyncFunctionDef .. => false
  | .Module body => noFnDefList body
  | .Import _ => true
  | .ImportFrom _ => true
  | .ClassDef _ bases body _ _ => noFnDefList bases && noFnDefList body
  | .Name _ => true
  | .Attribute value _ => noFnDef value
  | .Call func args => noFnDef func && noFnDefList args
  | .Other children => noFnDefList children
termination_by a => 2 * sizeOf a

/-- `noFnDef` over a list of nodes. -/
def noFnDefList : List Ast → Bool
  | [] => true
  | a :: as => noFnDef a && noFnDefList as
termination_by as => 2 * sizeOf as

end

mutual

/-- Visiting a subtree free of function definitions appends no `calls`
edge: every `calls` edge of the result was already in the store. -/
theorem visit_no_calls (fid : Str) (stk : List Str) (g : Graph) (a : Ast)
    (hnd : noFnDef a = true) :
    ∀ e ∈ (visit fid stk g a).edges, e.kind = "calls" → e ∈ g.edges := by
  cases a with
  | Module body =>
    rw [visit]
    exact visitList_no_calls fid stk g body (by rwa [noFnDef] at hnd)
  | Import names =>
    rw [visit]
    intro e he hk
    rcases import_fold_no_calls (curScope fid stk) names g e he with h | h
    · exact h
    · rw [hk] at h
      exact absurd h (by decide)
  | ImportFrom m =>
    cases m with
    | none => rw [visit]; exact fun e he _ => he
    | some mm =>
      rw [visit]
      intro e he hk
      rcases mem_edges_add_edge he with h | h
      · rw [edges_add_node] at h
        exact h
      · rw [h] at hk
        exact absurd hk (by decide : ¬ (("imports" : String) = "calls"))
  | ClassDef name bases body lineno end_lineno =>
    rw [visit]
    rw [noFnDef, Bool.and_eq_true] at hnd
    intro e he hk
    have h3 := visitList_no_calls fid (makeId fid stk "class" name :: stk) _
      body hnd.2 e he hk
    have h2 := visitList_no_calls fid (makeId fid stk "class" name :: stk) _
      bases hnd.1 e h3 hk
    rcases bases_fold_no_calls (makeId fid stk "class" name) bases _ e h2
        with h | h
    · rcases mem_edges_add_edge h with h' | h'
      · rw [edges_add_node] at h'
        exact h'
      · rw [h'] at hk
        exact absurd hk (by decide : ¬ (("has" : String) = "calls"))
    · rw [hk] at h
      exact absurd h (by decide)
  | FunctionDef name body lineno end_lineno =>
    rw [noFnDef] at hnd
    exact absurd hnd (by decide)
  | AsyncFunctionDef name body lineno end_lineno =>
    rw [noFnDef] at hnd
    exact absurd hnd (by decide)
  | Name id => rw [visit]; exact fun e he _ => he
  | Attribute value attr =>
    rw [visit]
    exact visit_no_calls fid stk g value (by rwa [noFnDef] at hnd)
  | Call func args =>
    rw [visit]
    rw [noFnDef, Bool.and_eq_true] at hnd
    intro e he hk
    exact visit_no_calls fid stk g func hnd.1 e
      (visitList_no_calls fid stk _ args hnd.2 e he hk) hk
  | Other children =>
    rw [visit]
    exact visitList_no_calls fid stk g children (by rwa [noFnDef] at hnd)
termination_by 2 * sizeOf a
decreasing_by
  all_goals subst_vars
  all_goals simp_arith
  all_goals omega

theorem visitList_no_calls (fid : Str) (stk : List Str) (g : Graph)
    (as : List Ast) (hnd : noFnDefList as = true) :
    ∀ e ∈ (visitList fid stk g as).edges, e.kind = "calls" → e ∈ g.edges := by
  cases as with
  | nil => rw [visitList]; exact fun e he _ => he
  | cons a rest =>
    rw [visitList]
    rw [noFnDefList, Bool.and_eq_true] at hnd
    intro e he hk
    exact visit_no_calls fid stk g a hnd.1 e
      (visitList_no_calls fid stk _ rest hnd.2 e he hk) hk
termination_by 2 * sizeOf as
decreasing_by
  all_goals subst_vars
  all_goals simp_arith
  all_goals omega

end

/-!
## The scaffolder: only dir-shaped nodes and `has` edges
-/

theorem addDirs_char (rest : List Str) (g : Graph) (seen : List Str)
    (done : List Str) (hok : ∀ s ∈ done ++ rest, ':' ∉ s) :
    (∀ n ∈ (addDirs g seen done rest).1.nodes, n ∈ g.nodes ∨
      (n.kind = "dir" ∧ ∃ t, n.id = "dir:".toList ++ t ∧ ':' ∉ t)) ∧
    (∀ e ∈ (addDirs g seen done rest).1.edges, e ∈ g.edges ∨
      e.kind = "has") := by
  induction rest generalizing g seen done with
  | nil =>
    rw [addDirs]
    exact ⟨fun n hn => Or.inl hn, fun e he => Or.inl he⟩
  | cons p rest' ih =>
    rw [addDirs]
    dsimp only
    have hok1 : ∀ s ∈ done ++ [p], ':' ∉ s := by
      intro s hs
      apply hok
      simp only [List.mem_append, List.mem_singleton, List.mem_cons] at hs ⊢
      tauto
    have hok2 : ∀ s ∈ (done ++ [p]) ++ rest', ':' ∉ s := by
      intro s hs
      apply hok
      simp only [List.mem_append, List.mem_singleton, List.mem_cons] at hs ⊢
      tauto
    have hcol : ':' ∉ joinPath (done ++ [p]) := joinPath_no_colon hok1
    by_cases hmem : ("dir:".toList ++ joinPath (done ++ [p])) ∈ seen
    · rw [if_pos hmem]
      exact ih g seen (done ++ [p]) hok2
    · rw [if_neg hmem]
      have h := ih (if done ≠ [] then
          (g.add_node ("dir:".toList ++ joinPath (done ++ [p])) "dir" p
            "1st" 0).add_edge ("dir:".toList ++ joinPath done)
            ("dir:".toList ++ joinPath (done ++ [p])) "has"
        else g.add_node ("dir:".toList ++ joinPath (done ++ [p])) "dir" p
            "1st" 0)
        (("dir:".toList ++ joinPath (done ++ [p])) :: seen)
        (done ++ [p]) hok2
      refine ⟨fun n hn => ?_, fun e he => ?_⟩
      · rcases h.1 n hn with h' | h'
        · by_cases hd : done ≠ []
          · rw [if_pos hd, nodes_add_edge] at h'
            rcases mem_nodes_add_node h' with h'' | h''
            · exact Or.inl h''
            · exact Or.inr ⟨by rw [h''], joinPath (done ++ [p]),
                by rw [h''], hcol⟩
          · rw [if_neg hd] at h'
            rcases mem_nodes_add_node h' with h'' | h''
            · exact Or.inl h''
            · exact Or.inr ⟨by rw [h''], joinPath (done ++ [p]),
                by rw [h''], hcol⟩
        · exact Or.inr h'
      · rcases h.2 e he with h' | h'
        · by_cases hd : done ≠ []
          · rw [if_pos hd] at h'
            rcases mem_edges_add_edge h' with h'' | h''
            · rw [edges_add_node] at h''
              exact Or.inl h''
            · rw [h'']
              exact Or.inr rfl
          · rw [if_neg hd, edges_add_node] at h'
            exact Or.inl h'
        · exact Or.inr h'

theorem scaffoldFile_char (gs : Graph × List Str) (f : SrcFile)
    (hf : fileOk f = true) :
    (∀ n ∈ (scaffoldFile gs f).1.nodes, n ∈ gs.1.nodes ∨
      (n.kind = "dir" ∧ ∃ t, n.id = "dir:".toList ++ t ∧ ':' ∉ t)) ∧
    (∀ e ∈ (scaffoldFile gs f).1.edges, e ∈ gs.1.edges ∨
      e.kind = "has") := by
  have hok : ∀ s ∈ ([] : List Str) ++ f.dirs, ':' ∉ s := by
    intro s hs
    exact ((fileOk_parts hf).1 s (by simpa using hs)).2.1
  have h1 := addDirs_char f.dirs gs.1 gs.2 [] hok
  unfold scaffoldFile
  dsimp only
  by_cases hd : joinPath f.dirs ≠ []
  · rw [if_pos hd]
    refine ⟨fun n hn => ?_, fun e he => ?_⟩
    · dsimp only at hn
      rw [nodes_add_edge] at hn
      exact h1.1 n hn
    · dsimp only at he
      rcases mem_edges_add_edge he with h | h
      · exact h1.2 e h
      · rw [h]
        exact Or.inr rfl
  · rw [if_neg hd]
    exact h1

theorem scaffold_fold_char (files : List SrcFile) (gs : Graph × List Str)
    (hok : ∀ f ∈ files, fileOk f = true) :
    (∀ n ∈ (files.foldl scaffoldFile gs).1.nodes, n ∈ gs.1.nodes ∨
      (n.kind = "dir" ∧ ∃ t, n.id = "dir:".toList ++ t ∧ ':' ∉ t)) ∧
    (∀ e ∈ (files.foldl scaffoldFile gs).1.edges, e ∈ gs.1.edges ∨
      e.kind = "has") := by
  induction files generalizing gs with
  | nil => exact ⟨fun n hn => Or.inl hn, fun e he => Or.inl he⟩
  | cons f rest ih =>
    rw [List.foldl_cons]
    have h1 := scaffoldFile_char gs f (hok f (by simp))
    have h2 := ih (scaffoldFile gs f) (fun f' hf' => hok f' (by simp [hf']))
    refine ⟨fun n hn => ?_, fun e he => ?_⟩
    · rcases h2.1 n hn with h | h
      · exact h1.1 n h
      · exact Or.inr h
    · rcases h2.2 e he with h | h
      · exact h1.2 e h
      · exact Or.inr h

/-- The scaffolded start graph satisfies both store invariants: it holds
only dir-shaped nodes (never function-shaped ids) and only `has` edges
(never `calls`). -/
theorem scaffold_invariants (files : List SrcFile)
    (hok : ∀ f ∈ files, fileOk f = true) :
    FnKindInv (files.foldl scaffoldFile (Graph.empty, [])).1 ∧
    CallsInv (files.foldl scaffoldFile (Graph.empty, [])).1 := by
  have h := scaffold_fold_char files (Graph.empty, []) hok
  constructor
  · intro n hn hfn
    rcases h.1 n hn with h' | ⟨hk, t, hid, hcol⟩
    · exact absurd h' (by simp [Graph.empty])
    · exact absurd (hid ▸ hfn) (not_FnId_dir hcol)
  · intro e he hk
    rcases h.2 e he with h' | h'
    · exact absurd h' (by simp [Graph.empty])
    · rw [hk] at h'
      exact absurd h' (by decide)

/-- Folding `analyze` over benign files preserves both invariants. -/
theorem analyze_fold_inv (files : List SrcFile) (g : Graph)
    (hok : ∀ f ∈ files, fileOk f = true) (hkind : FnKindInv g)
    (hcalls : CallsInv g) :
    FnKindInv (files.foldl analyze g) ∧ CallsInv (files.foldl analyze g) := by
  induction files generalizing g with
  | nil => exact ⟨hkind, hcalls⟩
  | cons f rest ih =>
    rw [List.foldl_cons]
    have h := analyze_char g f (hok f (by simp)) hkind
    exact ih _ (fun f' hf' => hok f' (by simp [hf'])) h.2.2.1 (h.2.2.2 hcalls)

/-!
## Monotonicity through the pipeline and the `dirs_seen` bookkeeping
-/

theorem analyze_extends (g : Graph) (f : SrcFile) : Extends g (analyze g f) := by
  cases htree : f.tree with
  | none =>
    have h : analyze g f = g := by unfold analyze; rw [htree]
    rw [h]
    exact Extends.refl g
  | some tree =>
    have h : analyze g f = visit f.fileId [f.fileId]
        (g.add_node f.fileId "file" f.base "1st" (fileLoc f.src)) tree := by
      unfold analyze
      rw [htree]
    rw [h]
    exact Extends.trans
      (extends_add_node g f.fileId "file" f.base "1st" (fileLoc f.src))
      (visit_extends f.fileId [f.fileId] _ tree)

theorem analyze_fold_extends (files : List SrcFile) (g : Graph) :
    Extends g (files.foldl analyze g) := by
  induction files generalizing g with
  | nil => exact Extends.refl g
  | cons f rest ih =>
    rw [List.foldl_cons]
    exact Extends.trans (analyze_extends g f) (ih (analyze g f))

theorem addDirs_extends (rest : List Str) (g : Graph) (seen done : List Str) :
    Extends g (addDirs g seen done rest).1 := by
  induction rest generalizing g seen done with
  | nil =>
    rw [addDirs]
    exact Extends.refl g
  | cons p rest' ih =>
    rw [addDirs]
    dsimp only
    by_cases hmem : ("dir:".toList ++ joinPath (done ++ [p])) ∈ seen
    · rw [if_pos hmem]
      exact ih g seen (done ++ [p])
    · rw [if_neg hmem]
      refine Extends.trans ?_ (ih _ _ _)
      by_cases hd : done ≠ []
      · rw [if_pos hd]
        exact Extends.trans (extends_add_node g _ "dir" p "1st" 0)
          (extends_add_edge _ _ _ "has")
      · rw [if_neg hd]
        exact extends_add_node g _ "dir" p "1st" 0

theorem addDirs_seen_sub (rest : List Str) (g : Graph) (seen done : List Str) :
    ∀ d ∈ seen, d ∈ (addDirs g seen done rest).2 := by
  induction rest generalizing g seen done with
  | nil =>
    rw [addDirs]
    exact fun d hd => hd
  | cons p rest' ih =>
    rw [addDirs]
    dsimp only
    by_cases hmem : ("dir:".toList ++ joinPath (done ++ [p])) ∈ seen
    · rw [if_pos hmem]
      exact ih g seen (done ++ [p])
    · rw [if_neg hmem]
      intro d hd
      exact ih _ _ _ d (List.mem_cons_of_mem _ hd)

theorem addDirs_seen_prefix (rest : List Str) (g : Graph)
    (seen done : List Str) : ∀ i < rest.length,
    ("dir:".toList ++ joinPath (done ++ rest.take (i + 1)))
      ∈ (addDirs g seen done rest).2 := by
  induction rest generalizing g seen done with
  | nil =>
    intro i hi
    exact absurd hi (by simp)
  | cons p rest' ih =>
    intro i hi
    rw [addDirs]
    dsimp only
    cases i with
    | zero =>
      by_cases hmem : ("dir:".toList ++ joinPath (done ++ [p])) ∈ seen
      · rw [if_pos hmem]
        simp only [List.take_succ_cons, List.take_zero]
        exact addDirs_seen_sub rest' _ _ (done ++ [p]) _ hmem
      · rw [if_neg hmem]
        simp only [List.take_succ_cons, List.take_zero]
        exact addDirs_seen_sub rest' _ _ (done ++ [p]) _
          (List.mem_cons_self _ _)
    | succ j =>
      have harr : done ++ (p :: rest').take (j + 1 + 1) =
          (done ++ [p]) ++ rest'.take (j + 1) := by
        simp [List.take_succ_cons]
      rw [harr]
      have hj : j < rest'.length := by
        simp only [List.length_cons] at hi
        omega
      by_cases hmem : ("dir:".toList ++ joinPath (done ++ [p])) ∈ seen
      · rw [if_pos hmem]
        exact ih g seen (done ++ [p]) j hj
      · rw [if_neg hmem]
        exact ih _ _ (done ++ [p]) j hj

theorem scaffoldFile_seen (gs : Graph × List Str) (f : SrcFile) :
    (scaffoldFile gs f).2 = (addDirs gs.1 gs.2 [] f.dirs).2 := by
  unfold scaffoldFile
  dsimp only
  by_cases hd : joinPath f.dirs ≠ []
  · rw [if_pos hd]
  · rw [if_neg hd]

theorem scaffoldFile_extends (gs : Graph × List Str) (f : SrcFile) :
    Extends gs.1 (scaffoldFile gs f).1 := by
  unfold scaffoldFile
  dsimp only
  by_cases hd : joinPath f.dirs ≠ []
  · rw [if_pos hd]
    exact Extends.trans (addDirs_extends f.dirs gs.1 gs.2 [])
      (extends_add_edge _ _ _ "has")
  · rw [if_neg hd]
    exact addDirs_extends f.dirs gs.1 gs.2 []

theorem scaffold_fold_extends (files : List SrcFile) (gs : Graph × List Str) :
    Extends gs.1 (files.foldl scaffoldFile gs).1 := by
  induction files generalizing gs with
  | nil => exact Extends.refl gs.1
  | cons f rest ih =>
    rw [List.foldl_cons]
    exact Extends.trans (scaffoldFile_extends gs f) (ih (scaffoldFile gs f))

theorem scaffold_fold_seen_sub (files : List SrcFile)
    (gs : Graph × List Str) :
    ∀ d ∈ gs.2, d ∈ (files.foldl scaffoldFile gs).2 := by
  induction files generalizing gs with
  | nil => exact fun d hd => hd
  | cons f rest ih =>
    rw [List.foldl_cons]
    intro d hd
    refine ih (scaffoldFile gs f) d ?_
    rw [scaffoldFile_seen]
    exact addDirs_seen_sub f.dirs gs.1 gs.2 [] d hd

theorem getNode_isSome_ex {g : Graph} {id : Str}
    (h : (g.getNode id).isSome = true) : ∃ n ∈ g.nodes, n.id = id := by
  unfold Graph.getNode at h
  rw [Option.isSome_iff_exists] at h
  obtain ⟨n, hn⟩ := h
  have hp := List.find?_some hn
  exact ⟨n, List.mem_of_find?_eq_some hn, eq_of_beq hp⟩

theorem add_node_mem_id (g : Graph) (id : Str) (k : String) (l : Str)
    (p : String) (s : Nat) :
    ∃ n ∈ (g.add_node id k l p s).nodes, n.id = id := by
  unfold Graph.add_node
  by_cases h : (g.getNode id).isSome = true
  · rw [if_pos h]
    exact getNode_isSome_ex h
  · rw [if_neg h]
    exact ⟨⟨id, k, l, p, s⟩,
      List.mem_append_right _ (List.mem_singleton_self _), rfl⟩

/-- The invariant tying `dirs_seen` to the store: every seen id names a
stored `dir` node, and every well-formed multi-segment decomposition of a
seen id has its parent chain edge in the store; moreover (tracked
alongside) every stored node's id is seen, so a fresh id never collides
with a stored node. -/
def SeenInv (g : Graph) (seen : List Str) : Prop :=
  ∀ d ∈ seen,
    (∃ n ∈ g.nodes, n.id = d ∧ n.kind = "dir") ∧
    (∀ parts q, (∀ s ∈ parts ++ [q], okSeg s = true) → parts ≠ [] →
      d = "dir:".toList ++ joinPath (parts ++ [q]) →
      (⟨"dir:".toList ++ joinPath parts, d, "has"⟩ : Edge) ∈ g.edges)

theorem addDirs_SeenInv (rest : List Str) (g : Graph) (seen done : List Str)
    (hok : ∀ s ∈ done ++ rest, okSeg s = true)
    (hinv : SeenInv g seen) (hcomp : ∀ n ∈ g.nodes, n.id ∈ seen) :
    SeenInv (addDirs g seen done rest).1 (addDirs g seen done rest).2 ∧
    (∀ n ∈ (addDirs g seen done rest).1.nodes,
      n.id ∈ (addDirs g seen done rest).2) := by
  induction rest generalizing g seen done with
  | nil =>
    rw [addDirs]
    exact ⟨hinv, hcomp⟩
  | cons p rest' ih =>
    rw [addDirs]
    dsimp only
    have hok1 : ∀ s ∈ done ++ [p], okSeg s = true := by
      intro s hs
      apply hok
      simp only [List.mem_append, List.mem_singleton, List.mem_cons] at hs ⊢
      tauto
    have hok2 : ∀ s ∈ (done ++ [p]) ++ rest', okSeg s = true := by
      intro s hs
      apply hok
      simp only [List.mem_append, List.mem_singleton, List.mem_cons] at hs ⊢
      tauto
    by_cases hmem : ("dir:".toList ++ joinPath (done ++ [p])) ∈ seen
    · rw [if_pos hmem]
      exact ih g seen (done ++ [p]) hok2 hinv hcomp
    · rw [if_neg hmem]
      have hnone : ¬ (g.getNode
          ("dir:".toList ++ joinPath (done ++ [p]))).isSome = true := by
        intro hs
        obtain ⟨n, hn, hid⟩ := getNode_isSome_ex hs
        exact hmem (hid ▸ hcomp n hn)
      have hnodesG1 : (g.add_node ("dir:".toList ++ joinPath (done ++ [p]))
          "dir" p "1st" 0).nodes = g.nodes ++
          [⟨"dir:".toList ++ joinPath (done ++ [p]), "dir", p, "1st", 0⟩] := by
        unfold Graph.add_node
        rw [if_neg hnone]
      by_cases hdn : done ≠ []
      · rw [if_pos hdn]
        refine ih _ _ (done ++ [p]) hok2 ?_ ?_
        · intro d hd
          rcases List.mem_cons.mp hd with hde | hdm
          · subst hde
            constructor
            · refine ⟨⟨"dir:".toList ++ joinPath (done ++ [p]), "dir", p,
                "1st", 0⟩, ?_, rfl, rfl⟩
              rw [nodes_add_edge, hnodesG1]
              exact List.mem_append_right _ (List.mem_singleton_self _)
            · intro parts q hokd hne hdec
              have hjp : joinPath (done ++ [p]) = joinPath (parts ++ [q]) :=
                List.append_cancel_left hdec
              have hlists : done ++ [p] = parts ++ [q] :=
                joinPath_inj _ _
                  (fun s hs => ⟨(okSeg_iff.mp (hok1 s hs)).1,
                    (okSeg_iff.mp (hok1 s hs)).2.2⟩)
                  (fun s hs => ⟨(okSeg_iff.mp (hokd s hs)).1,
                    (okSeg_iff.mp (hokd s hs)).2.2⟩) hjp
              have hparts : parts = done := by
                have h1 := congrArg List.dropLast hlists
                simpa [List.dropLast_concat] using h1.symm
              rw [hparts]
              exact List.mem_append_right _ (List.mem_singleton_self _)
          · obtain ⟨⟨n, hn, hid, hk⟩, hch⟩ := hinv d hdm
            have hext : Extends g ((g.add_node
                ("dir:".toList ++ joinPath (done ++ [p])) "dir" p "1st"
                  0).add_edge ("dir:".toList ++ joinPath done)
                ("dir:".toList ++ joinPath (done ++ [p])) "has") :=
              Extends.trans (extends_add_node g _ "dir" p "1st" 0)
                (extends_add_edge _ _ _ "has")
            exact ⟨⟨n, mem_nodes_mono hext hn, hid, hk⟩,
              fun parts q hokd hne hdec =>
                mem_edges_mono hext (hch parts q hokd hne hdec)⟩
        · intro n hn
          rw [nodes_add_edge, hnodesG1] at hn
          rcases List.mem_append.mp hn with h' | h'
          · exact List.mem_cons_of_mem _ (hcomp n h')
          · rw [List.mem_singleton.mp h']
            exact List.mem_cons_self _ _
      · rw [if_neg hdn]
        refine ih _ _ (done ++ [p]) hok2 ?_ ?_
        · intro d hd
          rcases List.mem_cons.mp hd with hde | hdm
          · subst hde
            constructor
            · refine ⟨⟨"dir:".toList ++ joinPath (done ++ [p]), "dir", p,
                "1st", 0⟩, ?_, rfl, rfl⟩
              rw [hnodesG1]
              exact List.mem_append_right _ (List.mem_singleton_self _)
            · intro parts q hokd hne hdec
              have hjp : joinPath (done ++ [p]) = joinPath (parts ++ [q]) :=
                List.append_cancel_left hdec
              have hlists : done ++ [p] = parts ++ [q] :=
                joinPath_inj _ _
                  (fun s hs => ⟨(okSeg_iff.mp (hok1 s hs)).1,
                    (okSeg_iff.mp (hok1 s hs)).2.2⟩)
                  (fun s hs => ⟨(okSeg_iff.mp (hokd s hs)).1,
                    (okSeg_iff.mp (hokd s hs)).2.2⟩) hjp
              have hparts : parts = done := by
                have h1 := congrArg List.dropLast hlists
                simpa [List.dropLast_concat] using h1.symm
              rw [not_not] at hdn
              rw [hdn] at hparts
              exact absurd hparts hne
          · obtain ⟨⟨n, hn, hid, hk⟩, hch⟩ := hinv d hdm
            have hext : Extends g (g.add_node
                ("dir:".toList ++ joinPath (done ++ [p])) "dir" p "1st" 0) :=
              extends_add_node g _ "dir" p "1st" 0
            exact ⟨⟨n, mem_nodes_mono hext hn, hid, hk⟩,
              fun parts q hokd hne hdec =>
                mem_edges_mono hext (hch parts q hokd hne hdec)⟩
        · intro n hn
          rw [hnodesG1] at hn
          rcases List.mem_append.mp hn with h' | h'
          · exact List.mem_cons_of_mem _ (hcomp n h')
          · rw [List.mem_singleton.mp h']
            exact List.mem_cons_self _ _

theorem scaffoldFile_SeenInv (gs : Graph × List Str) (f : SrcFile)
    (hf : fileOk f = true) (hinv : SeenInv gs.1 gs.2)
    (hcomp : ∀ n ∈ gs.1.nodes, n.id ∈ gs.2) :
    SeenInv (scaffoldFile gs f).1 (scaffoldFile gs f).2 ∧
    (∀ n ∈ (scaffoldFile gs f).1.nodes, n.id ∈ (scaffoldFile gs f).2) := by
  have hok : ∀ s ∈ ([] : List Str) ++ f.dirs, okSeg s = true := by
    intro s hs
    exact okSeg_iff.mpr ((fileOk_parts hf).1 s (by simpa using hs))
  have h := addDirs_SeenInv f.dirs gs.1 gs.2 [] hok hinv hcomp
  unfold scaffoldFile
  dsimp only
  by_cases hd : joinPath f.dirs ≠ []
  · rw [if_pos hd]
    refine ⟨?_, ?_⟩
    · intro d hdm
      obtain ⟨⟨n, hn, hid, hk⟩, hch⟩ := h.1 d hdm
      exact ⟨⟨n, by rw [nodes_add_edge]; exact hn, hid, hk⟩,
        fun parts q hokd hne hdec =>
          mem_edges_mono (extends_add_edge _ _ _ "has")
            (hch parts q hokd hne hdec)⟩
    · intro n hn
      rw [nodes_add_edge] at hn
      exact h.2 n hn
  · rw [if_neg hd]
    exact h

theorem scaffold_fold_SeenInv (files : List SrcFile) (gs : Graph × List Str)
    (hok : ∀ f ∈ files, fileOk f = true) (hinv : SeenInv gs.1 gs.2)
    (hcomp : ∀ n ∈ gs.1.nodes, n.id ∈ gs.2) :
    SeenInv (files.foldl scaffoldFile gs).1 (files.foldl scaffoldFile gs).2 ∧
    (∀ n ∈ (files.foldl scaffoldFile gs).1.nodes,
      n.id ∈ (files.foldl scaffoldFile gs).2) := by
  induction files generalizing gs with
  | nil => exact ⟨hinv, hcomp⟩
  | cons f rest ih =>
    rw [List.foldl_cons]
    have h := scaffoldFile_SeenInv gs f (hok f (by simp)) hinv hcomp
    exact ih (scaffoldFile gs f) (fun f' hf' => hok f' (by simp [hf'])) h.1 h.2

/-!
## What the finished store can contain
-/

theorem addDirs_edge_dst (rest : List Str) (g : Graph)
    (seen done : List Str) :
    ∀ e ∈ (addDirs g seen done rest).1.edges, e ∈ g.edges ∨
      (e.kind = "has" ∧ ∃ t, e.dst = "dir:".toList ++ t) := by
  induction rest generalizing g seen done with
  | nil =>
    rw [addDirs]
    exact fun e he => Or.inl he
  | cons p rest' ih =>
    rw [addDirs]
    dsimp only
    by_cases hmem : ("dir:".toList ++ joinPath (done ++ [p])) ∈ seen
    · rw [if_pos hmem]
      exact ih g seen (done ++ [p])
    · rw [if_neg hmem]
      intro e he
      rcases ih _ _ (done ++ [p]) e he with h | h
      · by_cases hd : done ≠ []
        · rw [if_pos hd] at h
          rcases mem_edges_add_edge h with h' | h'
          · rw [edges_add_node] at h'
            exact Or.inl h'
          · rw [h']
            exact Or.inr ⟨rfl, joinPath (done ++ [p]), rfl⟩
        · rw [if_neg hd, edges_add_node] at h
          exact Or.inl h
      · exact Or.inr h

theorem scaffoldFile_edge_dst (gs : Graph × List Str) (f : SrcFile) :
    ∀ e ∈ (scaffoldFile gs f).1.edges, e ∈ gs.1.edges ∨
      (e.kind = "has" ∧ ((∃ t, e.dst = "dir:".toList ++ t) ∨
        (joinPath f.dirs ≠ [] ∧ e.dst = f.fileId))) := by
  unfold scaffoldFile
  dsimp only
  by_cases hd : joinPath f.dirs ≠ []
  · rw [if_pos hd]
    intro e he
    dsimp only at he
    rcases mem_edges_add_edge he with h | h
    · rcases addDirs_edge_dst f.dirs gs.1 gs.2 [] e h with h' | ⟨hk, t, ht⟩
      · exact Or.inl h'
      · exact Or.inr ⟨hk, Or.inl ⟨t, ht⟩⟩
    · rw [h]
      exact Or.inr ⟨rfl, Or.inr ⟨hd, rfl⟩⟩
  · rw [if_neg hd]
    intro e he
    rcases addDirs_edge_dst f.dirs gs.1 gs.2 [] e he with h' | ⟨hk, t, ht⟩
    · exact Or.inl h'
    · exact Or.inr ⟨hk, Or.inl ⟨t, ht⟩⟩

theorem scaffold_fold_edge_dst (files : List SrcFile)
    (gs : Graph × List Str) :
    ∀ e ∈ (files.foldl scaffoldFile gs).1.edges, e ∈ gs.1.edges ∨
      (e.kind = "has" ∧ ((∃ t, e.dst = "dir:".toList ++ t) ∨
        (∃ f' ∈ files, joinPath f'.dirs ≠ [] ∧ e.dst = f'.fileId))) := by
  induction files generalizing gs with
  | nil => exact fun e he => Or.inl he
  | cons f rest ih =>
    rw [List.foldl_cons]
    intro e he
    rcases ih (scaffoldFile gs f) e he with h | ⟨hk, hd⟩
    · rcases scaffoldFile_edge_dst gs f e h with h' | ⟨hk, hd⟩
      · exact Or.inl h'
      · rcases hd with hd | ⟨hjp, hdst⟩
        · exact Or.inr ⟨hk, Or.inl hd⟩
        · exact Or.inr ⟨hk, Or.inr ⟨f, by simp, hjp, hdst⟩⟩
    · rcases hd with hd | ⟨f', hf', hjp, hdst⟩
      · exact Or.inr ⟨hk, Or.inl hd⟩
      · exact Or.inr ⟨hk, Or.inr ⟨f', by simp [hf'], hjp, hdst⟩⟩

theorem analyze_fold_node_char (files : List SrcFile) (g : Graph)
    (hok : ∀ f ∈ files, fileOk f = true) (hkind : FnKindInv g) :
    ∀ n ∈ (files.foldl analyze g).nodes, n ∈ g.nodes ∨
      (∃ f' ∈ files, f'.tree.isSome = true ∧ n.id = f'.fileId ∧
        n.kind = "file") ∨ NewNode n := by
  induction files generalizing g with
  | nil => exact fun n hn => Or.inl hn
  | cons f rest ih =>
    rw [List.foldl_cons]
    intro n hn
    have hchar := analyze_char g f (hok f (by simp)) hkind
    rcases ih (analyze g f) (fun f' hf' => hok f' (by simp [hf']))
        hchar.2.2.1 n hn with h | h | h
    · rcases hchar.1 n h with h' | h' | h'
      · exact Or.inl h'
      · exact Or.inr (Or.inl ⟨f, by simp, h'⟩)
      · exact Or.inr (Or.inr h')
    · obtain ⟨f', hf', hrest⟩ := h
      exact Or.inr (Or.inl ⟨f', by simp [hf'], hrest⟩)
    · exact Or.inr (Or.inr h)

theorem analyze_fold_edge_char (files : List SrcFile) (g : Graph)
    (hok : ∀ f ∈ files, fileOk f = true) (hkind : FnKindInv g) :
    ∀ e ∈ (files.foldl analyze g).edges, e ∈ g.edges ∨
      NewEdge (files.foldl analyze g).nodes e := by
  induction files generalizing g with
  | nil => exact fun e he => Or.inl he
  | cons f rest ih =>
    rw [List.foldl_cons]
    intro e he
    have hchar := analyze_char g f (hok f (by simp)) hkind
    rcases ih (analyze g f) (fun f' hf' => hok f' (by simp [hf']))
        hchar.2.2.1 e he with h | h
    · rcases hchar.2.1 e h with h' | h'
      · exact Or.inl h'
      · exact Or.inr (NewEdge_mono (analyze_fold_extends rest (analyze g f)) h')
    · exact Or.inr h

/-- Shape characterization of the finished store: every node is a
scaffolded directory node, the file node of a parsed source file, or one
of the shapes `visit` creates; every edge is a scaffold `has` edge (into
a directory, or from a directory to a discovered file in a subdirectory)
or one of the shapes `visit` appends. -/
theorem build_graph_char (files : List SrcFile)
    (hok : ∀ f ∈ files, fileOk f = true) :
    (∀ n ∈ (build_graph files).nodes,
      (n.kind = "dir" ∧ ∃ t, n.id = "dir:".toList ++ t ∧ ':' ∉ t) ∨
      (∃ f' ∈ files, f'.tree.isSome = true ∧ n.id = f'.fileId ∧
        n.kind = "file") ∨ NewNode n) ∧
    (∀ e ∈ (build_graph files).edges,
      (e.kind = "has" ∧ ((∃ t, e.dst = "dir:".toList ++ t) ∨
        (∃ f' ∈ files, joinPath f'.dirs ≠ [] ∧ e.dst = f'.fileId))) ∨
      NewEdge (build_graph files).nodes e) := by
  have hs := scaffold_invariants files hok
  have hsn := scaffold_fold_char files (Graph.empty, []) hok
  have hse := scaffold_fold_edge_dst files (Graph.empty, [])
  constructor
  · intro n hn
    rcases analyze_fold_node_char files _ hok hs.1 n hn with h | h | h
    · rcases hsn.1 n h with h' | h'
      · exact absurd h' (by simp [Graph.empty])
      · exact Or.inl h'
    · exact Or.inr (Or.inl h)
    · exact Or.inr (Or.inr h)
  · intro e he
    rcases analyze_fold_edge_char files _ hok hs.1 e he with h | h
    · rcases hse e h with h' | h'
      · exact absurd h' (by simp [Graph.empty])
      · exact Or.inl h'
    · exact Or.inr h

theorem joinPath_ne_nil_of_ok {l : List Str} (hne : l ≠ [])
    (hok : ∀ s ∈ l, s ≠ []) : joinPath l ≠ [] := by
  cases l with
  | nil => exact absurd rfl hne
  | cons a rest =>
    cases rest with
    | nil =>
      rw [joinPath]
      exact hok a (by simp)
    | cons b r => exact joinPath_cons_cons_ne_nil a b r

/-- What the scaffolder guarantees in the finished store for a discovered
file: a `dir` node for every nonempty prefix of its directory path, the
parent→child chain edge between consecutive prefixes, and (for a file in
a subdirectory) the dir→file `has` edge. -/
theorem build_graph_scaffold_facts (files : List SrcFile) (f : SrcFile)
    (hok : ∀ f' ∈ files, fileOk f' = true) (hf : f ∈ files) :
    (∀ i < f.dirs.length,
      ∃ n ∈ (build_graph files).nodes,
        n.id = "dir:".toList ++ joinPath (f.dirs.take (i + 1)) ∧
        n.kind = "dir") ∧
    (∀ i, i + 1 < f.dirs.length →
      (⟨"dir:".toList ++ joinPath (f.dirs.take (i + 1)),
        "dir:".toList ++ joinPath (f.dirs.take (i + 2)), "has"⟩ : Edge)
        ∈ (build_graph files).edges) ∧
    (f.dirs ≠ [] →
      (⟨"dir:".toList ++ joinPath f.dirs, f.fileId, "has"⟩ : Edge)
        ∈ (build_graph files).edges) := by
  obtain ⟨l1, l2, hsplit⟩ := List.append_of_mem hf
  have hok1 : ∀ f' ∈ l1, fileOk f' = true := by
    intro f' hf'
    apply hok
    rw [hsplit]
    exact List.mem_append_left _ hf'
  have hok2 : ∀ f' ∈ l2, fileOk f' = true := by
    intro f' hf'
    apply hok
    rw [hsplit]
    exact List.mem_append_right _ (List.mem_cons_of_mem _ hf')
  have hfoldeq : files.foldl scaffoldFile (Graph.empty, []) =
      l2.foldl scaffoldFile (scaffoldFile
        (l1.foldl scaffoldFile (Graph.empty, [])) f) := by
    rw [hsplit, List.foldl_append, List.foldl_cons]
  have hinv0 : SeenInv Graph.empty [] := fun d hd => absurd hd (by simp)
  have hcomp0 : ∀ n ∈ (Graph.empty).nodes, n.id ∈ ([] : List Str) := by
    intro n hn
    exact absurd hn (by simp [Graph.empty])
  have hinv1 := scaffold_fold_SeenInv l1 (Graph.empty, []) hok1 hinv0 hcomp0
  have hinv2 := scaffoldFile_SeenInv _ f (hok f hf) hinv1.1 hinv1.2
  have hinvF := scaffold_fold_SeenInv l2 _ hok2 hinv2.1 hinv2.2
  have hseenF : ∀ i < f.dirs.length,
      ("dir:".toList ++ joinPath (f.dirs.take (i + 1)))
        ∈ (l2.foldl scaffoldFile (scaffoldFile
          (l1.foldl scaffoldFile (Graph.empty, [])) f)).2 := by
    intro i hi
    apply scaffold_fold_seen_sub
    rw [scaffoldFile_seen]
    have h := addDirs_seen_prefix f.dirs
      (l1.foldl scaffoldFile (Graph.empty, [])).1
      (l1.foldl scaffoldFile (Graph.empty, [])).2 [] i hi
    simpa using h
  have hext : Extends (l2.foldl scaffoldFile (scaffoldFile
      (l1.foldl scaffoldFile (Graph.empty, [])) f)).1 (build_graph files) := by
    unfold build_graph
    rw [hfoldeq]
    exact analyze_fold_extends files _
  refine ⟨?_, ?_, ?_⟩
  · intro i hi
    obtain ⟨⟨n, hn, hid, hk⟩, -⟩ := hinvF.1 _ (hseenF i hi)
    exact ⟨n, mem_nodes_mono hext hn, hid, hk⟩
  · intro i hi
    obtain ⟨-, hch⟩ := hinvF.1 _ (hseenF (i + 1) (by omega))
    have htake : f.dirs.take (i + 2) =
        f.dirs.take (i + 1) ++ [f.dirs[i + 1]] := by
      rw [List.take_succ]
      congr 1
      rw [List.getElem?_eq_getElem (by omega)]
      rfl
    have hokd : ∀ s ∈ f.dirs.take (i + 1) ++ [f.dirs[i + 1]],
        okSeg s = true := by
      intro s hs
      rw [← htake] at hs
      exact okSeg_iff.mpr ((fileOk_parts (hok f hf)).1 s
        (List.mem_of_mem_take hs))
    have hne : f.dirs.take (i + 1) ≠ [] := by
      intro hnil
      rw [List.take_eq_nil_iff] at hnil
      rcases hnil with h | h
      · omega
      · rw [h] at hi
        simp at hi
    have hedge := hch (f.dirs.take (i + 1)) (f.dirs[i + 1]) hokd hne
      (by rw [← htake])
    exact mem_edges_mono hext hedge
  · intro hdne
    have hokdirs : ∀ s ∈ f.dirs, s ≠ [] :=
      fun s hs => ((fileOk_parts (hok f hf)).1 s hs).1
    have hjp : joinPath f.dirs ≠ [] := joinPath_ne_nil_of_ok hdne hokdirs
    have hmem2 : (⟨"dir:".toList ++ joinPath f.dirs, f.fileId, "has"⟩ : Edge)
        ∈ (scaffoldFile (l1.foldl scaffoldFile (Graph.empty, []))
          f).1.edges := by
      unfold scaffoldFile
      dsimp only
      rw [if_pos hjp]
      exact List.mem_append_right _ (List.mem_singleton_self _)
    exact mem_edges_mono hext (mem_edges_mono (scaffold_fold_extends l2
      (scaffoldFile (l1.foldl scaffoldFile (Graph.empty, [])) f)) hmem2)

theorem fileId_count {f : SrcFile} (hf : fileOk f = true) :
    (f.fileId).count ':' = 1 := by
  unfold SrcFile.fileId
  rw [count_flat _ _ (rel_no_colon hf)]
  rfl

theorem slash_mem_rel {f : SrcFile} (hd : f.dirs ≠ []) : '/' ∈ f.rel := by
  unfold SrcFile.rel
  cases hds : f.dirs with
  | nil => exact absurd hds hd
  | cons a l =>
    cases hlb : l ++ [f.base] with
    | nil => exact absurd hlb (by simp)
    | cons b r =>
      rw [List.cons_append, hlb]
      exact slash_mem_joinPath a b r

theorem root_rel {f : SrcFile} (hd : f.dirs = []) : f.rel = f.base := by
  unfold SrcFile.rel
  rw [hd]
  rfl

theorem fileId_inj {f f' : SrcFile} (h : f'.fileId = f.fileId) :
    f'.rel = f.rel := by
  unfold SrcFile.fileId at h
  exact List.append_cancel_left h

/-- Any stored node carrying a discovered file's id is a `file` node, and
when the file lies in a subdirectory such a node can only have come from
a parsed source file with that very id (imports only mint slash-free
ids). -/
theorem build_graph_fileId_cases (files : List SrcFile) (f : SrcFile)
    (hok : ∀ f' ∈ files, fileOk f' = true) (hf : f ∈ files) (n : Node)
    (hn : n ∈ (build_graph files).nodes) (hid : n.id = f.fileId) :
    n.kind = "file" ∧
    (f.dirs ≠ [] → ∃ f' ∈ files, f'.tree.isSome = true ∧
      f'.fileId = f.fileId) := by
  have hcount : (f.fileId).count ':' = 1 := fileId_count (hok f hf)
  rcases (build_graph_char files hok).1 n hn with ⟨hk, t, hidd, hcol⟩ | h | h
  · rw [hid] at hidd
    unfold SrcFile.fileId at hidd
    have h4 : "dir:".toList = ['d', 'i', 'r', ':'] := rfl
    have h5 : "file:".toList = ['f', 'i', 'l', 'e', ':'] := rfl
    rw [h4, h5] at hidd
    simp at hidd
  · obtain ⟨f', hf', hsome, hidf, hk⟩ := h
    refine ⟨hk, fun _ => ⟨f', hf', hsome, ?_⟩⟩
    rw [← hidf, hid]
  · rcases h with ⟨m, hidd, hcm, hsm, hk⟩ | ⟨p, nm, hidd, hp, hnm, hk⟩
      | ⟨p, nm, hidd, hnm, hk⟩ | ⟨nm, hidd, hnm, hsm, hk⟩
      | ⟨nm, hidd, hnm, hsm, hk⟩
    · refine ⟨hk, fun hdne => ?_⟩
      rw [hid] at hidd
      unfold SrcFile.fileId at hidd
      have hm : f.rel = m := List.append_cancel_left hidd
      have hsl := slash_mem_rel hdne
      rw [hm] at hsl
      exact absurd hsl hsm
    · rw [hid] at hidd
      rw [hidd, count_scoped _ _ _ hnm] at hcount
      have h2 : ("::class:".toList).count ':' = 3 := rfl
      omega
    · rw [hid] at hidd
      rw [hidd, count_scoped _ _ _ hnm] at hcount
      have h2 : ("::function:".toList).count ':' = 3 := rfl
      omega
    · rw [hid] at hidd
      unfold SrcFile.fileId at hidd
      have h4 : "class:".toList = ['c', 'l', 'a', 's', 's', ':'] := rfl
      have h5 : "file:".toList = ['f', 'i', 'l', 'e', ':'] := rfl
      rw [h4, h5] at hidd
      simp at hidd
    · rw [hid] at hidd
      unfold SrcFile.fileId at hidd
      have h4 : "function:".toList
          = ['f', 'u', 'n', 'c', 't', 'i', 'o', 'n', ':'] := rfl
      have h5 : "file:".toList = ['f', 'i', 'l', 'e', ':'] := rfl
      rw [h4, h5] at hidd
      simp at hidd

/-- A parsed discovered file's node is present in the finished store. -/
theorem build_graph_file_node (files : List SrcFile) (f : SrcFile)
    (hok : ∀ f' ∈ files, fileOk f' = true) (hf : f ∈ files)
    (htree : f.tree.isSome = true) :
    ∃ n ∈ (build_graph files).nodes, n.id = f.fileId ∧ n.kind = "file" := by
  obtain ⟨l1, l2, hsplit⟩ := List.append_of_mem hf
  obtain ⟨tree, htr⟩ := Option.isSome_iff_exists.mp htree
  have hfold : ∀ g : Graph, files.foldl analyze g =
      l2.foldl analyze (analyze (l1.foldl analyze g) f) := by
    intro g
    rw [hsplit, List.foldl_append, List.foldl_cons]
  have heq : analyze (l1.foldl analyze
      (files.foldl scaffoldFile (Graph.empty, [])).1) f
      = visit f.fileId [f.fileId]
        ((l1.foldl analyze (files.foldl scaffoldFile
          (Graph.empty, [])).1).add_node f.fileId "file" f.base "1st"
          (fileLoc f.src)) tree := by
    unfold analyze
    rw [htr]
  obtain ⟨n, hn, hid⟩ := add_node_mem_id (l1.foldl analyze
    (files.foldl scaffoldFile (Graph.empty, [])).1) f.fileId "file" f.base
    "1st" (fileLoc f.src)
  have hn2 : n ∈ (analyze (l1.foldl analyze
      (files.foldl scaffoldFile (Graph.empty, [])).1) f).nodes := by
    rw [heq]
    exact mem_nodes_mono (visit_extends f.fileId [f.fileId] _ tree) hn
  have hnfin : n ∈ (build_graph files).nodes := by
    unfold build_graph
    rw [hfold]
    exact mem_nodes_mono (analyze_fold_extends l2 _) hn2
  exact ⟨n, hnfin,
    hid, (build_graph_fileId_cases files f hok hf n hnfin hid).1⟩

/-- A discovered file located directly at the root never becomes the
target of a containment (`has`) edge. -/
theorem root_file_no_has_edge (files : List SrcFile) (f : SrcFile)
    (hok : ∀ f' ∈ files, fileOk f' = true) (hf : f ∈ files)
    (hroot : f.dirs = []) :
    ∀ e ∈ (build_graph files).edges, e.kind = "has" → e.dst ≠ f.fileId := by
  intro e he hk hdst
  have hbase := (fileOk_parts (hok f hf)).2.1
  have hrel : f.rel = f.base := root_rel hroot
  rcases (build_graph_char files hok).2 e he with ⟨-, hd⟩ | hne
  · rcases hd with ⟨t, ht⟩ | ⟨f', hf', hjp, hfid⟩
    · rw [hdst] at ht
      unfold SrcFile.fileId at ht
      have h4 : "dir:".toList = ['d', 'i', 'r', ':'] := rfl
      have h5 : "file:".toList = ['f', 'i', 'l', 'e', ':'] := rfl
      rw [h4, h5] at ht
      simp at ht
    · rw [hdst] at hfid
      have hrels : f'.rel = f.rel := fileId_inj hfid.symm
      have hdne : f'.dirs ≠ [] := by
        intro hnil
        rw [hnil] at hjp
        exact hjp rfl
      have hsl := slash_mem_rel hdne
      rw [hrels, hrel] at hsl
      exact hbase.2.2 hsl
  · rcases hne with h1 | h1 | ⟨h1, p, r, hds⟩ | ⟨h1, -⟩
    · rw [hk] at h1
      exact absurd h1 (by decide)
    · rw [hk] at h1
      exact absurd h1 (by decide)
    · rw [hdst] at hds
      have hcount : (f.fileId).count ':' = 1 := fileId_count (hok f hf)
      rw [hds, List.count_append] at hcount
      have h2 : (':' :: ':' :: r).count ':' = r.count ':' + 2 := by
        simp [List.count_cons]
      omega
    · rw [hk] at h1
      exact absurd h1 (by decide)

/-!
## The operation trace of a run

`Graph.add_node` and `Graph.add_edge` are the only two mutations the
program ever performs on the store.  To reason about the store *at the
moment* an operation runs — not merely about the finished store — each
pipeline function is shadowed by a trace-instrumented variant (suffix
`T`) that computes the same store and additionally returns the ordered
list of primitive operations it performs.  Adequacy theorems prove the
shadow computes exactly the base function's store and that replaying its
trace from the entry store reproduces that result, so the trace is the
run's own operation sequence.
-/

/-- A primitive store mutation. -/
inductive Op
  | addNode (id : Str) (kind : String) (label : Str) (party : String)
      (loc : Nat)
  | addEdge (src dst : Str) (kind : String)

/-- Replay one primitive operation on a store. -/
def applyOp (g : Graph) : Op → Graph
  | .addNode id k l p s => g.add_node id k l p s
  | .addEdge s d k => g.add_edge s d k

/-- Replay a trace of operations in order. -/
def applyOps (g : Graph) (ops : List Op) : Graph := ops.foldl applyOp g

/-- The at-the-moment condition on one operation: an edge append of kind
`calls` requires the store *as it is right now, before the append* to
hold a `function`-kind node whose id is the edge's src.  Node inserts and
other edge appends are unconstrained. -/
def opOk (g : Graph) : Op → Prop
  | .addNode _ _ _ _ _ => True
  | .addEdge src _ k =>
    k = "calls" → ∃ n ∈ g.nodes, n.id = src ∧ n.kind = "function"

/-- `opOk` along a whole trace, each operation judged against the store
state immediately before it runs. -/
def OpsOk (g : Graph) : List Op → Prop
  | [] => True
  | op :: rest => opOk g op ∧ OpsOk (applyOp g op) rest

/-- An operation that can never be a `calls` append. -/
def opHarmless : Op → Bool
  | .addNode _ _ _ _ _ => true
  | .addEdge _ _ k => !(k == "calls")

theorem applyOps_append (g : Graph) (l1 l2 : List Op) :
    applyOps g (l1 ++ l2) = applyOps (applyOps g l1) l2 :=
  List.foldl_append _ _ _ _

theorem OpsOk_append {g : Graph} {l1 l2 : List Op} (h1 : OpsOk g l1)
    (h2 : OpsOk (applyOps g l1) l2) : OpsOk g (l1 ++ l2) := by
  induction l1 generalizing g with
  | nil => exact h2
  | cons op rest ih =>
    exact ⟨h1.1, ih h1.2 h2⟩

theorem opOk_of_harmless {op : Op} (h : opHarmless op = true) (g : Graph) :
    opOk g op := by
  cases op with
  | addNode id k l p s => trivial
  | addEdge s d k =>
    intro hk
    rw [opHarmless, hk] at h
    exact absurd h (by decide)

theorem OpsOk_of_harmless {ops : List Op}
    (h : ∀ op ∈ ops, opHarmless op = true) (g : Graph) : OpsOk g ops := by
  induction ops generalizing g with
  | nil => trivial
  | cons op rest ih =>
    exact ⟨opOk_of_harmless (h op (by simp)) g,
      ih (fun op' hop' => h op' (by simp [hop'])) _⟩

/-- **C5 (amended).** Directory scaffolding: for every discovered file the
finished store contains a `dir` node for each nonempty prefix of its
directory path and the parent→child `has` chain edge between consecutive
prefixes; a file in a subdirectory gets the `has` edge from its directory
id to its file id; the file node itself (of kind `file`) is present when
the file parses — an unparseable file's node is absent, as the
counterexample shows; and a file discovered directly at the root is the
target of no containment edge. -/
theorem c5_scaffolding (files : List SrcFile) (f : SrcFile)
    (hok : filesOk files = true) (hf : f ∈ files) :
    (∀ i < f.dirs.length,
      ∃ n ∈ (build_graph files).nodes,
        n.id = "dir:".toList ++ joinPath (f.dirs.take (i + 1)) ∧
        n.kind = "dir") ∧
    (∀ i, i + 1 < f.dirs.length →
      (⟨"dir:".toList ++ joinPath (f.dirs.take (i + 1)),
        "dir:".toList ++ joinPath (f.dirs.take (i + 2)), "has"⟩ : Edge)
        ∈ (build_graph files).edges) ∧
    (f.dirs ≠ [] →
      (⟨"dir:".toList ++ joinPath f.dirs, f.fileId, "has"⟩ : Edge)
        ∈ (build_graph files).edges) ∧
    (f.tree.isSome = true →
      ∃ n ∈ (build_graph files).nodes, n.id = f.fileId ∧
        n.kind = "file") ∧
    (f.dirs = [] →
      ∀ e ∈ (build_graph files).edges, e.kind = "has" →
        e.dst ≠ f.fileId) := by
  have hok' : ∀ f' ∈ files, fileOk f' = true :=
    fun f' hf' => List.all_eq_true.mp hok f' hf'
  obtain ⟨h1, h2, h3⟩ := build_graph_scaffold_facts files f hok' hf
  exact ⟨h1, h2, h3, build_graph_file_node files f hok' hf,
    fun hroot => root_file_no_has_edge files f hok' hf hroot⟩

/-- C5 witness: a concrete one-file run in a subdirectory gets the
dir→file containment edge. -/
theorem c5_witness :
    (filesOk [⟨["d".toList], "a.py".toList, [], none⟩] = true ∧
      (⟨["d".toList], "a.py".toList, [], none⟩ : SrcFile)
        ∈ [(⟨["d".toList], "a.py".toList, [], none⟩ : SrcFile)]) ∧
    (⟨"dir:".toList ++ joinPath ["d".toList],
      SrcFile.fileId ⟨["d".toList], "a.py".toList, [], none⟩, "has"⟩ : Edge)
      ∈ (build_graph [⟨["d".toList], "a.py".toList, [], none⟩]).edges :=
  ⟨⟨by decide, by simp⟩,
    (c5_scaffolding [⟨["d".toList], "a.py".toList, [], none⟩]
      ⟨["d".toList], "a.py".toList, [], none⟩
      (by decide) (by simp)).2.2.1 (by decide)⟩

/-- **C10.** A subdirectory file that fails to parse leaves a dangling
containment edge: the finished store holds the `has` edge from the file's
directory id to its file id, yet no node carries that file id (no other
discovered file shares the id, and imports only mint slash-free ids), so
the serializer's quoted-literal fallback is exercised — the missing
endpoint renders as the bare quoted id and the edge's line is still
produced. -/
theorem c10_dangling_edge (files : List SrcFile) (f : SrcFile)
    (hok : filesOk files = true) (hf : f ∈ files) (hdirs : f.dirs ≠ [])
    (htree : f.tree = none)
    (huniq : ∀ f' ∈ files, f'.fileId = f.fileId → f' = f) :
    (⟨"dir:".toList ++ joinPath f.dirs, f.fileId, "has"⟩ : Edge)
      ∈ (build_graph files).edges ∧
    (∀ n ∈ (build_graph files).nodes, n.id ≠ f.fileId) ∧
    (build_graph files).getNode f.fileId = none ∧
    endpointStr (build_graph files) f.fileId = '"' :: f.fileId ++ ['"'] ∧
    edgeLine (build_graph files)
      ⟨"dir:".toList ++ joinPath f.dirs, f.fileId, "has"⟩
      ∈ writeDotLines (build_graph files) := by
  have hok' : ∀ f' ∈ files, fileOk f' = true :=
    fun f' hf' => List.all_eq_true.mp hok f' hf'
  have hedge := (build_graph_scaffold_facts files f hok' hf).2.2 hdirs
  have hnoid : ∀ n ∈ (build_graph files).nodes, n.id ≠ f.fileId := by
    intro n hn hid
    obtain ⟨-, hcase⟩ := build_graph_fileId_cases files f hok' hf n hn hid
    obtain ⟨f', hf', hsome, hfid⟩ := hcase hdirs
    have hff : f' = f := huniq f' hf' hfid
    rw [hff, htree] at hsome
    exact absurd hsome (by decide)
  have hnone : (build_graph files).getNode f.fileId = none := by
    unfold Graph.getNode
    rw [List.find?_eq_none]
    intro n hn hbe
    exact hnoid n hn (eq_of_beq hbe)
  have hep : endpointStr (build_graph files) f.fileId
      = '"' :: f.fileId ++ ['"'] := by
    unfold endpointStr
    rw [hnone]
  refine ⟨hedge, hnoid, hnone, hep, ?_⟩
  unfold writeDotLines
  refine List.mem_append.mpr (Or.inl (List.mem_append.mpr (Or.inr ?_)))
  exact List.mem_map_of_mem _ hedge

/-- C10 witness: the dangling dir→file edge of a concrete unparseable
file, whose file id has no node. -/
theorem c10_witness :
    (filesOk [⟨["d".toList], "b.py".toList, [], none⟩] = true ∧
      (⟨["d".toList], "b.py".toList, [], none⟩ : SrcFile).dirs ≠ [] ∧
      (⟨["d".toList], "b.py".toList, [], none⟩ : SrcFile).tree = none) ∧
    (⟨"dir:".toList ++ joinPath ["d".toList],
      SrcFile.fileId ⟨["d".toList], "b.py".toList, [], none⟩, "has"⟩ : Edge)
      ∈ (build_graph [⟨["d".toList], "b.py".toList, [], none⟩]).edges ∧
    (build_graph [⟨["d".toList], "b.py".toList, [], none⟩]).getNode
      (SrcFile.fileId ⟨["d".toList], "b.py".toList, [], none⟩) = none :=
  ⟨⟨by decide, by decide, rfl⟩,
    (c10_dangling_edge [⟨["d".toList], "b.py".toList, [], none⟩]
      ⟨["d".toList], "b.py".toList, [], none⟩
      (by decide) (by simp) (by decide) rfl
      (fun f' hf' _ => List.mem_singleton.mp hf')).1,
    (c10_dangling_edge [⟨["d".toList], "b.py".toList, [], none⟩]
      ⟨["d".toList], "b.py".toList, [], none⟩
      (by decide) (by simp) (by decide) rfl
      (fun f' hf' _ => List.mem_singleton.mp hf')).2.2.1⟩

/-- The operations `_resolve_target` performs on store `g`: at most the
placeholder insert of its final fallback. -/
def resolve_targetOps (fid : Str) (g : Graph) (name : Str) : List Op :=
  let short_name := shortName name
  match g.nodes.find? (fun n => n.label == name && fnOrClass n) with
  | some _ => []
  | none =>
    let same_file := g.nodes.filter
      (fun n => n.label == short_name && fnOrClass n && fid.isPrefixOf n.id)
    let other := g.nodes.filter
      (fun n => n.label == short_name && fnOrClass n && !(fid.isPrefixOf n.id))
    match same_file.head? with
    | some _ => []
    | none =>
      match other.head? with
      | some _ => []
      | none =>
        let placeholder_id := ("function:".toList) ++ name
        [Op.addNode placeholder_id "function" short_name "3rd" 0]

/-- The operations `_handle_call` performs on store `g`: the resolver's
(at most one) placeholder insert, then the `calls` edge append. -/
def handle_callOps (fid scope : Str) (g : Graph) (c : Ast) : List Op :=
  match c with
  | .Call func _ =>
    (match resolve_name func with
     | none => []
     | some called =>
       resolve_targetOps fid g called ++
         [Op.addEdge scope (resolve_target fid g called).2 "calls"])
  | _ => []

mutual

/-- The operations one iteration of the `_walk_body_for_calls` loop
performs when entered on store `g`. -/
def walkChildOps (fid scope : Str) (g : Graph) (c : Ast) : List Op :=
  if c.isDef then []
  else
    (if c.isCall then handle_callOps fid scope g c else []) ++
      walkBodyOps fid scope
        (if c.isCall then handle_call fid scope g c else g) c
termination_by 2 * sizeOf c + 1

/-- The operations `_walk_body_for_calls` performs when entered on store
`g`. -/
def walkBodyOps (fid scope : Str) (g : Graph) : Ast → List Op
  | .Module body => walkKidsOps fid scope g body
  | .Import _ => []
  | .ImportFrom _ => []
  | .ClassDef _ bases body _ _ =>
    walkKidsOps fid scope g bases ++
      walkKidsOps fid scope (walkKids fid scope g bases) body
  | .FunctionDef _ body _ _ => walkKidsOps fid scope g body
  | .AsyncFunctionDef _ body _ _ => walkKidsOps fid scope g body
  | .Name _ => []
  | .Attribute value _ => walkChildOps fid scope g value
  | .Call func args =>
    walkChildOps fid scope g func ++
      walkKidsOps fid scope (walkChild fid scope g func) args
  | .Other children => walkKidsOps fid scope g children
termination_by a => 2 * sizeOf a

/-- The operations of the child loop of `_walk_body_for_calls`. -/
def walkKidsOps (fid scope : Str) (g : Graph) : List Ast → List Op
  | [] => []
  | c :: cs =>
    walkChildOps fid scope g c ++
      walkKidsOps fid scope (walkChild fid scope g c) cs
termination_by cs => 2 * sizeOf cs

end

/-- The operations of one alias iteration of `visit_Import`. -/
def importOps (scopeId : Str) (names : List Str) : List Op :=
  names.flatMap (fun nm =>
    [Op.addNode ("file:".toList ++ nm) "file" nm "3rd" 0,
     Op.addEdge scopeId ("file:".toList ++ nm) "imports"])

/-- The operations of the base-class loop of `visit_ClassDef` (these do
not depend on the store). -/
def basesOps (cls_id : Str) (bases : List Ast) : List Op :=
  bases.flatMap (fun b =>
    match resolve_name b with
    | some base_name =>
      if base_name ≠ [] then
        [Op.addNode ("class:".toList ++ base_name) "class" base_name
          "3rd" 0,
         Op.addEdge cls_id ("class:".toList ++ base_name) "is"]
      else []
    | none => [])

mutual

/-- The operations the `visit` dispatch performs when entered on store
`g`; the store arguments of the sub-lists are the very intermediate
stores the corresponding sub-walks are entered on. -/
def visitOps (fid : Str) (stk : List Str) (g : Graph) : Ast → List Op
  | .Module body => visitListOps fid stk g body
  | .Import names => importOps (curScope fid stk) names
  | .ImportFrom module =>
    (match module with
     | none => []
     | some m =>
       [Op.addNode ("file:".toList ++ m) "file" m "3rd" 0,
        Op.addEdge (curScope fid stk) ("file:".toList ++ m) "imports"])
  | .ClassDef name bases body lineno end_lineno =>
    let cls_id := makeId fid stk "class" name
    let loc := (end_lineno.getD lineno) - lineno + 1
    let g1 := (g.add_node cls_id "class" name "1st" loc).add_edge
      (curScope fid stk) cls_id "has"
    let g2 := bases.foldl (fun g b =>
      match resolve_name b with
      | some base_name =>
        if base_name ≠ [] then
          let base_id := "class:".toList ++ base_name
          (g.add_node base_id "class" base_name "3rd" 0).add_edge
            cls_id base_id "is"
        else g
      | none => g) g1
    [Op.addNode cls_id "class" name "1st" loc,
     Op.addEdge (curScope fid stk) cls_id "has"] ++
      basesOps cls_id bases ++
      visitListOps fid (cls_id :: stk) g2 bases ++
      visitListOps fid (cls_id :: stk)
        (visitList fid (cls_id :: stk) g2 bases) body
  | .FunctionDef name body lineno end_lineno =>
    visitFunctionOps fid stk g name body lineno end_lineno
  | .AsyncFunctionDef name body lineno end_lineno =>
    visitFunctionOps fid stk g name body lineno end_lineno
  | .Name _ => []
  | .Attribute value _ => visitOps fid stk g value
  | .Call func args =>
    visitOps fid stk g func ++
      visitListOps fid stk (visit fid stk g func) args
  | .Other children => visitListOps fid stk g children
termination_by a => 2 * sizeOf a

/-- The operations `_visit_function` performs when entered on store `g`:
the function node insert, then its containment edge, then the call scan
(on the store holding that node), then the generic recursion. -/
def visitFunctionOps (fid : Str) (stk : List Str) (g : Graph) (name : Str)
    (body : List Ast) (lineno : Nat) (end_lineno : Option Nat) : List Op :=
  let func_id := makeId fid stk "function" name
  let loc := (end_lineno.getD lineno) - lineno + 1
  let g1 := (g.add_node func_id "function" name "1st" loc).add_edge
    (curScope fid stk) func_id "has"
  [Op.addNode func_id "function" name "1st" loc,
   Op.addEdge (curScope fid stk) func_id "has"] ++
    walkBodyOps fid func_id g1 (.FunctionDef name body lineno end_lineno) ++
    visitListOps fid (func_id :: stk)
      (walkBody fid func_id g1 (.FunctionDef name body lineno end_lineno))
      body
termination_by 2 * sizeOf body + 1

/-- The operations of `generic_visit`'s loop when entered on store `g`. -/
def visitListOps (fid : Str) (stk : List Str) (g : Graph) :
    List Ast → List Op
  | [] => []
  | a :: as =>
    visitOps fid stk g a ++
      visitListOps fid stk (visit fid stk g a) as
termination_by as => 2 * sizeOf as

end

/-- The operations `analyze` performs when entered on store `g`. -/
def analyzeOps (g : Graph) (f : SrcFile) : List Op :=
  match f.tree with
  | none => []
  | some tree =>
    Op.addNode f.fileId "file" f.base "1st" (fileLoc f.src) ::
      visitOps f.fileId [f.fileId]
        (g.add_node f.fileId "file" f.base "1st" (fileLoc f.src)) tree

/-- The operations of the directory-prefix loop of `build_graph`. -/
def addDirsOps (g : Graph) (seen : List Str) (done rest : List Str) :
    List Op :=
  match rest with
  | [] => []
  | p :: rest' =>
    let dir_id := "dir:".toList ++ joinPath (done ++ [p])
    let gs :=
      if dir_id ∈ seen then (g, seen)
      else
        let g1 := g.add_node dir_id "dir" p "1st" 0
        let g2 := if done ≠ [] then
            g1.add_edge ("dir:".toList ++ joinPath done) dir_id "has"
          else g1
        (g2, dir_id :: seen)
    (if dir_id ∈ seen then []
     else if done ≠ [] then
        [Op.addNode dir_id "dir" p "1st" 0,
         Op.addEdge ("dir:".toList ++ joinPath done) dir_id "has"]
      else [Op.addNode dir_id "dir" p "1st" 0]) ++
      addDirsOps gs.1 gs.2 (done ++ [p]) rest'

/-- The operations of the scaffolding step of `build_graph` for one
file. -/
def scaffoldOps (gs : Graph × List Str) (f : SrcFile) : List Op :=
  addDirsOps gs.1 gs.2 [] f.dirs ++
    (if joinPath f.dirs ≠ [] then
       [Op.addEdge ("dir:".toList ++ joinPath f.dirs) f.fileId "has"]
     else [])

/-- The operations of the scaffolding loop over all discovered files. -/
def scaffoldAllOps (gs : Graph × List Str) : List SrcFile → List Op
  | [] => []
  | f :: rest => scaffoldOps gs f ++ scaffoldAllOps (scaffoldFile gs f) rest

/-- The operations of the analysis loop over all discovered files. -/
def analyzeAllOps (g : Graph) : List SrcFile → List Op
  | [] => []
  | f :: rest => analyzeOps g f ++ analyzeAllOps (analyze g f) rest

/-- The full ordered operation trace of a `build_graph` run: all
scaffolding operations, then all analysis operations, each sub-list
computed against the store state its phase is entered on. -/
def build_graphOps (files : List SrcFile) : List Op :=
  scaffoldAllOps (Graph.empty, []) files ++
    analyzeAllOps (files.foldl scaffoldFile (Graph.empty, [])).1 files

/-!
## Replay adequacy: each operation list is the run's own op sequence
-/

theorem resolve_targetOps_replay (fid : Str) (g : Graph) (name : Str) :
    applyOps g (resolve_targetOps fid g name)
      = (resolve_target fid g name).1 := by
  simp only [resolve_targetOps, resolve_target]
  repeat' split
  all_goals rfl

theorem handle_callOps_replay (fid scope : Str) (g : Graph) (c : Ast) :
    applyOps g (handle_callOps fid scope g c) = handle_call fid scope g c := by
  cases c
  case Call func args =>
    rw [handle_callOps, handle_call]
    cases hr : resolve_name func with
    | none => rfl
    | some called =>
      dsimp only
      rw [applyOps_append, resolve_targetOps_replay]
      rfl
  all_goals rfl

mutual

theorem walkChildOps_replay (fid scope : Str) (g : Graph) (c : Ast) :
    applyOps g (walkChildOps fid scope g c) = walkChild fid scope g c := by
  rw [walkChildOps, walkChild]
  by_cases hd : c.isDef = true
  · simp only [if_pos hd]
    rfl
  · simp only [if_neg hd]
    by_cases hc : c.isCall = true
    · simp only [if_pos hc]
      rw [applyOps_append, handle_callOps_replay]
      exact walkBodyOps_replay fid scope (handle_call fid scope g c) c
    · simp only [if_neg hc]
      exact walkBodyOps_replay fid scope g c
termination_by 2 * sizeOf c + 1

theorem walkBodyOps_replay (fid scope : Str) (g : Graph) (a : Ast) :
    applyOps g (walkBodyOps fid scope g a) = walkBody fid scope g a := by
  cases a with
  | Module body =>
    rw [walkBodyOps, walkBody]
    exact walkKidsOps_replay fid scope g body
  | Import names => rw [walkBodyOps, walkBody]; rfl
  | ImportFrom m => rw [walkBodyOps, walkBody]; rfl
  | ClassDef name bases body lineno end_lineno =>
    rw [walkBodyOps, walkBody]
    rw [applyOps_append, walkKidsOps_replay fid scope g bases]
    exact walkKidsOps_replay fid scope (walkKids fid scope g bases) body
  | FunctionDef name body lineno end_lineno =>
    rw [walkBodyOps, walkBody]
    exact walkKidsOps_replay fid scope g body
  | AsyncFunctionDef name body lineno end_lineno =>
    rw [walkBodyOps, walkBody]
    exact walkKidsOps_replay fid scope g body
  | Name id => rw [walkBodyOps, walkBody]; rfl
  | Attribute value attr =>
    rw [walkBodyOps, walkBody]
    exact walkChildOps_replay fid scope g value
  | Call func args =>
    rw [walkBodyOps, walkBody]
    rw [applyOps_append, walkChildOps_replay fid scope g func]
    exact walkKidsOps_replay fid scope (walkChild fid scope g func) args
  | Other children =>
    rw [walkBodyOps, walkBody]
    exact walkKidsOps_replay fid scope g children
termination_by 2 * sizeOf a

theorem walkKidsOps_replay (fid scope : Str) (g : Graph) (cs : List Ast) :
    applyOps g (walkKidsOps fid scope g cs) = walkKids fid scope g cs := by
  cases cs with
  | nil => rw [walkKidsOps, walkKids]; rfl
  | cons c rest =>
    rw [walkKidsOps, walkKids]
    rw [applyOps_append, walkChildOps_replay fid scope g c]
    exact walkKidsOps_replay fid scope (walkChild fid scope g c) rest
termination_by 2 * sizeOf cs

end

theorem importOps_replay (scopeId : Str) (names : List Str) (g : Graph) :
    applyOps g (importOps scopeId names) =
      names.foldl (fun g nm =>
        let mod_id := "file:".toList ++ nm
        (g.add_node mod_id "file" nm "3rd" 0).add_edge scopeId mod_id
          "imports") g := by
  induction names generalizing g with
  | nil => rfl
  | cons nm rest ih =>
    rw [importOps, List.flatMap_cons, List.foldl_cons]
    rw [applyOps_append]
    have h0 : applyOps g [Op.addNode ("file:".toList ++ nm) "file" nm
        "3rd" 0, Op.addEdge scopeId ("file:".toList ++ nm) "imports"]
        = (g.add_node ("file:".toList ++ nm) "file" nm "3rd" 0).add_edge
          scopeId ("file:".toList ++ nm) "imports" := rfl
    rw [h0]
    exact ih _

theorem basesOps_replay (cls_id : Str) (bases : List Ast) (g : Graph) :
    applyOps g (basesOps cls_id bases) =
      bases.foldl (fun g b =>
        match resolve_name b with
        | some base_name =>
          if base_name ≠ [] then
            let base_id := "class:".toList ++ base_name
            (g.add_node base_id "class" base_name "3rd" 0).add_edge
              cls_id base_id "is"
          else g
        | none => g) g := by
  induction bases generalizing g with
  | nil => rfl
  | cons b rest ih =>
    rw [basesOps, List.flatMap_cons, List.foldl_cons]
    dsimp only
    cases hr : resolve_name b with
    | none => exact ih g
    | some base_name =>
      by_cases hne : base_name ≠ []
      · simp only [if_pos hne]
        rw [applyOps_append]
        have h0 : applyOps g [Op.addNode ("class:".toList ++ base_name)
            "class" base_name "3rd" 0,
            Op.addEdge cls_id ("class:".toList ++ base_name) "is"]
            = (g.add_node ("class:".toList ++ base_name) "class" base_name
              "3rd" 0).add_edge cls_id ("class:".toList ++ base_name)
              "is" := rfl
        rw [h0]
        exact ih _
      · simp only [if_neg hne]
        exact ih g

mutual

theorem visitOps_replay (fid : Str) (stk : List Str) (g : Graph) (a : Ast) :
    applyOps g (visitOps fid stk g a) = visit fid stk g a := by
  cases a with
  | Module body =>
    rw [visitOps, visit]
    exact visitListOps_replay fid stk g body
  | Import names =>
    rw [visitOps, visit]
    exact importOps_replay (curScope fid stk) names g
  | ImportFrom m =>
    cases m with
    | none => rw [visitOps, visit]; rfl
    | some mm => rw [visitOps, visit]; rfl
  | ClassDef name bases body lineno end_lineno =>
    rw [visitOps, visit]
    dsimp only
    rw [applyOps_append, applyOps_append, applyOps_append]
    have h0 : applyOps g [Op.addNode (makeId fid stk "class" name) "class"
        name "1st" ((end_lineno.getD lineno) - lineno + 1),
        Op.addEdge (curScope fid stk) (makeId fid stk "class" name) "has"]
        = (g.add_node (makeId fid stk "class" name) "class" name "1st"
          ((end_lineno.getD lineno) - lineno + 1)).add_edge
          (curScope fid stk) (makeId fid stk "class" name) "has" := rfl
    rw [h0, basesOps_replay]
    rw [visitListOps_replay fid (makeId fid stk "class" name :: stk) _ bases]
    exact visitListOps_replay fid (makeId fid stk "class" name :: stk) _ body
  | FunctionDef name body lineno end_lineno =>
    rw [visitOps, visit]
    exact visitFunctionOps_replay fid stk g name body lineno end_lineno
  | AsyncFunctionDef name body lineno end_lineno =>
    rw [visitOps, visit]
    exact visitFunctionOps_replay fid stk g name body lineno end_lineno
  | Name id => rw [visitOps, visit]; rfl
  | Attribute value attr =>
    rw [visitOps, visit]
    exact visitOps_replay fid stk g value
  | Call func args =>
    rw [visitOps, visit]
    rw [applyOps_append, visitOps_replay fid stk g func]
    exact visitListOps_replay fid stk (visit fid stk g func) args
  | Other children =>
    rw [visitOps, visit]
    exact visitListOps_replay fid stk g children
termination_by 2 * sizeOf a
decreasing_by
  all_goals subst_vars
  all_goals simp_arith
  all_goals omega

theorem visitFunctionOps_replay (fid : Str) (stk : List Str) (g : Graph)
    (name : Str) (body : List Ast) (lineno : Nat)
    (end_lineno : Option Nat) :
    applyOps g (visitFunctionOps fid stk g name body lineno end_lineno)
      = visitFunction fid stk g name body lineno end_lineno := by
  rw [visitFunctionOps, visitFunction]
  rw [applyOps_append, applyOps_append]
  have h0 : applyOps g [Op.addNode (makeId fid stk "function" name)
      "function" name "1st" ((end_lineno.getD lineno) - lineno + 1),
      Op.addEdge (curScope fid stk) (makeId fid stk "function" name)
        "has"]
      = (g.add_node (makeId fid stk "function" name) "function" name "1st"
        ((end_lineno.getD lineno) - lineno + 1)).add_edge
        (curScope fid stk) (makeId fid stk "function" name) "has" := rfl
  rw [h0, walkBodyOps_replay]
  exact visitListOps_replay fid (makeId fid stk "function" name :: stk)
    _ body
termination_by 2 * sizeOf body + 1

theorem visitListOps_replay (fid : Str) (stk : List Str) (g : Graph)
    (as : List Ast) :
    applyOps g (visitListOps fid stk g as) = visitList fid stk g as := by
  cases as with
  | nil => rw [visitListOps, visitList]; rfl
  | cons a rest =>
    rw [visitListOps, visitList]
    rw [applyOps_append, visitOps_replay fid stk g a]
    exact visitListOps_replay fid stk (visit fid stk g a) rest
termination_by 2 * sizeOf as

end

theorem analyzeOps_replay (g : Graph) (f : SrcFile) :
    applyOps g (analyzeOps g f) = analyze g f := by
  unfold analyzeOps analyze
  cases htree : f.tree with
  | none => rfl
  | some tree =>
    dsimp only
    have hstep : applyOps g (Op.addNode f.fileId "file" f.base "1st"
        (fileLoc f.src) :: visitOps f.fileId [f.fileId]
          (g.add_node f.fileId "file" f.base "1st" (fileLoc f.src)) tree)
        = applyOps (g.add_node f.fileId "file" f.base "1st" (fileLoc f.src))
          (visitOps f.fileId [f.fileId] (g.add_node f.fileId "file" f.base
            "1st" (fileLoc f.src)) tree) := rfl
    rw [hstep]
    exact visitOps_replay f.fileId [f.fileId] _ tree

theorem addDirsOps_replay (rest : List Str) (g : Graph)
    (seen done : List Str) :
    applyOps g (addDirsOps g seen done rest)
      = (addDirs g seen done rest).1 := by
  induction rest generalizing g seen done with
  | nil => rw [addDirsOps, addDirs]; rfl
  | cons p rest' ih =>
    rw [addDirsOps, addDirs]
    dsimp only
    by_cases hmem : ("dir:".toList ++ joinPath (done ++ [p])) ∈ seen
    · simp only [if_pos hmem]
      exact ih g seen (done ++ [p])
    · simp only [if_neg hmem]
      by_cases hd : done ≠ []
      · simp only [if_pos hd]
        rw [applyOps_append]
        have h0 : applyOps g [Op.addNode ("dir:".toList ++
            joinPath (done ++ [p])) "dir" p "1st" 0,
            Op.addEdge ("dir:".toList ++ joinPath done)
              ("dir:".toList ++ joinPath (done ++ [p])) "has"]
            = (g.add_node ("dir:".toList ++ joinPath (done ++ [p])) "dir" p
              "1st" 0).add_edge ("dir:".toList ++ joinPath done)
              ("dir:".toList ++ joinPath (done ++ [p])) "has" := rfl
        rw [h0]
        exact ih _ _ (done ++ [p])
      · simp only [if_neg hd]
        rw [applyOps_append]
        have h0 : applyOps g [Op.addNode ("dir:".toList ++
            joinPath (done ++ [p])) "dir" p "1st" 0]
            = g.add_node ("dir:".toList ++ joinPath (done ++ [p])) "dir" p
              "1st" 0 := rfl
        rw [h0]
        exact ih _ _ (done ++ [p])

theorem scaffoldOps_replay (gs : Graph × List Str) (f : SrcFile) :
    applyOps gs.1 (scaffoldOps gs f) = (scaffoldFile gs f).1 := by
  rw [scaffoldOps]
  unfold scaffoldFile
  dsimp only
  rw [applyOps_append, addDirsOps_replay]
  by_cases hd : joinPath f.dirs ≠ []
  · simp only [if_pos hd]
    rfl
  · simp only [if_neg hd]
    rfl

theorem scaffoldAllOps_replay (files : List SrcFile)
    (gs : Graph × List Str) :
    applyOps gs.1 (scaffoldAllOps gs files)
      = (files.foldl scaffoldFile gs).1 := by
  induction files generalizing gs with
  | nil => rfl
  | cons f rest ih =>
    rw [scaffoldAllOps, List.foldl_cons]
    rw [applyOps_append, scaffoldOps_replay]
    exact ih (scaffoldFile gs f)

theorem analyzeAllOps_replay (files : List SrcFile) (g : Graph) :
    applyOps g (analyzeAllOps g files) = files.foldl analyze g := by
  induction files generalizing g with
  | nil => rfl
  | cons f rest ih =>
    rw [analyzeAllOps, List.foldl_cons]
    rw [applyOps_append, analyzeOps_replay]
    exact ih (analyze g f)

theorem build_graphOps_replay (files : List SrcFile) :
    applyOps Graph.empty (build_graphOps files) = build_graph files := by
  rw [build_graphOps]
  unfold build_graph
  rw [applyOps_append]
  have h1 : applyOps Graph.empty (scaffoldAllOps (Graph.empty, []) files)
      = (files.foldl scaffoldFile (Graph.empty, [])).1 :=
    scaffoldAllOps_replay files (Graph.empty, [])
  rw [h1]
  exact analyzeAllOps_replay files _

/-!
## The at-the-moment invariant along the trace
-/

theorem resolve_targetOps_harmless (fid : Str) (g : Graph) (name : Str) :
    ∀ op ∈ resolve_targetOps fid g name, opHarmless op = true := by
  intro op hop
  rw [resolve_targetOps] at hop
  split at hop
  · exact absurd hop (by simp)
  · dsimp only at hop
    split at hop
    · exact absurd hop (by simp)
    · split at hop
      · exact absurd hop (by simp)
      · rw [List.mem_singleton] at hop
        rw [hop]
        rfl

theorem importOps_harmless (scopeId : Str) (names : List Str) :
    ∀ op ∈ importOps scopeId names, opHarmless op = true := by
  intro op hop
  rw [importOps, List.mem_flatMap] at hop
  obtain ⟨nm, -, hmem⟩ := hop
  rcases List.mem_cons.mp hmem with rfl | h'
  · rfl
  · rw [List.mem_singleton] at h'
    rw [h']
    rfl

theorem basesOps_harmless (cls_id : Str) (bases : List Ast) :
    ∀ op ∈ basesOps cls_id bases, opHarmless op = true := by
  intro op hop
  rw [basesOps, List.mem_flatMap] at hop
  obtain ⟨b, -, hmem⟩ := hop
  cases hr : resolve_name b with
  | none =>
    rw [hr] at hmem
    exact absurd hmem (by simp)
  | some bn =>
    rw [hr] at hmem
    dsimp only at hmem
    by_cases hne : bn ≠ []
    · rw [if_pos hne] at hmem
      rcases List.mem_cons.mp hmem with rfl | h'
      · rfl
      · rw [List.mem_singleton] at h'
        rw [h']
        rfl
    · rw [if_neg hne] at hmem
      exact absurd hmem (by simp)

theorem addDirsOps_harmless (rest : List Str) (g : Graph)
    (seen done : List Str) :
    ∀ op ∈ addDirsOps g seen done rest, opHarmless op = true := by
  induction rest generalizing g seen done with
  | nil =>
    intro op hop
    rw [addDirsOps] at hop
    exact absurd hop (by simp)
  | cons p rest' ih =>
    intro op hop
    rw [addDirsOps] at hop
    dsimp only at hop
    rcases List.mem_append.mp hop with h | h
    · by_cases hmem : ("dir:".toList ++ joinPath (done ++ [p])) ∈ seen
      · rw [if_pos hmem] at h
        exact absurd h (by simp)
      · rw [if_neg hmem] at h
        by_cases hd : done ≠ []
        · rw [if_pos hd] at h
          rcases List.mem_cons.mp h with rfl | h'
          · rfl
          · rw [List.mem_singleton] at h'
            rw [h']
            rfl
        · rw [if_neg hd] at h
          rw [List.mem_singleton] at h
          rw [h]
          rfl
    · exact ih _ _ _ op h

theorem scaffoldOps_harmless (gs : Graph × List Str) (f : SrcFile) :
    ∀ op ∈ scaffoldOps gs f, opHarmless op = true := by
  intro op hop
  rw [scaffoldOps] at hop
  rcases List.mem_append.mp hop with h | h
  · exact addDirsOps_harmless f.dirs gs.1 gs.2 [] op h
  · by_cases hd : joinPath f.dirs ≠ []
    · rw [if_pos hd] at h
      rw [List.mem_singleton] at h
      rw [h]
      rfl
    · rw [if_neg hd] at h
      exact absurd h (by simp)

theorem scaffoldAllOps_harmless (files : List SrcFile)
    (gs : Graph × List Str) :
    ∀ op ∈ scaffoldAllOps gs files, opHarmless op = true := by
  induction files generalizing gs with
  | nil =>
    intro op hop
    rw [scaffoldAllOps] at hop
    exact absurd hop (by simp)
  | cons f rest ih =>
    intro op hop
    rw [scaffoldAllOps] at hop
    rcases List.mem_append.mp hop with h | h
    · exact scaffoldOps_harmless gs f op h
    · exact ih (scaffoldFile gs f) op h

theorem handle_callOps_ok (fid scope : Str) (g : Graph) (c : Ast)
    (hscope : ∃ n ∈ g.nodes, n.id = scope ∧ n.kind = "function") :
    OpsOk g (handle_callOps fid scope g c) := by
  cases c
  case Call func args =>
    rw [handle_callOps]
    cases hr : resolve_name func with
    | none => trivial
    | some called =>
      dsimp only
      refine OpsOk_append (OpsOk_of_harmless
        (resolve_targetOps_harmless fid g called) g) ?_
      rw [resolve_targetOps_replay]
      refine ⟨fun hk => ?_, trivial⟩
      obtain ⟨n, hn, hid, hkind⟩ := hscope
      exact ⟨n, mem_nodes_mono (extends_resolve_target fid g called) hn,
        hid, hkind⟩
  all_goals trivial

mutual

theorem walkChildOps_ok (fid scope : Str) (g : Graph) (c : Ast)
    (hscope : ∃ n ∈ g.nodes, n.id = scope ∧ n.kind = "function") :
    OpsOk g (walkChildOps fid scope g c) := by
  rw [walkChildOps]
  by_cases hd : c.isDef = true
  · simp only [if_pos hd]
    trivial
  · simp only [if_neg hd]
    by_cases hc : c.isCall = true
    · simp only [if_pos hc]
      refine OpsOk_append (handle_callOps_ok fid scope g c hscope) ?_
      rw [handle_callOps_replay]
      refine walkBodyOps_ok fid scope (handle_call fid scope g c) c ?_
      obtain ⟨n, hn, hid, hk⟩ := hscope
      exact ⟨n, mem_nodes_mono (extends_handle_call fid scope g c) hn,
        hid, hk⟩
    · simp only [if_neg hc]
      exact walkBodyOps_ok fid scope g c hscope
termination_by 2 * sizeOf c + 1

theorem walkBodyOps_ok (fid scope : Str) (g : Graph) (a : Ast)
    (hscope : ∃ n ∈ g.nodes, n.id = scope ∧ n.kind = "function") :
    OpsOk g (walkBodyOps fid scope g a) := by
  cases a with
  | Module body =>
    rw [walkBodyOps]
    exact walkKidsOps_ok fid scope g body hscope
  | Import names => rw [walkBodyOps]; trivial
  | ImportFrom m => rw [walkBodyOps]; trivial
  | ClassDef name bases body lineno end_lineno =>
    rw [walkBodyOps]
    refine OpsOk_append (walkKidsOps_ok fid scope g bases hscope) ?_
    rw [walkKidsOps_replay]
    refine walkKidsOps_ok fid scope (walkKids fid scope g bases) body ?_
    obtain ⟨n, hn, hid, hk⟩ := hscope
    exact ⟨n, mem_nodes_mono (walkKids_extends fid scope g bases) hn,
      hid, hk⟩
  | FunctionDef name body lineno end_lineno =>
    rw [walkBodyOps]
    exact walkKidsOps_ok fid scope g body hscope
  | AsyncFunctionDef name body lineno end_lineno =>
    rw [walkBodyOps]
    exact walkKidsOps_ok fid scope g body hscope
  | Name id => rw [walkBodyOps]; trivial
  | Attribute value attr =>
    rw [walkBodyOps]
    exact walkChildOps_ok fid scope g value hscope
  | Call func args =>
    rw [walkBodyOps]
    refine OpsOk_append (walkChildOps_ok fid scope g func hscope) ?_
    rw [walkChildOps_replay]
    refine walkKidsOps_ok fid scope (walkChild fid scope g func) args ?_
    obtain ⟨n, hn, hid, hk⟩ := hscope
    exact ⟨n, mem_nodes_mono (walkChild_extends fid scope g func) hn,
      hid, hk⟩
  | Other children =>
    rw [walkBodyOps]
    exact walkKidsOps_ok fid scope g children hscope
termination_by 2 * sizeOf a

theorem walkKidsOps_ok (fid scope : Str) (g : Graph) (cs : List Ast)
    (hscope : ∃ n ∈ g.nodes, n.id = scope ∧ n.kind = "function") :
    OpsOk g (walkKidsOps fid scope g cs) := by
  cases cs with
  | nil => rw [walkKidsOps]; trivial
  | cons c rest =>
    rw [walkKidsOps]
    refine OpsOk_append (walkChildOps_ok fid scope g c hscope) ?_
    rw [walkChildOps_replay]
    refine walkKidsOps_ok fid scope (walkChild fid scope g c) rest ?_
    obtain ⟨n, hn, hid, hk⟩ := hscope
    exact ⟨n, mem_nodes_mono (walkChild_extends fid scope g c) hn, hid, hk⟩
termination_by 2 * sizeOf cs

end

mutual

theorem visitOps_ok (fid : Str) (stk : List Str) (g : Graph) (a : Ast)
    (ha : astOk a = true) (hkind : FnKindInv g)
    (hstk : ∀ s ∈ stk, ∃ pp, s = "file:".toList ++ pp)
    (hfid : ∃ pp, fid = "file:".toList ++ pp) :
    OpsOk g (visitOps fid stk g a) := by
  cases a with
  | Module body =>
    rw [visitOps]
    exact visitListOps_ok fid stk g body (by rwa [astOk] at ha) hkind
      hstk hfid
  | Import names =>
    rw [visitOps]
    exact OpsOk_of_harmless (importOps_harmless (curScope fid stk) names) g
  | ImportFrom m =>
    cases m with
    | none => rw [visitOps]; trivial
    | some mm =>
      rw [visitOps]
      exact ⟨trivial, fun hk => absurd hk (by decide), trivial⟩
  | ClassDef name bases body lineno end_lineno =>
    rw [visitOps]
    rw [astOk, Bool.and_eq_true, Bool.and_eq_true] at ha
    obtain ⟨⟨hname, hbases⟩, hbody⟩ := ha
    obtain ⟨pp, hpp⟩ := curScope_file hstk hfid
    have hstk' : ∀ s ∈ (makeId fid stk "class" name :: stk),
        ∃ qq, s = "file:".toList ++ qq := by
      intro s hs
      rcases List.mem_cons.mp hs with rfl | hs'
      · exact makeId_file "class" name hstk hfid
      · exact hstk s hs'
    have h0 : applyOps g [Op.addNode (makeId fid stk "class" name) "class"
        name "1st" ((end_lineno.getD lineno) - lineno + 1),
        Op.addEdge (curScope fid stk) (makeId fid stk "class" name) "has"]
        = (g.add_node (makeId fid stk "class" name) "class" name "1st"
          ((end_lineno.getD lineno) - lineno + 1)).add_edge
          (curScope fid stk) (makeId fid stk "class" name) "has" := rfl
    obtain ⟨h1n, -⟩ := def_node_char g (curScope fid stk)
      (makeId fid stk "class" name) "class" name
      ((end_lineno.getD lineno) - lineno + 1)
      (Or.inr (Or.inl ⟨curScope fid stk, name, makeId_class fid stk name,
        ⟨pp, hpp⟩, (okName_iff.mp hname).1, rfl⟩))
      (makeId_cc fid stk "class" name)
    obtain ⟨h2n, -⟩ := bases_fold_char (makeId fid stk "class" name) bases
      ((g.add_node (makeId fid stk "class" name) "class" name "1st"
        ((end_lineno.getD lineno) - lineno + 1)).add_edge (curScope fid stk)
        (makeId fid stk "class" name) "has")
      (fun b hb => astListOk_mem hbases hb)
    have hkind2 : FnKindInv _ := FnKindInv_of_char hkind (char_trans h1n h2n)
    have hops1 : OpsOk g [Op.addNode (makeId fid stk "class" name) "class"
        name "1st" ((end_lineno.getD lineno) - lineno + 1),
        Op.addEdge (curScope fid stk) (makeId fid stk "class" name)
          "has"] :=
      ⟨trivial, fun hk => absurd hk (by decide), trivial⟩
    have hA : OpsOk g ([Op.addNode (makeId fid stk "class" name) "class"
        name "1st" ((end_lineno.getD lineno) - lineno + 1),
        Op.addEdge (curScope fid stk) (makeId fid stk "class" name) "has"]
          ++ basesOps (makeId fid stk "class" name) bases) := by
      refine OpsOk_append hops1 ?_
      exact OpsOk_of_harmless
        (basesOps_harmless (makeId fid stk "class" name) bases) _
    refine OpsOk_append (OpsOk_append hA ?_) ?_
    · rw [applyOps_append, h0, basesOps_replay]
      exact visitListOps_ok fid (makeId fid stk "class" name :: stk) _
        bases hbases hkind2 hstk' hfid
    · rw [applyOps_append, applyOps_append, h0, basesOps_replay,
        visitListOps_replay]
      obtain ⟨h3n, -⟩ := visitList_char fid
        (makeId fid stk "class" name :: stk) _ bases hbases hkind2
        hstk' hfid
      exact visitListOps_ok fid (makeId fid stk "class" name :: stk) _
        body hbody (FnKindInv_of_char hkind2 h3n) hstk' hfid
  | FunctionDef name body lineno end_lineno =>
    rw [visitOps]
    rw [astOk, Bool.and_eq_true] at ha
    exact visitFunctionOps_ok fid stk g name body lineno end_lineno ha.1
      ha.2 hkind hstk hfid
  | AsyncFunctionDef name body lineno end_lineno =>
    rw [visitOps]
    rw [astOk, Bool.and_eq_true] at ha
    exact visitFunctionOps_ok fid stk g name body lineno end_lineno ha.1
      ha.2 hkind hstk hfid
  | Name id => rw [visitOps]; trivial
  | Attribute value attr =>
    rw [visitOps]
    rw [astOk, Bool.and_eq_true] at ha
    exact visitOps_ok fid stk g value ha.2 hkind hstk hfid
  | Call func args =>
    rw [visitOps]
    rw [astOk, Bool.and_eq_true] at ha
    refine OpsOk_append (visitOps_ok fid stk g func ha.1 hkind hstk hfid) ?_
    rw [visitOps_replay]
    obtain ⟨h1n, -⟩ := visit_char fid stk g func ha.1 hkind hstk hfid
    exact visitListOps_ok fid stk (visit fid stk g func) args ha.2
      (FnKindInv_of_char hkind h1n) hstk hfid
  | Other children =>
    rw [visitOps]
    exact visitListOps_ok fid stk g children (by rwa [astOk] at ha) hkind
      hstk hfid
termination_by 2 * sizeOf a
decreasing_by
  all_goals subst_vars
  all_goals simp_arith
  all_goals omega

theorem visitFunctionOps_ok (fid : Str) (stk : List Str) (g : Graph)
    (name : Str) (body : List Ast) (lineno : Nat) (end_lineno : Option Nat)
    (hname : okName name = true) (hbody : astListOk body = true)
    (hkind : FnKindInv g)
    (hstk : ∀ s ∈ stk, ∃ pp, s = "file:".toList ++ pp)
    (hfid : ∃ pp, fid = "file:".toList ++ pp) :
    OpsOk g (visitFunctionOps fid stk g name body lineno end_lineno) := by
  rw [visitFunctionOps]
  have hnc : ':' ∉ name := (okName_iff.mp hname).1
  have hfnid : FnId (makeId fid stk "function" name) := by
    rw [makeId_function]
    exact FnId_scoped hnc
  have hstk' : ∀ s ∈ (makeId fid stk "function" name :: stk),
      ∃ qq, s = "file:".toList ++ qq := by
    intro s hs
    rcases List.mem_cons.mp hs with rfl | hs'
    · exact makeId_file "function" name hstk hfid
    · exact hstk s hs'
  have h0 : applyOps g [Op.addNode (makeId fid stk "function" name)
      "function" name "1st" ((end_lineno.getD lineno) - lineno + 1),
      Op.addEdge (curScope fid stk) (makeId fid stk "function" name) "has"]
      = (g.add_node (makeId fid stk "function" name) "function" name "1st"
        ((end_lineno.getD lineno) - lineno + 1)).add_edge
        (curScope fid stk) (makeId fid stk "function" name) "has" := rfl
  -- the function node is in the store the call scan is entered on
  have hfn : ∃ n ∈ ((g.add_node (makeId fid stk "function" name) "function"
      name "1st" ((end_lineno.getD lineno) - lineno + 1)).add_edge
      (curScope fid stk) (makeId fid stk "function" name) "has").nodes,
      n.id = makeId fid stk "function" name ∧ n.kind = "function" := by
    rw [nodes_add_edge]
    cases hg : g.getNode (makeId fid stk "function" name) with
    | some n =>
      have hmem : n ∈ g.nodes := List.mem_of_find?_eq_some hg
      have hid : n.id = makeId fid stk "function" name := by
        have := List.find?_some hg
        simpa using this
      refine ⟨n, ?_, hid, hkind n hmem (hid ▸ hfnid)⟩
      rw [add_node_noop _ _ _ _ _ _ (by rw [hg]; rfl)]
      exact hmem
    | none =>
      refine ⟨⟨makeId fid stk "function" name, "function", name, "1st",
        (end_lineno.getD lineno) - lineno + 1⟩, ?_, rfl, rfl⟩
      unfold Graph.add_node
      rw [hg]
      simp
  have hops1 : OpsOk g [Op.addNode (makeId fid stk "function" name)
      "function" name "1st" ((end_lineno.getD lineno) - lineno + 1),
      Op.addEdge (curScope fid stk) (makeId fid stk "function" name)
        "has"] :=
    ⟨trivial, fun hk => absurd hk (by decide), trivial⟩
  obtain ⟨h1n, -⟩ := def_node_char g (curScope fid stk)
    (makeId fid stk "function" name) "function" name
    ((end_lineno.getD lineno) - lineno + 1)
    (Or.inr (Or.inr (Or.inl ⟨curScope fid stk, name,
      makeId_function fid stk name, hnc, rfl⟩)))
    (makeId_cc fid stk "function" name)
  have hastfd : astOk (.FunctionDef name body lineno end_lineno) = true := by
    rw [astOk, Bool.and_eq_true]
    exact ⟨hname, hbody⟩
  refine OpsOk_append (OpsOk_append hops1 ?_) ?_
  · rw [h0]
    exact walkBodyOps_ok fid (makeId fid stk "function" name) _
      (.FunctionDef name body lineno end_lineno) hfn
  · rw [applyOps_append, h0, walkBodyOps_replay]
    have h2n := walkBody_nodes fid (makeId fid stk "function" name)
      ((g.add_node (makeId fid stk "function" name) "function" name "1st"
        ((end_lineno.getD lineno) - lineno + 1)).add_edge
        (curScope fid stk) (makeId fid stk "function" name) "has")
      (.FunctionDef name body lineno end_lineno) hastfd
    have h2n' : ∀ n ∈ (walkBody fid (makeId fid stk "function" name)
        ((g.add_node (makeId fid stk "function" name) "function" name "1st"
          ((end_lineno.getD lineno) - lineno + 1)).add_edge
          (curScope fid stk) (makeId fid stk "function" name) "has")
        (.FunctionDef name body lineno end_lineno)).nodes,
        n ∈ ((g.add_node (makeId fid stk "function" name) "function" name
          "1st" ((end_lineno.getD lineno) - lineno + 1)).add_edge
          (curScope fid stk) (makeId fid stk "function" name) "has").nodes
          ∨ NewNode n := by
      intro n hn
      rcases h2n n hn with h | ⟨nm, hid, hc, hs, hk⟩
      · exact Or.inl h
      · exact Or.inr (Or.inr (Or.inr (Or.inr (Or.inr ⟨nm, hid, hc, hs, hk⟩))))
    exact visitListOps_ok fid (makeId fid stk "function" name :: stk) _
      body hbody (FnKindInv_of_char hkind (char_trans h1n h2n')) hstk' hfid
termination_by 2 * sizeOf body + 1
decreasing_by
  all_goals simp_arith

theorem visitListOps_ok (fid : Str) (stk : List Str) (g : Graph)
    (as : List Ast) (ha : astListOk as = true) (hkind : FnKindInv g)
    (hstk : ∀ s ∈ stk, ∃ pp, s = "file:".toList ++ pp)
    (hfid : ∃ pp, fid = "file:".toList ++ pp) :
    OpsOk g (visitListOps fid stk g as) := by
  cases as with
  | nil => rw [visitListOps]; trivial
  | cons a rest =>
    rw [visitListOps]
    rw [astListOk, Bool.and_eq_true] at ha
    refine OpsOk_append (visitOps_ok fid stk g a ha.1 hkind hstk hfid) ?_
    rw [visitOps_replay]
    obtain ⟨h1n, -⟩ := visit_char fid stk g a ha.1 hkind hstk hfid
    exact visitListOps_ok fid stk (visit fid stk g a) rest ha.2
      (FnKindInv_of_char hkind h1n) hstk hfid
termination_by 2 * sizeOf as
decreasing_by
  all_goals subst_vars
  all_goals simp_arith
  all_goals omega

end

theorem analyzeOps_ok (g : Graph) (f : SrcFile) (hf : fileOk f = true)
    (hkind : FnKindInv g) : OpsOk g (analyzeOps g f) := by
  rw [analyzeOps]
  cases htree : f.tree with
  | none => trivial
  | some tree =>
    dsimp only
    have hkind1 : FnKindInv (g.add_node f.fileId "file" f.base "1st"
        (fileLoc f.src)) := by
      intro n hn hfn
      rcases mem_nodes_add_node hn with h | h
      · exact hkind n h hfn
      · subst h
        have hno : ¬ FnId f.fileId := by
          unfold SrcFile.fileId
          exact not_FnId_file (rel_no_colon hf)
        exact absurd hfn hno
    refine ⟨trivial, ?_⟩
    exact visitOps_ok f.fileId [f.fileId] _ tree
      ((fileOk_parts hf).2.2 tree htree) hkind1
      (fun s hs => by
        rw [List.mem_singleton] at hs
        subst hs
        exact ⟨f.rel, rfl⟩)
      ⟨f.rel, rfl⟩

theorem analyzeAllOps_ok (files : List SrcFile) (g : Graph)
    (hok : ∀ f ∈ files, fileOk f = true) (hkind : FnKindInv g) :
    OpsOk g (analyzeAllOps g files) := by
  induction files generalizing g with
  | nil => trivial
  | cons f rest ih =>
    rw [analyzeAllOps]
    refine OpsOk_append (analyzeOps_ok g f (hok f (by simp)) hkind) ?_
    rw [analyzeOps_replay]
    exact ih (analyze g f) (fun f' hf' => hok f' (by simp [hf']))
      (analyze_char g f (hok f (by simp)) hkind).2.2.1

theorem build_graphOps_ok (files : List SrcFile)
    (hok : ∀ f ∈ files, fileOk f = true) :
    OpsOk Graph.empty (build_graphOps files) := by
  rw [build_graphOps]
  refine OpsOk_append (OpsOk_of_harmless
    (scaffoldAllOps_harmless files (Graph.empty, [])) Graph.empty) ?_
  have h1 : applyOps Graph.empty (scaffoldAllOps (Graph.empty, []) files)
      = (files.foldl scaffoldFile (Graph.empty, [])).1 :=
    scaffoldAllOps_replay files (Graph.empty, [])
  rw [h1]
  exact analyzeAllOps_ok files _ hok (scaffold_invariants files hok).1

/-- **C9.** Every `calls` edge is appended while its src names a
`function`-kind node already in the store: `build_graphOps` is the run's
own ordered trace of primitive store operations (replaying it from the
empty store reproduces the finished store, and each of its sub-lists is
emitted exactly where the corresponding source function performs the
operations), and along that trace every `calls` append finds, in the
store state immediately before it, a stored node of kind `function`
whose id is the edge's src (`OpsOk`) — the scan runs only after
`_visit_function` has inserted the function node and pushed its scope.
Consequently the finished store satisfies the src invariant outright,
and a subtree free of function definitions — a module body or a class
body without nested defs — contributes no `calls` edge at all. -/
theorem c9_calls_src_function (files : List SrcFile)
    (hok : filesOk files = true) :
    applyOps Graph.empty (build_graphOps files) = build_graph files ∧
    OpsOk Graph.empty (build_graphOps files) ∧
    CallsInv (build_graph files) ∧
    (∀ fid stk g a, noFnDef a = true →
      ∀ e ∈ (visit fid stk g a).edges, e.kind = "calls" → e ∈ g.edges) := by
  have hok' : ∀ f ∈ files, fileOk f = true :=
    fun f hf => List.all_eq_true.mp hok f hf
  have hs := scaffold_invariants files hok'
  exact ⟨build_graphOps_replay files, build_graphOps_ok files hok',
    (analyze_fold_inv files _ hok' hs.1 hs.2).2,
    fun fid stk g a hnd => visit_no_calls fid stk g a hnd⟩

/-- C9 witness: a run over one parsed file whose function body performs a
call, so the trace genuinely contains a `calls` append. -/
theorem c9_witness :
    filesOk [⟨[['d']], "a.py".toList, [],
        some (.Module [.FunctionDef ['f'] [.Call (.Name ['g']) []] 1
          (some 1)])⟩] = true ∧
    OpsOk Graph.empty (build_graphOps [⟨[['d']], "a.py".toList, [],
        some (.Module [.FunctionDef ['f'] [.Call (.Name ['g']) []] 1
          (some 1)])⟩]) ∧
    (∃ e ∈ (build_graph [⟨[['d']], "a.py".toList, [],
        some (.Module [.FunctionDef ['f'] [.Call (.Name ['g']) []] 1
          (some 1)])⟩]).edges, e.kind = "calls") :=
  ⟨by simp [filesOk, fileOk, astOk, astListOk, okSeg, okName],
   (c9_calls_src_function [⟨[['d']], "a.py".toList, [],
        some (.Module [.FunctionDef ['f'] [.Call (.Name ['g']) []] 1
          (some 1)])⟩]
      (by simp [filesOk, fileOk, astOk, astListOk, okSeg, okName])).2.1,
   by
     unfold build_graph
     simp only [List.foldl_cons, List.foldl_nil, analyze, visit, visitList,
       visitFunction, walkBody, walkKids, walkChild, handle_call]
     decide⟩

end CallGraph
